import Mathlib

/-!
# Flash disk of the TMS320F28 USB mass-storage device

A shallow embedding of `flash_disk/flashdisk.c` and of the storage glue in
`usblib/device/usbdmscglue.c`.

Conventions of the embedding.

* The target has 16-bit `char`: a `uint16_t *` and a `char *` step over the
  same 16-bit words, and a `uint64_t` covers four of them, least significant
  word first.  Memory is a function from word addresses to naturals; every
  load of a word reduces it modulo `2 ^ 16`.
* `uint32_t` arithmetic is written with an explicit `% U32`.
* `int` and `unsigned int` have 16 bits on the target.  The result of
  `disk_read` and `disk_write`, declared `unsigned int`, is the `uint32_t`
  value `len` reduced modulo `2 ^ 16`; the `int` variables `len` of
  `set_usb_password` and `verify_password` hold the string length reduced to
  a signed 16-bit value (`toInt16`).  `size_t` has 32 bits.
* The flash API (`Fapi_*`) is an external collaborator.  Every call is
  appended to a log and takes its status from a script `env`: the call
  issued when the log holds `k` entries succeeds iff `env k = true`.
* `ESTOP0` stops the program: the outcome `halt` carries the state reached.
* String scans (`strlen`, `strcmp`) take fuel; the outcome `stuck` means that
  the fuel ran out before a terminator was met.
-/

namespace FlashDisk

/-! ## Constants -/

/-- Source: `#define RAM_DISK_SIZE 0x50000` -/
abbrev RAM_DISK_SIZE : Nat := 0x50000
/-- Source: `#define SECTOR_SIZE 0x8000` -/
abbrev SECTOR_SIZE : Nat := 0x8000
/-- Source: `#define BLOCK_SIZE 0x1000` -/
abbrev BLOCK_SIZE : Nat := 0x1000
/-- Source: `#define TRANSFER_SIZE 64U` -/
abbrev TRANSFER_SIZE : Nat := 64
/-- Source: `#define Bzero_64KSector_u32length 0x4000` -/
abbrev Bzero_64KSector_u32length : Nat := 0x4000
/-- Source: `#define Bzero_16KSector_u32length 0x1000` -/
abbrev Bzero_16KSector_u32length : Nat := 0x1000
/-- Source: `uint16_t *ram_disk = (uint16_t *)0x090000;` -/
abbrev ram_disk : Nat := 0x090000
/-- Source: `uint16_t *usb_password = (uint16_t *)0x0B8000;` -/
abbrev usb_password : Nat := 0x0B8000
/-- Modulus of `uint32_t` arithmetic. -/
abbrev U32 : Nat := 4294967296
/-- Modulus of `unsigned int` arithmetic: 16 bits on the target. -/
abbrev UINT : Nat := 65536
/-- Source: `uint64_t magic = 0x3a4b4b43304c4e55;` -/
abbrev MAGIC : Nat := 0x3a4b4b43304c4e55
/-- The four 16-bit words of `magic`, least significant first. -/
abbrev magicWords : List Nat := [0x4E55, 0x304C, 0x4B43, 0x3A4B]
/-- The characters of the literal `"UNL0CKK:"`, followed by its terminator. -/
abbrev TAG : List Nat := [0x55, 0x4E, 0x4C, 0x30, 0x43, 0x4B, 0x4B, 0x3A, 0]
/-- Source: `#define SDCARD_PRESENT 0x00000001` -/
abbrev SDCARD_PRESENT : Nat := 1
/-- Source: `#define SDCARD_IN_USE 0x00000002` -/
abbrev SDCARD_IN_USE : Nat := 2

/-! ## Memory -/

/-- A memory: the word stored at each address (or index). -/
abbrev Mem := Nat → Nat

/-- Load of a 16-bit word. -/
def ld16 (m : Mem) (a : Nat) : Nat := m a % 65536

/-- Store of one word: `m[a] = v`. -/
def store (m : Mem) (a v : Nat) : Mem := fun x => if x = a then v else m x

/-- Pointer arithmetic `p + k` on a memory seen from `p`. -/
def shift (m : Mem) (k : Nat) : Mem := fun i => m (k + i)

/-- A string literal (or small array) seen as memory; zero past its end. -/
def ofList (l : List Nat) : Mem := fun i => l.getD i 0

/-- Conversion of an unsigned value to the 16-bit `int` of the target: the low
16 bits, read as a signed number. -/
def toInt16 (x : Nat) : Int :=
  if x % 65536 < 32768 then ((x % 65536 : Nat) : Int) else ((x % 65536 : Nat) : Int) - 65536

/-- Load of a `uint64_t` from four consecutive words. -/
def ld64 (m : Mem) : Nat :=
  ld16 m 0 + ld16 m 1 * 2 ^ 16 + ld16 m 2 * 2 ^ 32 + ld16 m 3 * 2 ^ 48

/-! ## C library -/

/-- The C `strlen(s)`, scanning from index `i`; `none` when the fuel runs out. -/
def strlenFrom (s : Mem) : Nat → Nat → Option Nat
  | 0, _ => none
  | fuel + 1, i => if ld16 s i = 0 then some i else strlenFrom s fuel (i + 1)

/-- The C `strlen(s)`. -/
def strlen (fuel : Nat) (s : Mem) : Option Nat := strlenFrom s fuel 0

/-- The C `strcmp(a, b)` from index `i`: the difference of the first pair of
characters that differ, 0 when both strings end together. -/
def strcmpFrom (a b : Mem) : Nat → Nat → Option Int
  | 0, _ => none
  | fuel + 1, i =>
    if ld16 a i ≠ ld16 b i then some ((ld16 a i : Int) - (ld16 b i : Int))
    else if ld16 a i = 0 then some 0
    else strcmpFrom a b fuel (i + 1)

/-- The C `strcmp(a, b)`. -/
def strcmp (fuel : Nat) (a b : Mem) : Option Int := strcmpFrom a b fuel 0

/-- The C `strncmp(a, b, n)` from index `i`, with `n` characters left to compare. -/
def strncmpFrom (a b : Mem) : Nat → Nat → Int
  | 0, _ => 0
  | n + 1, i =>
    if ld16 a i ≠ ld16 b i then (ld16 a i : Int) - (ld16 b i : Int)
    else if ld16 a i = 0 then 0
    else strncmpFrom a b n (i + 1)

/-- The C `strncmp(a, b, n)`. -/
def strncmp (a b : Mem) (n : Nat) : Int := strncmpFrom a b n 0

/-- The inner loop of `memmem`: do the `nlen` characters at `cur` equal the needle? -/
def matchAt (haystack : Mem) (needle : Mem) (cur : Nat) : Nat → Bool
  | 0 => true
  | n + 1 => matchAt haystack needle cur n && (ld16 haystack (cur + n) == ld16 needle n)

/-- The outer loop of `memmem`: `k` positions left to try, starting at `cur`. -/
def memmemFrom (haystack needle : Mem) (nlen : Nat) : Nat → Nat → Option Nat
  | 0, _ => none
  | k + 1, cur =>
    if matchAt haystack needle cur nlen then some cur
    else memmemFrom haystack needle nlen k (cur + 1)

/-- The function `memmem(haystack, hlen, needle, nlen)` of `flashdisk.c`: the offset of the
first occurrence, tried at `cur = haystack .. haystack + hlen - nlen`. -/
def memmem (haystack : Mem) (hlen : Nat) (needle : Mem) (nlen : Nat) : Option Nat :=
  if nlen ≤ hlen then memmemFrom haystack needle nlen (hlen - nlen + 1) 0 else none

/-! ## Device state and the flash API -/

/-- A call of the flash API. -/
inductive FlashOp
  | initializeAPI
  | setActiveFlashBank
  | eraseSector (addr : Nat)
  | blankCheck (addr len32 : Nat)
  | program (addr : Nat) (data : List Nat)
  | verify (addr len32 : Nat) (data : List Nat)
  deriving DecidableEq, Repr

/-- The state of the device.  `mem` is the flash, by absolute word address;
`log` lists the flash API calls issued so far, the latest first. -/
structure Device where
  mem : Mem
  sector_buffer : Mem
  erase : Nat
  usb_unlocked : Bool
  ulFlags : Nat
  log : List FlashOp

/-- How a function of the firmware ends. -/
inductive Outcome (α : Type)
  | ok (val : α)
  | halt (d : Device)
  | stuck

open Outcome

/-- Modelled from the spec: the Non-Volatile Storage Controller and its erase units.
The password record has a 16K-byte unit of its own (0x2000 words, the length
that `set_usb_password` blank-checks); the units of the storage region have
`SECTOR_SIZE` words. -/
def eraseUnitWords (addr : Nat) : Nat :=
  if addr < usb_password then SECTOR_SIZE else 2 * Bzero_16KSector_u32length

/-- Modelled from the spec: erase-sector of the Non-Volatile Storage
Controller (`Fapi_issueAsyncCommandWithAddress(Fapi_EraseSector, addr)` and the
wait for the state machine).  On success the unit that starts at `addr` is
blank (all words 0xFFFF); on failure the flash is left as it was. -/
def Fapi_EraseSector (env : Nat → Bool) (d : Device) (addr : Nat) : Bool × Device :=
  let st := env d.log.length
  (st, { d with
    mem := fun a =>
      if st ∧ addr ≤ a ∧ a < addr + eraseUnitWords addr then 0xFFFF else d.mem a
    log := FlashOp.eraseSector addr :: d.log })

/-- Modelled from the spec: blank-check of the Non-Volatile Storage Controller
(`Fapi_doBlankCheck`); the flash is not changed. -/
def Fapi_doBlankCheck (env : Nat → Bool) (d : Device) (addr len32 : Nat) : Bool × Device :=
  (env d.log.length, { d with log := FlashOp.blankCheck addr len32 :: d.log })

/-- The eight words at `src + i` handed to a program or verify command. -/
def chunk (src : Mem) (i : Nat) : List Nat := (List.range 8).map fun j => ld16 src (i + j)

/-- Modelled from the spec: program-range of the Non-Volatile Storage
Controller (`Fapi_issueProgrammingCommand` of eight words and the wait for the
state machine).  On success the eight words at `addr` hold the data; on
failure the flash is left as it was. -/
def Fapi_issueProgrammingCommand (env : Nat → Bool) (d : Device) (addr : Nat)
    (data : List Nat) : Bool × Device :=
  let st := env d.log.length
  (st, { d with
    mem := fun a => if st ∧ addr ≤ a ∧ a < addr + 8 then data.getD (a - addr) 0 else d.mem a
    log := FlashOp.program addr data :: d.log })

/-- Modelled from the spec: verify-range of the Non-Volatile Storage Controller
(`Fapi_doVerify` of four 32-bit words); the flash is not changed. -/
def Fapi_doVerify (env : Nat → Bool) (d : Device) (addr len32 : Nat)
    (data : List Nat) : Bool × Device :=
  (env d.log.length, { d with log := FlashOp.verify addr len32 data :: d.log })

/-- Modelled from the spec: `Fapi_initializeAPI`, status only. -/
def Fapi_initializeAPI (env : Nat → Bool) (d : Device) : Bool × Device :=
  (env d.log.length, { d with log := FlashOp.initializeAPI :: d.log })

/-- Modelled from the spec: `Fapi_setActiveFlashBank`, status only. -/
def Fapi_setActiveFlashBank (env : Nat → Bool) (d : Device) : Bool × Device :=
  (env d.log.length, { d with log := FlashOp.setActiveFlashBank :: d.log })

/-! ## flashdisk.c -/

/-- The handler `Example_Error` and the inline `ESTOP0`: execution stops. -/
def Example_Error {α : Type} (d : Device) : Outcome α := halt d

/-- The function `Init_Flash_Sectors`. -/
def Init_Flash_Sectors (env : Nat → Bool) (d : Device) : Outcome Device :=
  let r1 := Fapi_initializeAPI env d
  if r1.1 then
    let r2 := Fapi_setActiveFlashBank env r1.2
    if r2.1 then ok r2.2 else Example_Error r2.2
  else Example_Error r1.2

/-- The loop of `verify_password` on a candidate that starts with the magic
marker: `n` passes left, the next one at index `i` (`i` steps by 2);
`cand` is `password + 4`. -/
def markerScan (pw cand : Mem) : Nat → Nat → Bool
  | 0, _ => true
  | n + 1, i =>
    let x := ld16 cand (i / 2)
    if ld16 pw i ≠ x &&& 0xFF ∨ ld16 pw (i + 1) ≠ x >>> 8 then false
    else markerScan pw cand n (i + 2)

/-- The function `verify_password(password)`; `mem` is the flash, which holds
the record `usb_password`. -/
def verify_password (fuel : Nat) (mem : Mem) (password : Mem) : Option Bool :=
  let pw := shift mem usb_password
  if ld16 pw 0 = 0xFFFF then some true
  else
    let tagged : Option Bool :=
      if strncmp password (ofList TAG) 8 = 0 then
        (strcmp fuel (shift password 8) pw).map fun c => decide (c = 0)
      else some false
    match tagged with
    | none => none
    | some true => some true
    | some false =>
      if ld64 password = MAGIC then
        match strlen fuel pw with
        | none => none
        | some n =>
          let len : Int := toInt16 n
          some (markerScan pw (shift password 4) ((len + 1) / 2).toNat 0)
      else some false

/-- The function disk_initialize. -/
def disk_initialize (fuel : Nat) (env : Nat → Bool) (d : Device) : Outcome Device :=
  match Init_Flash_Sectors env d with
  | ok d1 =>
    match memmem (shift d1.mem ram_disk) (RAM_DISK_SIZE / 2) (ofList magicWords) 4 with
    | some p =>
      match verify_password fuel d1.mem (shift d1.mem (ram_disk + p)) with
      | some b => ok { d1 with usb_unlocked := b }
      | none => stuck
    | none =>
      if ld16 d1.mem usb_password = 0xFFFF then ok { d1 with usb_unlocked := true }
      else ok d1
  | halt h => halt h
  | stuck => stuck

/-- The loop body of `disk_read` at index `i`. -/
def readStep (mem : Mem) (start : Nat) (buf : Mem) (i : Nat) : Mem :=
  let data := ld16 mem (ram_disk + (start + i) % U32 / 2)
  store (store buf i (data &&& 0xFF)) (i + 1) (data >>> 8)

/-- The loop of `disk_read`: the first `k` passes, at `i = 0, 2, .., 2 * (k - 1)`. -/
def readLoop (mem : Mem) (start : Nat) : Nat → Mem → Mem
  | 0, buf => buf
  | k + 1, buf => readStep mem start (readLoop mem start k buf) (2 * k)

/-- The C `memset(buf, 0, len)`. -/
def memset0 (buf : Mem) (len : Nat) : Mem := fun i => if i < len then 0 else buf i

/-- The function `disk_read(lba, buf, off, len)`: the buffer afterwards and
the result. -/
def disk_read (d : Device) (lba : Nat) (buf : Mem) (off len : Nat) : Mem × Nat :=
  let start := (lba * BLOCK_SIZE + off) % U32
  let len := len * TRANSFER_SIZE % U32
  if !d.usb_unlocked then (memset0 buf len, len % UINT)
  else if (start + len) % U32 ≤ RAM_DISK_SIZE then
    (readLoop d.mem start ((len + 1) / 2) buf, len % UINT)
  else (buf, len % UINT)

/-- The program-and-verify loop shared by `set_usb_password` and `disk_write`:
the first `k` chunks of eight words, from `src` to flash address `base`. -/
def programLoop (env : Nat → Bool) (base : Nat) (src : Mem) : Nat → Device → Outcome Device
  | 0, d => ok d
  | k + 1, d =>
    match programLoop env base src k d with
    | ok d1 =>
      let r1 := Fapi_issueProgrammingCommand env d1 (base + 8 * k) (chunk src (8 * k))
      if r1.1 then
        let r2 := Fapi_doVerify env r1.2 (base + 8 * k) 4 (chunk src (8 * k))
        if r2.1 then ok r2.2 else Example_Error r2.2
      else Example_Error r1.2
    | halt h => halt h
    | stuck => stuck

/-- Erase of a unit followed by the blank check, as both functions do it: the
status of the erase command is overwritten by that of the blank check. -/
def eraseAndCheck (env : Nat → Bool) (d : Device) (addr len32 : Nat) : Outcome Device :=
  let r1 := Fapi_EraseSector env d addr
  let r2 := Fapi_doBlankCheck env r1.2 addr len32
  if r2.1 then ok r2.2 else Example_Error r2.2

/-- The local `buf[0x20]` of `set_usb_password` after the `memset` and the
`memcpy` of `len - 1` characters, where `n = strlen(password)`: `len` is the
16-bit `int` that holds `n + 1`, capped at 0x20, and `len - 1` is converted to
the `size_t` count of the `memcpy`. -/
def passwordSlot (password : Mem) (n : Nat) : Mem :=
  let len0 : Int := toInt16 (n + 1)
  let len : Int := if len0 > 0x20 then 0x20 else len0
  let cnt : Nat := ((len - 1) % 4294967296).toNat
  fun i => if i < cnt then ld16 password i else 0

/-- The function `set_usb_password(password)`. -/
def set_usb_password (fuel : Nat) (env : Nat → Bool) (d : Device) (password : Mem) :
    Outcome Device :=
  let erased : Outcome Device :=
    if ld16 d.mem usb_password ≠ 0xFFFF then
      eraseAndCheck env d usb_password Bzero_16KSector_u32length
    else ok d
  match erased with
  | ok d1 =>
    match strlen fuel password with
    | some n => programLoop env usb_password (passwordSlot password n) (0x20 / 8) d1
    | none => stuck
  | halt h => halt h
  | stuck => stuck

/-- The pre-scan of `disk_write`: is one of the `n` words from address `a` on
different from 0xFFFF? -/
def prescan (mem : Mem) : Nat → Nat → Bool
  | _, 0 => false
  | a, n + 1 => if ld16 mem a ≠ 0xFFFF then true else prescan mem (a + 1) n

/-- The merge loop of `disk_write`: the first `k` passes, at `i = 0, 2, ..`. -/
def mergeLoop (buf : Mem) (start : Nat) : Nat → Mem → Mem
  | 0, sb => sb
  | k + 1, sb =>
    store (mergeLoop buf start k sb) (start + 2 * k / 2)
      ((buf (2 * k) &&& 0xFF) ||| ((buf (2 * k + 1) &&& 0xFF) <<< 8))

/-- The first half of the part of `disk_write` guarded by
`start + len <= RAM_DISK_SIZE`: at `off == 0` the copy of the whole sector into
`sector_buffer` and the pre-scan of the target block, then the merge of the
buffer.  `sector_begin` and `start3` are the sector address and the index in
the sector that `disk_write` derives from `start`. -/
def stageWrite (d : Device) (buf : Mem) (sector_begin start3 off len : Nat) : Device :=
  let d1 : Device :=
    if off = 0 then
      { d with
        sector_buffer := fun i => if i < SECTOR_SIZE then d.mem (sector_begin + i)
                                  else d.sector_buffer i
        erase := if prescan d.mem (sector_begin + start3) (BLOCK_SIZE / 2) then 1 else d.erase }
    else d
  { d1 with sector_buffer := mergeLoop buf start3 ((len + 1) / 2) d1.sector_buffer }

/-- The second half, run when `off + len == BLOCK_SIZE`: the erase when the
flag `erase` is set, then the programming of the whole sector from
`sector_buffer`. -/
def commitSector (env : Nat → Bool) (d : Device) (sector_begin : Nat) : Outcome Device :=
  let erased : Outcome Device :=
    if d.erase ≠ 0 then eraseAndCheck env d sector_begin Bzero_64KSector_u32length
    else ok d
  match erased with
  | ok d3 => programLoop env sector_begin d3.sector_buffer (SECTOR_SIZE / 8) d3
  | halt h => halt h
  | stuck => stuck

/-- The part of `disk_write` guarded by `start + len <= RAM_DISK_SIZE`. -/
def writeRegion (env : Nat → Bool) (d : Device) (buf : Mem) (start off len : Nat) :
    Outcome Device :=
  let start2 := start / 2
  let lsector := start2 / SECTOR_SIZE
  let start3 := start2 % SECTOR_SIZE
  let sector_begin := ram_disk + lsector * SECTOR_SIZE
  let d2 := stageWrite d buf sector_begin start3 off len
  if (off + len) % U32 = BLOCK_SIZE then commitSector env d2 sector_begin
  else ok d2

/-- The function `disk_write(lba, buf, off, len)`: the state afterwards and
the result. -/
def disk_write (fuel : Nat) (env : Nat → Bool) (d : Device) (lba : Nat) (buf : Mem)
    (off len : Nat) : Outcome (Device × Nat) :=
  let start := (lba * BLOCK_SIZE + off) % U32
  let len := len * TRANSFER_SIZE % U32
  if !d.usb_unlocked then
    if (off + len) % U32 = BLOCK_SIZE then
      match verify_password fuel d.mem buf with
      | some b => ok ({ d with usb_unlocked := b }, len % UINT)
      | none => stuck
    else ok (d, len % UINT)
  else
    let afterSet : Outcome Device :=
      if strncmp buf (ofList TAG) 8 = 0 then set_usb_password fuel env d (shift buf 8)
      else ok d
    match afterSet with
    | ok d1 =>
      if (start + len) % U32 ≤ RAM_DISK_SIZE then
        match writeRegion env d1 buf start off len with
        | ok d2 => ok (d2, len % UINT)
        | halt h => halt h
        | stuck => stuck
      else ok (d1, len % UINT)
    | halt h => halt h
    | stuck => stuck

/-- The function `disk_ioctl(drive, command, buffer)`: the value of `*buffer`
afterwards, `out` being its value before.  The command codes come from
`flashdisk.h` and are parameters. -/
def disk_ioctl (GET_SECTOR_COUNT GET_SECTOR_SIZE : Nat) (_drive command out : Nat) : Nat :=
  if command = GET_SECTOR_COUNT then RAM_DISK_SIZE / BLOCK_SIZE
  else if command = GET_SECTOR_SIZE then BLOCK_SIZE
  else out

/-! ## usbdmscglue.c -/

/-- The function `USBDMSCStorageOpen(ulDrive)`. -/
def USBDMSCStorageOpen (fuel : Nat) (env : Nat → Bool) (d : Device) (_ulDrive : Nat) :
    Outcome Device :=
  match disk_initialize fuel env d with
  | ok d1 => ok { d1 with ulFlags := SDCARD_PRESENT ||| SDCARD_IN_USE }
  | halt h => halt h
  | stuck => stuck

/-- The function `USBDMSCStorageClose(pvDrive)`. -/
def USBDMSCStorageClose (d : Device) : Device := { d with ulFlags := 0 }

/-- The function `USBDMSCStorageRead`. -/
def USBDMSCStorageRead (d : Device) (pucData : Mem) (ulSector offset ulNumBlocks : Nat) :
    Mem × Nat :=
  disk_read d ulSector pucData offset ulNumBlocks

/-- The function `USBDMSCStorageWrite`. -/
def USBDMSCStorageWrite (fuel : Nat) (env : Nat → Bool) (d : Device) (pucData : Mem)
    (ulSector offset ulNumBlocks : Nat) : Outcome (Device × Nat) :=
  disk_write fuel env d ulSector pucData offset ulNumBlocks

/-- The function `USBDMSCStorageNumBlocks`. -/
def USBDMSCStorageNumBlocks (GET_SECTOR_COUNT GET_SECTOR_SIZE : Nat) : Nat :=
  disk_ioctl GET_SECTOR_COUNT GET_SECTOR_SIZE 0 GET_SECTOR_COUNT 0

/-- The function `USBDMSCStorageBlockSize`. -/
def USBDMSCStorageBlockSize (GET_SECTOR_COUNT GET_SECTOR_SIZE : Nat) : Nat :=
  disk_ioctl GET_SECTOR_COUNT GET_SECTOR_SIZE 0 GET_SECTOR_SIZE 0

/-! ## Notions used by the statements -/

/-- The script in which every flash primitive succeeds. -/
def AllOk (env : Nat → Bool) : Prop := ∀ k, env k = true

/-- The C strings at `a` and at `b` are equal character for character: both
run through the same `n` non-NUL characters and end there. -/
def StrEq (a b : Mem) : Prop :=
  ∃ n, (∀ i, i < n → ld16 a i = ld16 b i ∧ ld16 a i ≠ 0) ∧ ld16 a n = 0 ∧ ld16 b n = 0

/-- The memory at `a` begins with the eight characters of the tag `UNL0CKK:`. -/
def HasTag (a : Mem) : Prop := ∀ i, i < 8 → ld16 a i = TAG.getD i 0

/-- The memory at `a` begins with the four words of the magic marker. -/
def HasMarker (a : Mem) : Prop := ∀ i, i < 4 → ld16 a i = magicWords.getD i 0

/-- A device with blank flash, unlocked, nothing issued yet. -/
def blankDevice : Device :=
  { mem := fun _ => 0xFFFF, sector_buffer := fun _ => 0, erase := 0,
    usb_unlocked := true, ulFlags := 0, log := [] }

/-- The same device, locked. -/
def lockedDevice : Device := { blankDevice with usb_unlocked := false }

/-- The strings at `a + i` and `b + i` are equal (the relation `StrEq`, from index `i`). -/
def StrEqFrom (a b : Mem) (i : Nat) : Prop :=
  ∃ m, (∀ j, j < m → ld16 a (i + j) = ld16 b (i + j) ∧ ld16 a (i + j) ≠ 0) ∧
    ld16 a (i + m) = 0 ∧ ld16 b (i + m) = 0

/-- The flash after a successful erase of the unit that starts at `addr`. -/
def eraseMem (m : Mem) (addr : Nat) : Mem :=
  fun a => if addr ≤ a ∧ a < addr + eraseUnitWords addr then 0xFFFF else m a

/-- The flash after `k` chunks of `src` were programmed at `base`. -/
def progMem (m : Mem) (base : Nat) (src : Mem) (k : Nat) : Mem :=
  fun a => if base ≤ a ∧ a < base + 8 * k then ld16 src (a - base) else m a

/-- The calls that programming `k` chunks adds to the log, the latest first. -/
def progLog (base : Nat) (src : Mem) : Nat → List FlashOp
  | 0 => []
  | k + 1 =>
    FlashOp.verify (base + 8 * k) 4 (chunk src (8 * k)) ::
      FlashOp.program (base + 8 * k) (chunk src (8 * k)) :: progLog base src k

/-- The state after a successful erase and blank check. -/
def erasedDevice (d : Device) (addr len32 : Nat) : Device :=
  { d with
    mem := eraseMem d.mem addr
    log := FlashOp.blankCheck addr len32 :: FlashOp.eraseSector addr :: d.log }

/-- The state after `k` chunks of `src` were programmed and verified at `base`. -/
def programmedDevice (d : Device) (base : Nat) (src : Mem) (k : Nat) : Device :=
  { d with mem := progMem d.mem base src k, log := progLog base src k ++ d.log }

/-- The word that the merge loop builds from two buffer elements. -/
def packWord (buf : Mem) (k : Nat) : Nat := buf (2 * k) % 256 + 256 * (buf (2 * k + 1) % 256)

/-- The state in which a successful `commitSector` ends. -/
def committedDevice (d : Device) (sector_begin : Nat) : Device :=
  programmedDevice
    (if d.erase ≠ 0 then erasedDevice d sector_begin Bzero_64KSector_u32length else d)
    sector_begin d.sector_buffer (SECTOR_SIZE / 8)

/-- The state in which a successful `writeRegion` ends. -/
def writtenDevice (d : Device) (buf : Mem) (start off len : Nat) : Device :=
  let sector_begin := ram_disk + start / 2 / SECTOR_SIZE * SECTOR_SIZE
  let d2 := stageWrite d buf sector_begin (start / 2 % SECTOR_SIZE) off len
  if (off + len) % U32 = BLOCK_SIZE then committedDevice d2 sector_begin else d2

/-- The state in which a successful `set_usb_password` ends, `n` being the
length of the new secret. -/
def setPasswordDevice (d : Device) (password : Mem) (n : Nat) : Device :=
  programmedDevice
    (if ld16 d.mem usb_password ≠ 0xFFFF then
      erasedDevice d usb_password Bzero_16KSector_u32length else d)
    usb_password (passwordSlot password n) (0x20 / 8)

/-- The state in which a successful `disk_write` on an unlocked device ends,
`n` being the length of the string after the tag when the buffer has the tag. -/
def writeResult (d : Device) (lba : Nat) (buf : Mem) (off count n : Nat) : Device :=
  let start := (lba * BLOCK_SIZE + off) % U32
  let len := count * TRANSFER_SIZE % U32
  let d1 := if strncmp buf (ofList TAG) 8 = 0 then setPasswordDevice d (shift buf 8) n else d
  if (start + len) % U32 ≤ RAM_DISK_SIZE then writtenDevice d1 buf start off len else d1

/-- A write cycle on block `lba`: `disk_write` is called once per piece
`(count, buf)`, the first at offset `off`, each next one at the offset where
the previous one ended. -/
def writeCycle (fuel : Nat) (env : Nat → Bool) (lba : Nat) :
    Device → Nat → List (Nat × Mem) → Outcome Device
  | d, _, [] => ok d
  | d, off, (count, buf) :: rest =>
    match disk_write fuel env d lba buf off count with
    | ok r => writeCycle fuel env lba r.1 (off + count * TRANSFER_SIZE) rest
    | halt h => halt h
    | stuck => stuck

/-- The pieces, laid end to end from offset `off`, hold the bytes `data` of
the block and end exactly at `BLOCK_SIZE`. -/
def Covers (data : Mem) : Nat → List (Nat × Mem) → Prop
  | off, [] => off = BLOCK_SIZE
  | off, (count, buf) :: rest =>
    (∀ i, i < count * TRANSFER_SIZE → buf i = data (off + i)) ∧
      Covers data (off + count * TRANSFER_SIZE) rest

/-- Address of the sector that holds block `lba`. -/
def sectorOf (lba : Nat) : Nat := ram_disk + lba / 16 * SECTOR_SIZE

/-- Index of block `lba` in its sector. -/
def slotOf (lba : Nat) : Nat := lba % 16 * (BLOCK_SIZE / 2)

/-- The state in which `set_usb_password` leaves the device when `disk_write`
calls it (the buffer has the tag), the device itself otherwise. -/
def afterSetDevice (d : Device) (buf : Mem) (n : Nat) : Device :=
  if strncmp buf (ofList TAG) 8 = 0 then setPasswordDevice d (shift buf 8) n else d

/-- The invariant of a write cycle on block `lba` that has reached offset
`off`: the device is unlocked, the sector buffer holds the words packed from
the bytes `data` written so far, and once the block is complete the flash
holds them too. -/
def CycleInv (lba : Nat) (data : Mem) (d : Device) (off : Nat) : Prop :=
  d.usb_unlocked = true ∧
  (∀ k, k < off / 2 → d.sector_buffer (slotOf lba + k) = packWord data k) ∧
  (off = BLOCK_SIZE → ∀ k, k < BLOCK_SIZE / 2 →
    ld16 d.mem (sectorOf lba + slotOf lba + k) = packWord data k)

/-- The scenario of sequential full-block writes: `k` calls of `disk_write`
at offset 0 with 64 transfer units (0x1000 bytes) of `buf`, to the blocks
`0, 1, .., k - 1` in this order. -/
def writeBlocks (fuel : Nat) (env : Nat → Bool) (buf : Mem) (d : Device) : Nat → Outcome Device
  | 0 => ok d
  | k + 1 =>
    match writeBlocks fuel env buf d k with
    | ok d1 =>
      match disk_write fuel env d1 k buf 0 64 with
      | ok r => ok r.1
      | halt h => halt h
      | stuck => stuck
    | halt h => halt h
    | stuck => stuck

/-- A buffer that holds `UNL0CKK:A`, then zeros. -/
def tagA : Mem := ofList [0x55, 0x4E, 0x4C, 0x30, 0x43, 0x4B, 0x4B, 0x3A, 0x41]

/-- A locked device with a password configured: the record holds `A`. -/
def pwDevice : Device :=
  { mem := fun a => if a = usb_password then 0x41 else if a = usb_password + 1 then 0 else 0xFFFF
    sector_buffer := fun _ => 0, erase := 0, usb_unlocked := false, ulFlags := 0, log := [] }

/-- An unlocked device whose flash is blank but for the first word of block 0. -/
def dirtyDevice : Device :=
  { mem := fun a => if a = ram_disk then 0 else 0xFFFF
    sector_buffer := fun _ => 0, erase := 0, usb_unlocked := true, ulFlags := 0, log := [] }


/-- A locked device whose Password Record holds the secret `AB`. -/
def abDevice : Device :=
  { mem := fun a => if a = usb_password then 0x41 else if a = usb_password + 1 then 0x42
      else if a = usb_password + 2 then 0 else 0xFFFF
    sector_buffer := fun _ => 0, erase := 0, usb_unlocked := false, ulFlags := 0, log := [] }

/-- A candidate: the magic marker, then the words 0x4241, 0x4443, 0, which
encode `ABCD`, low byte first. -/
def markerABCD : Mem := ofList [0x4E55, 0x304C, 0x4B43, 0x3A4B, 0x4241, 0x4443]


/-- The start byte address that `disk_write` and `disk_read` compute. -/
def startOf (lba off : Nat) : Nat := (lba * BLOCK_SIZE + off) % U32

/-- The length in bytes that `disk_write` and `disk_read` compute. -/
def lenOf (count : Nat) : Nat := count * TRANSFER_SIZE % U32

/-- The address `sector_begin` that `disk_write` derives from `start`. -/
def sectorBeginOf (start : Nat) : Nat := ram_disk + start / 2 / SECTOR_SIZE * SECTOR_SIZE

/-- The first step of an unlocked `disk_write`: the call of `set_usb_password`
when the buffer begins with the tag. -/
def setPasswordStep (fuel : Nat) (env : Nat → Bool) (d : Device) (buf : Mem) : Outcome Device :=
  if strncmp buf (ofList TAG) 8 = 0 then set_usb_password fuel env d (shift buf 8) else ok d

/-- The write passes the range check of `disk_write` and completes its block:
it performs a commit. -/
def Committing (lba off count : Nat) : Prop :=
  (startOf lba off + lenOf count) % U32 ≤ RAM_DISK_SIZE ∧ (off + lenOf count) % U32 = BLOCK_SIZE

/-- The state of `disk_write` when the commit begins: after the copy, the
pre-scan and the merge, `d1` being the state after the set-password step. -/
def stagedDevice (d1 : Device) (lba : Nat) (buf : Mem) (off count : Nat) : Device :=
  stageWrite d1 buf (sectorBeginOf (startOf lba off)) (startOf lba off / 2 % SECTOR_SIZE) off
    (lenOf count)

/-- The erase step of the commit: the erase and the blank check when the flag
`erase` is set. -/
def eraseStep (env : Nat → Bool) (d : Device) (sector_begin : Nat) : Outcome Device :=
  if d.erase ≠ 0 then eraseAndCheck env d sector_begin Bzero_64KSector_u32length else ok d

/-- The state after the erase command and the blank check were issued. -/
def eraseAttempt (env : Nat → Bool) (d : Device) (addr len32 : Nat) : Device :=
  (Fapi_doBlankCheck env (Fapi_EraseSector env d addr).2 addr len32).2

/-- A device with blank flash, unlocked, whose flag `erase` is set. -/
def flaggedDevice : Device := { blankDevice with erase := 1 }

/-- The script in which only the first flash primitive reports a failure. -/
def firstFails : Nat → Bool := fun k => k != 0

/-- The script in which only the second flash primitive reports a failure. -/
def secondFails : Nat → Bool := fun k => k != 1


/-- The operations of a session that C19 names. -/
inductive SessionOp
  | read (lba : Nat) (buf : Mem) (off count : Nat)
  | write (lba : Nat) (buf : Mem) (off count : Nat)
  | ioctl (drive command out : Nat)
  | close

/-- The device state after one operation of a session.  The functions
`disk_read` and `disk_ioctl` assign no global variable (their outputs are the
caller's buffer and the result), so the state after them is the state before. -/
def sessionStep (fuel : Nat) (env : Nat → Bool) (d : Device) : SessionOp → Outcome Device
  | SessionOp.read _ _ _ _ => ok d
  | SessionOp.write lba buf off count =>
    match disk_write fuel env d lba buf off count with
    | ok r => ok r.1
    | halt h => halt h
    | stuck => stuck
  | SessionOp.ioctl _ _ _ => ok d
  | SessionOp.close => ok (USBDMSCStorageClose d)


/-- A locked device whose Storage Region holds the magic marker at word 2,
followed by the word 0x0041, and whose Password Record holds the secret `A`. -/
def markedDevice : Device :=
  { mem := fun a =>
      if ram_disk ≤ a ∧ a < ram_disk + 8 then
        [0xFFFF, 0xFFFF, 0x4E55, 0x304C, 0x4B43, 0x3A4B, 0x0041, 0].getD (a - ram_disk) 0
      else if a = usb_password then 0x41 else if a = usb_password + 1 then 0 else 0xFFFF
    sector_buffer := fun _ => 0, erase := 0, usb_unlocked := false, ulFlags := 0, log := [] }


/-- An unlocked device with a password configured: the record holds `A`. -/
def openPwDevice : Device := { pwDevice with usb_unlocked := true }


/-- The assignments `sector_buffer[start + i/2] = data1 | (data2 << 8)` that the
merge loop of `disk_write` performs in its first `k` passes (at `i = 0, 2, ..`),
the latest first: the index and the value of each. -/
def mergeStores (buf : Mem) (start : Nat) : Nat → List (Nat × Nat)
  | 0 => []
  | k + 1 =>
    (start + 2 * k / 2, (buf (2 * k) &&& 0xFF) ||| ((buf (2 * k + 1) &&& 0xFF) <<< 8)) ::
      mergeStores buf start k


/-- A write cycle inside one block with untagged buffers: the pieces, laid end
to end from offset `off`, begin below `BLOCK_SIZE` each (so no call before the
last one completes the block), do not begin with the tag, and end exactly at
`BLOCK_SIZE`. -/
def UntaggedCycle : Nat → List (Nat × Mem) → Prop
  | off, [] => off = BLOCK_SIZE
  | off, (count, buf) :: rest =>
    off < BLOCK_SIZE ∧ ¬ HasTag buf ∧ UntaggedCycle (off + count * TRANSFER_SIZE) rest

/-- The address `a` lies in the 0x800 words of block `lba`. -/
def InBlock (lba a : Nat) : Prop :=
  sectorOf lba + slotOf lba ≤ a ∧ a < sectorOf lba + slotOf lba + BLOCK_SIZE / 2

/-- The invariant of an untagged write cycle on block `lba` that began in
state `d0` and has reached offset `off` without a commit: the flash is as it
was, and once a call at offset 0 has merged something the Sector Cache mirrors
the Erase Unit outside the slot of the block. -/
def FrameInv (lba : Nat) (d0 d : Device) (off : Nat) : Prop :=
  d.usb_unlocked = true ∧ (∀ a, ld16 d.mem a = ld16 d0.mem a) ∧
  (off ≠ 0 → ∀ i, i < SECTOR_SIZE → ¬ (slotOf lba ≤ i ∧ i < slotOf lba + BLOCK_SIZE / 2) →
    ld16 d.sector_buffer i = ld16 d0.mem (sectorOf lba + i))


/-- The buffer that holds the tag `UNL0CKK:` followed by the words of `s`. -/
def tagged (s : Mem) : Mem := fun i => if i < 8 then TAG.getD i 0 else s (i - 8)

/-- A secret of 32 characters `A`. -/
def longSecret : Mem := fun i => if i < 32 then 0x41 else 0

/-- A secret of 32 characters, the first of which is 0xFFFF. -/
def ffSecret : Mem := fun i => if i = 0 then 0xFFFF else if i < 32 then 0x41 else 0


/-- The secret `A`, followed by zeros. -/
def secretA : Mem := fun i => if i = 0 then 0x41 else 0

/-! ## Words and bytes -/

theorem and_ff (x : Nat) : x &&& 0xFF = x % 256 :=
  Nat.and_pow_two_sub_one_eq_mod x 8

theorem shr_8 (x : Nat) : x >>> 8 = x / 256 := by
  rw [Nat.shiftRight_eq_div_pow]

theorem pack_eq (a b : Nat) :
    (a &&& 0xFF) ||| ((b &&& 0xFF) <<< 8) = a % 256 + 256 * (b % 256) := by
  rw [and_ff, and_ff, Nat.shiftLeft_eq, Nat.lor_comm, Nat.mul_comm (b % 256) (2 ^ 8)]
  have h := Nat.mul_add_lt_is_or (i := 8) (b := a % 256) (Nat.mod_lt _ (by norm_num)) (b % 256)
  rw [← h]
  norm_num
  omega

theorem ld16_lt (m : Mem) (a : Nat) : ld16 m a < 65536 := Nat.mod_lt _ (by norm_num)

@[simp] theorem store_same (m : Mem) (a v : Nat) : store m a v a = v := by simp [store]

theorem store_other (m : Mem) (a v x : Nat) (h : x ≠ a) : store m a v x = m x := by
  simp [store, h]

@[simp] theorem shift_apply (m : Mem) (k i : Nat) : shift m k i = m (k + i) := rfl

@[simp] theorem ld16_shift (m : Mem) (k i : Nat) : ld16 (shift m k) i = ld16 m (k + i) := rfl

/-! ## disk_read -/

/-- The buffer after `k` passes of the read loop. -/
theorem readLoop_apply (mem : Mem) (start : Nat) (k : Nat) (buf : Mem) (i : Nat) :
    readLoop mem start k buf i =
      if i < 2 * k then
        (if i % 2 = 0 then ld16 mem (ram_disk + (start + i) % U32 / 2) % 256
         else ld16 mem (ram_disk + (start + (i - 1)) % U32 / 2) / 256)
      else buf i := by
  induction k with
  | zero => simp [readLoop]
  | succ k ih =>
    simp only [readLoop, readStep, and_ff, shr_8]
    by_cases h1 : i = 2 * k + 1
    · subst h1
      have e1 : (2 * k + 1) % 2 ≠ 0 := by omega
      have e2 : 2 * k + 1 < 2 * (k + 1) := by omega
      simp [e1, e2]
    · by_cases h2 : i = 2 * k
      · subst h2
        have e2 : 2 * k < 2 * (k + 1) := by omega
        rw [store_other _ _ _ _ (by omega)]
        simp [e2]
      · rw [store_other _ _ _ _ h1, store_other _ _ _ _ h2, ih]
        by_cases h3 : i < 2 * k
        · have e2 : i < 2 * (k + 1) := by omega
          simp [h3, e2]
        · have e2 : ¬ i < 2 * (k + 1) := by omega
          simp [h3, e2]

/-- On a locked device `disk_read` is `memset(buf, 0, len); return len;`: the
first `len` elements of the buffer are zeroed, whatever the flash holds, and
the result is `len` reduced to the 16 bits of `unsigned int`. -/
theorem disk_read_locked (d : Device) (lba off count : Nat) (buf : Mem)
    (h : d.usb_unlocked = false) :
    disk_read d lba buf off count = (memset0 buf (lenOf count), lenOf count % UINT) := by
  simp [disk_read, h, lenOf]

/-- C2 (evaluation at the failing input). On the locked device the read of
`count = 1024` transfer units zeroes the elements `0 .. 1024 * 64 - 1` of the
buffer, and `len = 1024 * 64 = 65536` is returned through `unsigned int`: the
result is 0, not `count * 64`. -/
theorem locked_read_result_truncated :
    lockedDevice.usb_unlocked = false ∧ 1024 * 64 = 65536 ∧
    (disk_read lockedDevice 0 (fun _ => 7) 0 1024).2 = 0 ∧
    (∀ i, i < 1024 * 64 → (disk_read lockedDevice 0 (fun _ => 7) 0 1024).1 i = 0) := by
  have e : lenOf 1024 = 65536 := by
    unfold lenOf
    norm_num
  have hr := disk_read_locked lockedDevice 0 0 1024 (fun _ => 7) rfl
  rw [e] at hr
  refine ⟨rfl, by norm_num, ?_, ?_⟩
  · rw [hr]
    show 65536 % UINT = 0
    norm_num
  · intro i hi
    rw [hr]
    show memset0 (fun _ => 7) 65536 i = 0
    unfold memset0
    rw [if_pos (by omega)]

/-! ## verify_password and disk_initialize without a password -/

theorem verify_password_empty (fuel : Nat) (mem cand : Mem)
    (h : ld16 mem usb_password = 0xFFFF) : verify_password fuel mem cand = some true := by
  have h0 : ld16 (shift mem usb_password) 0 = 0xFFFF := by simpa using h
  simp [verify_password, h0]

theorem Init_Flash_Sectors_mem (env : Nat → Bool) (d d1 : Device)
    (h : Init_Flash_Sectors env d = ok d1) :
    d1.mem = d.mem ∧ d1.usb_unlocked = d.usb_unlocked ∧ d1.sector_buffer = d.sector_buffer ∧
      d1.erase = d.erase ∧ d1.ulFlags = d.ulFlags := by
  unfold Init_Flash_Sectors at h
  simp only [Fapi_initializeAPI, Fapi_setActiveFlashBank, Example_Error] at h
  split at h
  · split at h
    · cases h; simp
    · cases h
  · cases h

theorem Init_Flash_Sectors_ok (env : Nat → Bool) (d : Device)
    (h1 : env d.log.length = true) (h2 : env (d.log.length + 1) = true) :
    ∃ d1, Init_Flash_Sectors env d = ok d1 := by
  simp [Init_Flash_Sectors, Fapi_initializeAPI, Fapi_setActiveFlashBank, h1, h2]

/-- C5. No password means open: when the first word of the Password Record is
0xFFFF, `verify_password` returns true for every candidate, and
disk_initialize, whatever the storage holds and whatever the Lock State was,
can only return with the device unlocked; it does return as soon as the two
flash API set-up calls succeed. -/
theorem no_password_means_open (fuel : Nat) (env : Nat → Bool) (d : Device)
    (h : ld16 d.mem usb_password = 0xFFFF) :
    (∀ cand, verify_password fuel d.mem cand = some true) ∧
    (∀ d1, disk_initialize fuel env d = ok d1 → d1.usb_unlocked = true) ∧
    disk_initialize fuel env d ≠ stuck ∧
    (env d.log.length = true → env (d.log.length + 1) = true →
      ∃ d1, disk_initialize fuel env d = ok d1 ∧ d1.usb_unlocked = true ∧ d1.mem = d.mem) := by
  have key : ∀ d0, Init_Flash_Sectors env d = ok d0 →
      ∃ d1, disk_initialize fuel env d = ok d1 ∧ d1.usb_unlocked = true ∧ d1.mem = d.mem := by
    intro d0 h0
    have hm := (Init_Flash_Sectors_mem env d d0 h0).1
    have hp : ld16 d0.mem usb_password = 0xFFFF := by rw [hm]; exact h
    unfold disk_initialize
    rw [h0]
    simp only []
    cases memmem (shift d0.mem ram_disk) (RAM_DISK_SIZE / 2) (ofList magicWords) 4 with
    | none => simp [hp, hm]; simp [h]
    | some p =>
      simp only []
      rw [verify_password_empty fuel d0.mem _ hp]
      exact ⟨_, rfl, rfl, hm⟩
  refine ⟨fun cand => verify_password_empty fuel d.mem cand h, ?_, ?_, ?_⟩
  · intro d1 h1
    cases h0 : Init_Flash_Sectors env d with
    | ok d0 =>
      obtain ⟨d2, e2, hu, _⟩ := key d0 h0
      rw [e2] at h1
      cases h1
      exact hu
    | halt x => simp [ disk_initialize, h0] at h1
    | stuck => simp [ disk_initialize, h0] at h1
  · cases h0 : Init_Flash_Sectors env d with
    | ok d0 =>
      obtain ⟨d2, e2, _, _⟩ := key d0 h0
      rw [e2]
      simp
    | halt x => simp [ disk_initialize, h0]
    | stuck =>
      exfalso
      unfold Init_Flash_Sectors at h0
      simp only [Example_Error] at h0
      split at h0
      · split at h0 <;> cases h0
      · cases h0
  · intro e1 e2
    obtain ⟨d0, h0⟩ := Init_Flash_Sectors_ok env d e1 e2
    exact key d0 h0

/-- Witness of C5: a locked device with blank flash. -/
theorem no_password_means_open_witness :
    ld16 lockedDevice.mem usb_password = 0xFFFF ∧
    ((∀ cand, verify_password 0 lockedDevice.mem cand = some true) ∧
    (∀ d1, disk_initialize 0 (fun _ => true) lockedDevice = ok d1 → d1.usb_unlocked = true) ∧
    disk_initialize 0 (fun _ => true) lockedDevice ≠ stuck ∧
    ((fun _ => true) lockedDevice.log.length = true →
      (fun _ => true) (lockedDevice.log.length + 1) = true →
      ∃ d1, disk_initialize 0 (fun _ => true) lockedDevice = ok d1 ∧ d1.usb_unlocked = true ∧
        d1.mem = lockedDevice.mem)) :=
  ⟨by decide, no_password_means_open 0 (fun _ => true) lockedDevice (by decide)⟩

/-- C8. Geometry: `disk_ioctl` stores 80 (= 0x50000 / 0x1000) for
`GET_SECTOR_COUNT` and 0x1000 for `GET_SECTOR_SIZE`, for every drive id and
every previous content of the output; `USBDMSCStorageNumBlocks` returns 80,
`USBDMSCStorageBlockSize` returns 0x1000, and their product is the region size
0x50000.  The two command codes are those of `flashdisk.h`, any two distinct
numbers. -/
theorem geometry (GET_SECTOR_COUNT GET_SECTOR_SIZE : Nat)
    (hne : GET_SECTOR_COUNT ≠ GET_SECTOR_SIZE) (drive out : Nat) :
    disk_ioctl GET_SECTOR_COUNT GET_SECTOR_SIZE drive GET_SECTOR_COUNT out = 80 ∧
    (80 = 0x50000 / 0x1000) ∧
    disk_ioctl GET_SECTOR_COUNT GET_SECTOR_SIZE drive GET_SECTOR_SIZE out = 0x1000 ∧
    USBDMSCStorageNumBlocks GET_SECTOR_COUNT GET_SECTOR_SIZE = 80 ∧
    USBDMSCStorageBlockSize GET_SECTOR_COUNT GET_SECTOR_SIZE = 0x1000 ∧
    USBDMSCStorageNumBlocks GET_SECTOR_COUNT GET_SECTOR_SIZE *
      USBDMSCStorageBlockSize GET_SECTOR_COUNT GET_SECTOR_SIZE = RAM_DISK_SIZE := by
  have h : ¬ GET_SECTOR_SIZE = GET_SECTOR_COUNT := fun e => hne e.symm
  simp [disk_ioctl, USBDMSCStorageNumBlocks, USBDMSCStorageBlockSize, h]
  decide

/-- Witness of C8: the command codes 1 and 2. -/
theorem geometry_witness :
    (1 : Nat) ≠ 2 ∧
    (disk_ioctl 1 2 0 1 0 = 80 ∧
    (80 = 0x50000 / 0x1000) ∧
    disk_ioctl 1 2 0 2 0 = 0x1000 ∧
    USBDMSCStorageNumBlocks 1 2 = 80 ∧
    USBDMSCStorageBlockSize 1 2 = 0x1000 ∧
    USBDMSCStorageNumBlocks 1 2 * USBDMSCStorageBlockSize 1 2 = RAM_DISK_SIZE) :=
  ⟨by decide, geometry 1 2 (by decide) 0 0⟩

/-! ## Strings -/

theorem int_sub_ne_zero (x y : Nat) (h : x ≠ y) : (x : Int) - (y : Int) ≠ 0 := by omega

/-- Against a string without NUL among its next `n` characters, `strncmp`
returns 0 exactly when the `n` characters agree. -/
theorem strncmpFrom_eq_zero (a b : Mem) (n : Nat) : ∀ i,
    (∀ j, j < n → ld16 b (i + j) ≠ 0) →
    (strncmpFrom a b n i = 0 ↔ ∀ j, j < n → ld16 a (i + j) = ld16 b (i + j)) := by
  induction n with
  | zero => intro i _; simp [strncmpFrom]
  | succ n ih =>
    intro i hb
    unfold strncmpFrom
    by_cases h : ld16 a i = ld16 b i
    · have hb0 : ld16 b i ≠ 0 := by simpa using hb 0 (by omega)
      have ha0 : ld16 a i ≠ 0 := by rw [h]; exact hb0
      have hb1 : ∀ j, j < n → ld16 b (i + 1 + j) ≠ 0 := by
        intro j hj
        have := hb (j + 1) (by omega)
        rwa [show i + (j + 1) = i + 1 + j by omega] at this
      simp only [h, ne_eq, not_true_eq_false, if_false, hb0]
      rw [ih (i + 1) hb1]
      constructor
      · intro hall j hj
        cases j with
        | zero => simpa using h
        | succ j =>
          have := hall j (by omega)
          rwa [show i + 1 + j = i + (j + 1) by omega] at this
      · intro hall j hj
        have := hall (j + 1) (by omega)
        rwa [show i + (j + 1) = i + 1 + j by omega] at this
    · simp only [ne_eq, h, not_false_eq_true, if_true]
      constructor
      · intro hz
        exact absurd hz (int_sub_ne_zero _ _ h)
      · intro hall
        exact absurd (by simpa using hall 0 (by omega)) h

theorem ofList_TAG_ne_zero (j : Nat) (hj : j < 8) : ld16 (ofList TAG) (0 + j) ≠ 0 := by
  interval_cases j <;> simp [ld16, ofList]

theorem ld16_ofList_TAG (j : Nat) (hj : j < 8) : ld16 (ofList TAG) j = TAG.getD j 0 := by
  interval_cases j <;> simp [ld16, ofList]

/-- The test `!strncmp(p, "UNL0CKK:", 8)` holds exactly when `p` begins with the tag. -/
theorem strncmp_tag (a : Mem) : strncmp a (ofList TAG) 8 = 0 ↔ HasTag a := by
  unfold strncmp
  rw [strncmpFrom_eq_zero a (ofList TAG) 8 0 ofList_TAG_ne_zero]
  constructor
  · intro h i hi
    have := h i hi
    rw [Nat.zero_add] at this
    rw [this, ld16_ofList_TAG i hi]
  · intro h i hi
    rw [Nat.zero_add, h i hi, ld16_ofList_TAG i hi]

theorem StrEqFrom_zero (a b : Mem) : StrEqFrom a b 0 ↔ StrEq a b := by
  unfold StrEqFrom StrEq
  simp

theorem StrEqFrom_step (a b : Mem) (i : Nat) (h : ld16 a i = ld16 b i) (h0 : ld16 a i ≠ 0) :
    StrEqFrom a b i ↔ StrEqFrom a b (i + 1) := by
  constructor
  · rintro ⟨m, hm, ha, hb⟩
    cases m with
    | zero => exact absurd (by simpa using ha) h0
    | succ m =>
      refine ⟨m, ?_, ?_, ?_⟩
      · intro j hj
        have := hm (j + 1) (by omega)
        rwa [show i + (j + 1) = i + 1 + j by omega] at this
      · rwa [show i + (m + 1) = i + 1 + m by omega] at ha
      · rwa [show i + (m + 1) = i + 1 + m by omega] at hb
  · rintro ⟨m, hm, ha, hb⟩
    refine ⟨m + 1, ?_, ?_, ?_⟩
    · intro j hj
      cases j with
      | zero => exact ⟨by simpa using h, by simpa using h0⟩
      | succ j =>
        have := hm j (by omega)
        rwa [show i + 1 + j = i + (j + 1) by omega] at this
    · rwa [show i + (m + 1) = i + 1 + m by omega]
    · rwa [show i + (m + 1) = i + 1 + m by omega]

theorem not_StrEqFrom_of_ne (a b : Mem) (i : Nat) (h : ld16 a i ≠ ld16 b i) :
    ¬ StrEqFrom a b i := by
  rintro ⟨m, hm, ha, hb⟩
  cases m with
  | zero =>
    apply h
    have ha1 : ld16 a i = 0 := by simpa using ha
    have hb1 : ld16 b i = 0 := by simpa using hb
    rw [ha1, hb1]
  | succ m => exact h (by simpa using (hm 0 (by omega)).1)

/-- When the string at `b` ends within the fuel, `strcmp` returns, and returns
0 exactly for equal strings. -/
theorem strcmpFrom_spec (a b : Mem) (n : Nat) : ∀ fuel i, ld16 b (i + n) = 0 → n < fuel →
    ∃ c, strcmpFrom a b fuel i = some c ∧ (c = 0 ↔ StrEqFrom a b i) := by
  induction n with
  | zero =>
    intro fuel i hb hf
    obtain ⟨f, rfl⟩ : ∃ f, fuel = f + 1 := ⟨fuel - 1, by omega⟩
    have hb0 : ld16 b i = 0 := by simpa using hb
    unfold strcmpFrom
    by_cases h : ld16 a i = ld16 b i
    · have ha0 : ld16 a i = 0 := by rw [h]; exact hb0
      refine ⟨0, by simp [h, hb0], ?_⟩
      simp only [true_iff]
      exact ⟨0, by simp, by simpa using ha0, by simpa using hb0⟩
    · refine ⟨(ld16 a i : Int) - (ld16 b i : Int), by simp [h], ?_⟩
      constructor
      · intro hz
        exact absurd hz (int_sub_ne_zero _ _ h)
      · intro hs
        exact absurd hs (not_StrEqFrom_of_ne a b i h)
  | succ n ih =>
    intro fuel i hb hf
    obtain ⟨f, rfl⟩ : ∃ f, fuel = f + 1 := ⟨fuel - 1, by omega⟩
    unfold strcmpFrom
    by_cases h : ld16 a i = ld16 b i
    · by_cases ha0 : ld16 a i = 0
      · have hb0 : ld16 b i = 0 := by rw [← h]; exact ha0
        refine ⟨0, by simp [ha0, hb0], ?_⟩
        simp only [true_iff]
        exact ⟨0, by simp, by simpa using ha0, by simpa using hb0⟩
      · obtain ⟨c, hc, hiff⟩ := ih f (i + 1) (by rwa [show i + 1 + n = i + (n + 1) by omega])
          (by omega)
        refine ⟨c, ?_, ?_⟩
        · have hb0 : ¬ ld16 b i = 0 := by rw [← h]; exact ha0
          simp [h, hb0, hc]
        · rw [hiff]
          exact (StrEqFrom_step a b i h ha0).symm
    · refine ⟨(ld16 a i : Int) - (ld16 b i : Int), by simp [h], ?_⟩
      constructor
      · intro hz
        exact absurd hz (int_sub_ne_zero _ _ h)
      · intro hs
        exact absurd hs (not_StrEqFrom_of_ne a b i h)

theorem strcmp_spec (fuel : Nat) (a b : Mem) (n : Nat) (hb : ld16 b n = 0) (hf : n < fuel) :
    ∃ c, strcmp fuel a b = some c ∧ (c = 0 ↔ StrEq a b) := by
  obtain ⟨c, hc, hiff⟩ := strcmpFrom_spec a b n fuel 0 (by simpa using hb) hf
  exact ⟨c, hc, by rw [hiff, StrEqFrom_zero]⟩

/-- The test `*(uint64_t *)p == magic` holds exactly when `p` begins with the marker. -/
theorem ld64_magic (a : Mem) : ld64 a = MAGIC ↔ HasMarker a := by
  unfold ld64 HasMarker
  have h0 := ld16_lt a 0
  have h1 := ld16_lt a 1
  have h2 := ld16_lt a 2
  have h3 := ld16_lt a 3
  constructor
  · intro h i hi
    norm_num at h
    interval_cases i <;> simp <;> omega
  · intro h
    have e0 := h 0 (by norm_num)
    have e1 := h 1 (by norm_num)
    have e2 := h 2 (by norm_num)
    have e3 := h 3 (by norm_num)
    simp at e0 e1 e2 e3
    rw [e0, e1, e2, e3]
    norm_num

/-! ## verify_password, tag path -/

/-- With a password configured and a candidate that does not begin with the
marker, `verify_password` returns the outcome of the tag test. -/
theorem verify_password_no_marker (fuel : Nat) (mem cand : Mem) (n : Nat)
    (hcfg : ld16 mem usb_password ≠ 0xFFFF) (hnm : ¬ HasMarker cand)
    (hnul : ld16 mem (usb_password + n) = 0) (hfuel : n < fuel) :
    ∃ b, verify_password fuel mem cand = some b ∧
      (b = true ↔ HasTag cand ∧ StrEq (shift cand 8) (shift mem usb_password)) := by
  have h0 : ¬ ld16 (shift mem usb_password) 0 = 0xFFFF := by simpa using hcfg
  have hm : ¬ ld64 cand = MAGIC := by rw [ld64_magic]; exact hnm
  obtain ⟨c, hc, hiff⟩ := strcmp_spec fuel (shift cand 8) (shift mem usb_password) n
    (by simpa using hnul) hfuel
  unfold verify_password
  simp only [h0, if_false]
  by_cases ht : strncmp cand (ofList TAG) 8 = 0
  · have hT : HasTag cand := (strncmp_tag cand).1 ht
    simp only [ht, if_true, hc, Option.map_some']
    by_cases hc0 : c = 0
    · refine ⟨true, by simp [hc0], ?_⟩
      simp only [true_iff]
      exact ⟨hT, hiff.1 hc0⟩
    · refine ⟨false, by simp [hc0, hm], ?_⟩
      simp only [Bool.false_eq_true, false_iff, not_and]
      intro _ hs
      exact hc0 (hiff.2 hs)
  · have hT : ¬ HasTag cand := fun h => ht ((strncmp_tag cand).2 h)
    refine ⟨false, by simp [ht, hm], ?_⟩
    simp only [Bool.false_eq_true, false_iff, not_and]
    intro h
    exact absurd h hT

/-- A difference at a position that the stored secret reaches rules out equality. -/
theorem not_StrEq_of_diff (a b : Mem) (i : Nat) (hd : ld16 a i ≠ ld16 b i)
    (hb : ∀ j, j < i → ld16 b j ≠ 0) : ¬ StrEq a b := by
  rintro ⟨m, hm, ha0, hb0⟩
  rcases Nat.lt_trichotomy i m with h | h | h
  · exact hd (hm i h).1
  · subst h
    exact hd (by rw [ha0, hb0])
  · exact hb m h hb0

/-- C4. Tag-path verification is an exact match: with a password configured
(first word of the Password Record not 0xFFFF, the stored secret ending in a
NUL that the scan reaches) and a candidate that does not begin with the 4-word
marker, `verify_password` returns, and returns true if and only if the first 8
characters of the candidate are `UNL0CKK:` and the string that follows equals
the stored secret character for character.  So a candidate that differs from
the stored secret at a position the secret reaches is rejected, and a locked
device that receives a rejected candidate stays locked. -/
theorem tag_path_exact (fuel : Nat) (env : Nat → Bool) (d : Device) (cand : Mem) (n : Nat)
    (hcfg : ld16 d.mem usb_password ≠ 0xFFFF) (hnm : ¬ HasMarker cand)
    (hnul : ld16 d.mem (usb_password + n) = 0) (hfuel : n < fuel) :
    ∃ b, verify_password fuel d.mem cand = some b ∧
      (b = true ↔ HasTag cand ∧ StrEq (shift cand 8) (shift d.mem usb_password)) ∧
      (∀ i, ld16 cand (8 + i) ≠ ld16 d.mem (usb_password + i) →
        (∀ j, j < i → ld16 d.mem (usb_password + j) ≠ 0) → b = false) ∧
      (d.usb_unlocked = false → b = false → ∀ lba off count,
        ∃ d1 r, disk_write fuel env d lba cand off count = ok (d1, r) ∧
          d1.usb_unlocked = false) := by
  obtain ⟨b, hb, hiff⟩ := verify_password_no_marker fuel d.mem cand n hcfg hnm hnul hfuel
  refine ⟨b, hb, hiff, ?_, ?_⟩
  · intro i hdiff hreach
    have hne : ¬ StrEq (shift cand 8) (shift d.mem usb_password) :=
      not_StrEq_of_diff _ _ i (by simpa using hdiff) (by simpa using hreach)
    cases b with
    | false => rfl
    | true => exact absurd (hiff.1 rfl).2 hne
  · intro hl hbf lba off count
    subst hbf
    unfold disk_write
    simp only [hl, Bool.not_false, if_true, hb]
    by_cases hc : (off + count * TRANSFER_SIZE % U32) % U32 = BLOCK_SIZE
    · exact ⟨_, _, by simp only [hc, if_true]; rfl, rfl⟩
    · exact ⟨_, _, by simp only [hc, if_false]; rfl, hl⟩

/-! ## The flash primitives when they succeed -/

theorem chunk_getD (src : Mem) (i j : Nat) (hj : j < 8) :
    (chunk src i).getD j 0 = ld16 src (i + j) := by
  interval_cases j <;> simp [chunk, List.range, List.range.loop]

theorem eraseAndCheck_ok (env : Nat → Bool) (h : AllOk env) (d : Device) (addr len32 : Nat) :
    eraseAndCheck env d addr len32 = ok (erasedDevice d addr len32) := by
  simp only [eraseAndCheck, Fapi_EraseSector, Fapi_doBlankCheck, erasedDevice, h _, if_true,
    true_and]
  rfl

theorem programLoop_ok (env : Nat → Bool) (h : AllOk env) (base : Nat) (src : Mem) (k : Nat)
    (d : Device) : programLoop env base src k d = ok (programmedDevice d base src k) := by
  induction k with
  | zero =>
    have e : progMem d.mem base src 0 = d.mem := by
      funext a
      simp [progMem]
    simp [programLoop, programmedDevice, progLog, e]
  | succ k ih =>
    unfold programLoop
    rw [ih]
    simp only [Fapi_issueProgrammingCommand, Fapi_doVerify, h _, if_true, programmedDevice,
      progLog, List.cons_append]
    congr 2
    funext a
    simp only [progMem, true_and]
    by_cases h1 : base + 8 * k ≤ a ∧ a < base + 8 * k + 8
    · have h2 : base ≤ a ∧ a < base + 8 * (k + 1) := by omega
      simp only [h1, h2, and_self, if_true]
      rw [chunk_getD src (8 * k) (a - (base + 8 * k)) (by omega)]
      congr 1
      omega
    · by_cases h3 : base ≤ a ∧ a < base + 8 * k
      · have h2 : base ≤ a ∧ a < base + 8 * (k + 1) := by omega
        simp only [h1, h2, h3, and_self, if_true, if_false]
      · have h2 : ¬ (base ≤ a ∧ a < base + 8 * (k + 1)) := by omega
        simp only [h1, h2, h3, if_false]

/-! ## strlen -/

theorem strlenFrom_spec (s : Mem) (n : Nat) : ∀ fuel i, (∀ j, j < n → ld16 s (i + j) ≠ 0) →
    ld16 s (i + n) = 0 → n < fuel → strlenFrom s fuel i = some (i + n) := by
  induction n with
  | zero =>
    intro fuel i _ h0 hf
    obtain ⟨f, rfl⟩ : ∃ f, fuel = f + 1 := ⟨fuel - 1, by omega⟩
    have h0a : ld16 s i = 0 := by simpa using h0
    simp [strlenFrom, h0a]
  | succ n ih =>
    intro fuel i hne h0 hf
    obtain ⟨f, rfl⟩ : ∃ f, fuel = f + 1 := ⟨fuel - 1, by omega⟩
    have hi : ld16 s i ≠ 0 := by simpa using hne 0 (by omega)
    unfold strlenFrom
    simp only [hi, if_false]
    rw [ih f (i + 1) ?_ ?_ (by omega)]
    · congr 1
      omega
    · intro j hj
      have := hne (j + 1) (by omega)
      rwa [show i + (j + 1) = i + 1 + j by omega] at this
    · rwa [show i + (n + 1) = i + 1 + n by omega] at h0

theorem strlen_spec (fuel : Nat) (s : Mem) (n : Nat) (hne : ∀ j, j < n → ld16 s j ≠ 0)
    (h0 : ld16 s n = 0) (hf : n < fuel) : strlen fuel s = some n := by
  have := strlenFrom_spec s n fuel 0 (by simpa using hne) (by simpa using h0) hf
  simpa [strlen] using this

/-- A string with a NUL within the fuel has a length. -/
theorem strlen_terminates (fuel : Nat) (s : Mem) (m : Nat) (h0 : ld16 s m = 0) (hf : m < fuel) :
    ∃ n, n ≤ m ∧ strlen fuel s = some n ∧ ld16 s n = 0 ∧ ∀ j, j < n → ld16 s j ≠ 0 := by
  have hex : ∃ n, ld16 s n = 0 := ⟨m, h0⟩
  refine ⟨Nat.find hex, Nat.find_min' hex h0, ?_, Nat.find_spec hex, ?_⟩
  · exact strlen_spec fuel s _ (fun j hj => Nat.find_min hex hj) (Nat.find_spec hex)
      (lt_of_le_of_lt (Nat.find_min' hex h0) hf)
  · intro j hj
    exact Nat.find_min hex hj

/-! ## The write path when the primitives succeed -/

theorem set_usb_password_ok (fuel : Nat) (env : Nat → Bool) (h : AllOk env) (d : Device)
    (password : Mem) (n : Nat) (hn : strlen fuel password = some n) :
    set_usb_password fuel env d password = ok (setPasswordDevice d password n) := by
  unfold set_usb_password setPasswordDevice
  by_cases hc : ld16 d.mem usb_password = 0xFFFF
  · simp only [hc, ne_eq, not_true_eq_false, if_false, hn]
    exact programLoop_ok env h _ _ _ _
  · simp only [hc, ne_eq, not_false_eq_true, if_true, eraseAndCheck_ok env h, hn]
    exact programLoop_ok env h _ _ _ _

theorem commitSector_ok (env : Nat → Bool) (h : AllOk env) (d : Device) (sector_begin : Nat) :
    commitSector env d sector_begin = ok (committedDevice d sector_begin) := by
  unfold commitSector committedDevice
  by_cases hc : d.erase = 0
  · simp only [hc, ne_eq, not_true_eq_false, if_false]
    exact programLoop_ok env h _ _ _ _
  · simp only [hc, ne_eq, not_false_eq_true, if_true, eraseAndCheck_ok env h]
    exact programLoop_ok env h _ _ _ _

theorem writeRegion_ok (env : Nat → Bool) (h : AllOk env) (d : Device) (buf : Mem)
    (start off len : Nat) :
    writeRegion env d buf start off len = ok (writtenDevice d buf start off len) := by
  unfold writeRegion writtenDevice
  by_cases hc : (off + len) % U32 = BLOCK_SIZE
  · simp only [hc, if_true]
    exact commitSector_ok env h _ _
  · simp only [hc, if_false]

theorem disk_write_ok (fuel : Nat) (env : Nat → Bool) (h : AllOk env) (d : Device)
    (lba : Nat) (buf : Mem) (off count n : Nat) (hu : d.usb_unlocked = true)
    (hn : strncmp buf (ofList TAG) 8 = 0 → strlen fuel (shift buf 8) = some n) :
    disk_write fuel env d lba buf off count =
      ok (writeResult d lba buf off count n, count * TRANSFER_SIZE % U32 % UINT) := by
  unfold disk_write writeResult
  simp only [hu, Bool.not_true, Bool.false_eq_true, if_false]
  by_cases ht : strncmp buf (ofList TAG) 8 = 0
  · simp only [ht, if_true, set_usb_password_ok fuel env h d _ n (hn ht)]
    by_cases hr : ((lba * BLOCK_SIZE + off) % U32 + count * TRANSFER_SIZE % U32) % U32
        ≤ RAM_DISK_SIZE
    · simp only [hr, if_true, writeRegion_ok env h]
    · simp only [hr, if_false]
  · simp only [ht, if_false]
    by_cases hr : ((lba * BLOCK_SIZE + off) % U32 + count * TRANSFER_SIZE % U32) % U32
        ≤ RAM_DISK_SIZE
    · simp only [hr, if_true, writeRegion_ok env h]
    · simp only [hr, if_false]

/-! ## Fields of the success states -/

@[simp] theorem programmedDevice_mem (d : Device) (base : Nat) (src : Mem) (k : Nat) :
    (programmedDevice d base src k).mem = progMem d.mem base src k := rfl
@[simp] theorem programmedDevice_sb (d : Device) (base : Nat) (src : Mem) (k : Nat) :
    (programmedDevice d base src k).sector_buffer = d.sector_buffer := rfl
@[simp] theorem programmedDevice_erase (d : Device) (base : Nat) (src : Mem) (k : Nat) :
    (programmedDevice d base src k).erase = d.erase := rfl
@[simp] theorem programmedDevice_unlocked (d : Device) (base : Nat) (src : Mem) (k : Nat) :
    (programmedDevice d base src k).usb_unlocked = d.usb_unlocked := rfl
@[simp] theorem programmedDevice_log (d : Device) (base : Nat) (src : Mem) (k : Nat) :
    (programmedDevice d base src k).log = progLog base src k ++ d.log := rfl
@[simp] theorem erasedDevice_mem (d : Device) (addr len32 : Nat) :
    (erasedDevice d addr len32).mem = eraseMem d.mem addr := rfl
@[simp] theorem erasedDevice_sb (d : Device) (addr len32 : Nat) :
    (erasedDevice d addr len32).sector_buffer = d.sector_buffer := rfl
@[simp] theorem erasedDevice_erase (d : Device) (addr len32 : Nat) :
    (erasedDevice d addr len32).erase = d.erase := rfl
@[simp] theorem erasedDevice_unlocked (d : Device) (addr len32 : Nat) :
    (erasedDevice d addr len32).usb_unlocked = d.usb_unlocked := rfl
@[simp] theorem erasedDevice_log (d : Device) (addr len32 : Nat) :
    (erasedDevice d addr len32).log =
      FlashOp.blankCheck addr len32 :: FlashOp.eraseSector addr :: d.log := rfl

theorem setPasswordDevice_unlocked (d : Device) (password : Mem) (n : Nat) :
    (setPasswordDevice d password n).usb_unlocked = d.usb_unlocked := by
  unfold setPasswordDevice
  split <;> simp

theorem setPasswordDevice_sb (d : Device) (password : Mem) (n : Nat) :
    (setPasswordDevice d password n).sector_buffer = d.sector_buffer := by
  unfold setPasswordDevice
  split <;> simp

theorem setPasswordDevice_erase (d : Device) (password : Mem) (n : Nat) :
    (setPasswordDevice d password n).erase = d.erase := by
  unfold setPasswordDevice
  split <;> simp

/-- Setting the password leaves the storage region as it was. -/
theorem setPasswordDevice_mem_below (d : Device) (password : Mem) (n a : Nat)
    (ha : a < usb_password) : (setPasswordDevice d password n).mem a = d.mem a := by
  have h1 : ¬ (usb_password ≤ a ∧ a < usb_password + 8 * (0x20 / 8)) := by omega
  have h2 : ¬ (usb_password ≤ a ∧ a < usb_password + eraseUnitWords usb_password) := by omega
  unfold setPasswordDevice
  split
  · simp only [programmedDevice_mem, progMem, erasedDevice_mem, eraseMem]
    rw [if_neg h1, if_neg h2]
  · simp only [programmedDevice_mem, progMem]
    rw [if_neg h1]

/-- After the password was set, the 32 words of the record are the slot. -/
theorem setPasswordDevice_record (d : Device) (password : Mem) (n i : Nat) (hi : i < 0x20) :
    (setPasswordDevice d password n).mem (usb_password + i) =
      ld16 (passwordSlot password n) i := by
  have h1 : usb_password ≤ usb_password + i ∧ usb_password + i < usb_password + 8 * (0x20 / 8) := by
    omega
  unfold setPasswordDevice
  simp only [programmedDevice_mem, progMem]
  rw [if_pos h1, Nat.add_sub_cancel_left]

theorem stageWrite_unlocked (d : Device) (buf : Mem) (sb s3 off len : Nat) :
    (stageWrite d buf sb s3 off len).usb_unlocked = d.usb_unlocked := by
  unfold stageWrite
  split <;> rfl

theorem stageWrite_mem (d : Device) (buf : Mem) (sb s3 off len : Nat) :
    (stageWrite d buf sb s3 off len).mem = d.mem := by
  unfold stageWrite
  split <;> rfl

theorem stageWrite_log (d : Device) (buf : Mem) (sb s3 off len : Nat) :
    (stageWrite d buf sb s3 off len).log = d.log := by
  unfold stageWrite
  split <;> rfl

theorem stageWrite_sb (d : Device) (buf : Mem) (sb s3 off len : Nat) :
    (stageWrite d buf sb s3 off len).sector_buffer =
      mergeLoop buf s3 ((len + 1) / 2)
        (if off = 0 then fun i => if i < SECTOR_SIZE then d.mem (sb + i) else d.sector_buffer i
         else d.sector_buffer) := by
  unfold stageWrite
  split <;> rfl

theorem stageWrite_erase (d : Device) (buf : Mem) (sb s3 off len : Nat) :
    (stageWrite d buf sb s3 off len).erase =
      if off = 0 ∧ prescan d.mem (sb + s3) (BLOCK_SIZE / 2) = true then 1 else d.erase := by
  unfold stageWrite
  by_cases h : off = 0
  · simp [h]
  · simp [h]

theorem committedDevice_unlocked (d : Device) (sb : Nat) :
    (committedDevice d sb).usb_unlocked = d.usb_unlocked := by
  unfold committedDevice
  split <;> simp

theorem committedDevice_sb (d : Device) (sb : Nat) :
    (committedDevice d sb).sector_buffer = d.sector_buffer := by
  unfold committedDevice
  split <;> simp

theorem committedDevice_erase (d : Device) (sb : Nat) :
    (committedDevice d sb).erase = d.erase := by
  unfold committedDevice
  split <;> simp

/-- After a commit the sector holds the sector buffer. -/
theorem committedDevice_mem_in (d : Device) (sb a : Nat) (h1 : sb ≤ a) (h2 : a < sb + SECTOR_SIZE) :
    (committedDevice d sb).mem a = ld16 d.sector_buffer (a - sb) := by
  have h : sb ≤ a ∧ a < sb + 8 * (SECTOR_SIZE / 8) := by
    simp only [SECTOR_SIZE] at h2 ⊢
    omega
  unfold committedDevice
  simp only [programmedDevice_mem, progMem]
  rw [if_pos h]

/-- A commit changes nothing below its sector. -/
theorem committedDevice_mem_below (d : Device) (sb a : Nat) (h1 : a < sb) :
    (committedDevice d sb).mem a = d.mem a := by
  have h : ¬ (sb ≤ a ∧ a < sb + 8 * (SECTOR_SIZE / 8)) := by omega
  have h2 : ¬ (sb ≤ a ∧ a < sb + eraseUnitWords sb) := by omega
  unfold committedDevice
  split
  · simp only [programmedDevice_mem, progMem, erasedDevice_mem, eraseMem]
    rw [if_neg h, if_neg h2]
  · simp only [programmedDevice_mem, progMem]
    rw [if_neg h]

theorem writtenDevice_unlocked (d : Device) (buf : Mem) (start off len : Nat) :
    (writtenDevice d buf start off len).usb_unlocked = d.usb_unlocked := by
  unfold writtenDevice
  simp only []
  split
  · rw [committedDevice_unlocked, stageWrite_unlocked]
  · rw [stageWrite_unlocked]

theorem writeResult_unlocked (d : Device) (lba : Nat) (buf : Mem) (off count n : Nat) :
    (writeResult d lba buf off count n).usb_unlocked = d.usb_unlocked := by
  unfold writeResult
  simp only []
  split <;> split <;>
    simp only [writtenDevice_unlocked, setPasswordDevice_unlocked]

/-! ## The merge loop -/

theorem packWord_lt (buf : Mem) (k : Nat) : packWord buf k < 65536 := by
  unfold packWord
  omega

theorem mergeLoop_apply (buf : Mem) (start k : Nat) (sb : Mem) (x : Nat) :
    mergeLoop buf start k sb x =
      if start ≤ x ∧ x < start + k then packWord buf (x - start) else sb x := by
  induction k with
  | zero =>
    have h : ¬ (start ≤ x ∧ x < start + 0) := by omega
    rw [if_neg h]
    rfl
  | succ k ih =>
    unfold mergeLoop
    rw [pack_eq, Nat.mul_div_cancel_left k (by norm_num : 0 < 2)]
    by_cases hx : x = start + k
    · subst hx
      have h : start ≤ start + k ∧ start + k < start + (k + 1) := by omega
      simp [h, packWord]
    · rw [store_other _ _ _ _ hx, ih]
      by_cases h1 : start ≤ x ∧ x < start + k
      · have h2 : start ≤ x ∧ x < start + (k + 1) := by omega
        simp [h1, h2]
      · have h2 : ¬ (start ≤ x ∧ x < start + (k + 1)) := by omega
        simp [h1, h2]

/-! ## A write inside block `lba` -/

theorem afterSetDevice_unlocked (d : Device) (buf : Mem) (n : Nat) :
    (afterSetDevice d buf n).usb_unlocked = d.usb_unlocked := by
  unfold afterSetDevice
  split
  · exact setPasswordDevice_unlocked _ _ _
  · rfl

theorem afterSetDevice_sb (d : Device) (buf : Mem) (n : Nat) :
    (afterSetDevice d buf n).sector_buffer = d.sector_buffer := by
  unfold afterSetDevice
  split
  · exact setPasswordDevice_sb _ _ _
  · rfl

theorem afterSetDevice_erase (d : Device) (buf : Mem) (n : Nat) :
    (afterSetDevice d buf n).erase = d.erase := by
  unfold afterSetDevice
  split
  · exact setPasswordDevice_erase _ _ _
  · rfl

theorem afterSetDevice_mem_below (d : Device) (buf : Mem) (n a : Nat) (ha : a < usb_password) :
    (afterSetDevice d buf n).mem a = d.mem a := by
  unfold afterSetDevice
  split
  · exact setPasswordDevice_mem_below _ _ _ _ ha
  · rfl

/-- The result of a write that lies inside block `lba` and starts before its end. -/
theorem writeResult_in_block (d : Device) (lba : Nat) (buf : Mem) (off count n : Nat)
    (hlba : lba < 80) (hoff : off < BLOCK_SIZE) (hle : off + count * 64 ≤ BLOCK_SIZE) :
    writeResult d lba buf off count n =
      if off + count * 64 = BLOCK_SIZE then
        committedDevice
          (stageWrite (afterSetDevice d buf n) buf (sectorOf lba) (slotOf lba + off / 2) off
            (count * 64)) (sectorOf lba)
      else
        stageWrite (afterSetDevice d buf n) buf (sectorOf lba) (slotOf lba + off / 2) off
          (count * 64) := by
  simp only [BLOCK_SIZE] at hoff hle
  have e1 : (lba * BLOCK_SIZE + off) % U32 = lba * 4096 + off := by
    simp only [BLOCK_SIZE, U32]; omega
  have e2 : count * TRANSFER_SIZE % U32 = count * 64 := by
    simp only [TRANSFER_SIZE, U32]; omega
  have e3 : (lba * 4096 + off + count * 64) % U32 ≤ RAM_DISK_SIZE := by
    simp only [RAM_DISK_SIZE, U32]; omega
  have e4 : ram_disk + (lba * 4096 + off) / 2 / SECTOR_SIZE * SECTOR_SIZE = sectorOf lba := by
    simp only [sectorOf, SECTOR_SIZE, ram_disk]; omega
  have e5 : (lba * 4096 + off) / 2 % SECTOR_SIZE = slotOf lba + off / 2 := by
    simp only [slotOf, SECTOR_SIZE, BLOCK_SIZE]; omega
  have e6 : ((off + count * 64) % U32 = BLOCK_SIZE) = (off + count * 64 = BLOCK_SIZE) := by
    simp only [BLOCK_SIZE, U32, eq_iff_iff]; omega
  unfold writeResult
  simp only [e1, e2, e3, if_true, writtenDevice, e4, e5, e6]
  rfl

/-- The result of an empty write at the very end of block `lba`: a commit to
the sector of block `lba + 1`. -/
theorem writeResult_at_end (d : Device) (lba : Nat) (buf : Mem) (n : Nat) (hlba : lba < 80) :
    writeResult d lba buf BLOCK_SIZE 0 n =
      committedDevice
        (stageWrite (afterSetDevice d buf n) buf (sectorOf (lba + 1)) (slotOf (lba + 1))
          BLOCK_SIZE 0) (sectorOf (lba + 1)) := by
  have e1 : (lba * BLOCK_SIZE + BLOCK_SIZE) % U32 = (lba + 1) * 4096 := by
    simp only [BLOCK_SIZE, U32]; omega
  have e2 : 0 * TRANSFER_SIZE % U32 = 0 := by norm_num
  have e3 : ((lba + 1) * 4096 + 0) % U32 ≤ RAM_DISK_SIZE := by
    simp only [RAM_DISK_SIZE, U32]; omega
  have e4 : ram_disk + (lba + 1) * 4096 / 2 / SECTOR_SIZE * SECTOR_SIZE = sectorOf (lba + 1) := by
    simp only [sectorOf, SECTOR_SIZE, ram_disk]; omega
  have e5 : (lba + 1) * 4096 / 2 % SECTOR_SIZE = slotOf (lba + 1) := by
    simp only [slotOf, SECTOR_SIZE, BLOCK_SIZE]; omega
  have e6 : (BLOCK_SIZE + 0) % U32 = BLOCK_SIZE := by norm_num
  unfold writeResult
  simp only [e1, e2, e3, if_true, writtenDevice, e4, e5, e6]
  rfl

/-! ## The invariant of a write cycle -/

theorem ld16_packWord (buf : Mem) (k : Nat) : packWord buf k % 65536 = packWord buf k :=
  Nat.mod_eq_of_lt (packWord_lt buf k)

theorem block_below_password (lba k : Nat) (hlba : lba < 80) (hk : k < BLOCK_SIZE / 2) :
    sectorOf lba + slotOf lba + k < usb_password := by
  simp only [sectorOf, slotOf, SECTOR_SIZE, BLOCK_SIZE, ram_disk, usb_password] at hk ⊢
  omega

/-- One call of a write cycle keeps the invariant. -/
theorem writeResult_inv (lba : Nat) (data : Mem) (d : Device) (buf : Mem) (off count n : Nat)
    (hlba : lba < 80) (hinv : CycleInv lba data d off) (heven : off % 2 = 0)
    (hle : off + count * 64 ≤ BLOCK_SIZE)
    (hbuf : ∀ i, i < count * 64 → buf i = data (off + i)) :
    CycleInv lba data (writeResult d lba buf off count n) (off + count * 64) := by
  obtain ⟨hu, hsb, hmem⟩ := hinv
  refine ⟨by rw [writeResult_unlocked]; exact hu, ?_, ?_⟩
  · -- the sector buffer
    intro k hk
    by_cases hend : off = BLOCK_SIZE
    · have hc : count = 0 := by simp only [BLOCK_SIZE] at hle hend; omega
      subst hc
      subst hend
      rw [writeResult_at_end d lba buf n hlba, committedDevice_sb, stageWrite_sb,
        mergeLoop_apply]
      have h1 : ¬ (slotOf (lba + 1) ≤ slotOf lba + k ∧ slotOf lba + k < slotOf (lba + 1) + (0 + 1) / 2) := by
        omega
      rw [if_neg h1, if_neg (by norm_num), afterSetDevice_sb]
      exact hsb k (by simpa using hk)
    · have hoff : off < BLOCK_SIZE := by simp only [BLOCK_SIZE] at hle hend ⊢; omega
      have hsb2 : (stageWrite (afterSetDevice d buf n) buf (sectorOf lba) (slotOf lba + off / 2)
          off (count * 64)).sector_buffer (slotOf lba + k) = packWord data k := by
        rw [stageWrite_sb, mergeLoop_apply]
        by_cases hin : off / 2 ≤ k
        · have h1 : slotOf lba + off / 2 ≤ slotOf lba + k ∧
              slotOf lba + k < slotOf lba + off / 2 + (count * 64 + 1) / 2 := by omega
          rw [if_pos h1]
          unfold packWord
          have i1 : 2 * (slotOf lba + k - (slotOf lba + off / 2)) < count * 64 := by omega
          have i2 : 2 * (slotOf lba + k - (slotOf lba + off / 2)) + 1 < count * 64 := by omega
          rw [hbuf _ i1, hbuf _ i2]
          have j1 : off + 2 * (slotOf lba + k - (slotOf lba + off / 2)) = 2 * k := by omega
          have j2 : off + (2 * (slotOf lba + k - (slotOf lba + off / 2)) + 1) = 2 * k + 1 := by
            omega
          rw [j1, j2]
        · have h1 : ¬ (slotOf lba + off / 2 ≤ slotOf lba + k ∧
              slotOf lba + k < slotOf lba + off / 2 + (count * 64 + 1) / 2) := by omega
          have h0 : off ≠ 0 := by omega
          rw [if_neg h1, if_neg h0, afterSetDevice_sb]
          exact hsb k (by omega)
      rw [writeResult_in_block d lba buf off count n hlba hoff hle]
      split
      · rw [committedDevice_sb]
        exact hsb2
      · exact hsb2
  · -- the flash
    intro hfull k hk
    by_cases hend : off = BLOCK_SIZE
    · have hc : count = 0 := by simp only [BLOCK_SIZE] at hle hend; omega
      subst hc
      subst hend
      rw [writeResult_at_end d lba buf n hlba]
      by_cases hlast : lba % 16 = 15
      · have hb : sectorOf lba + slotOf lba + k < sectorOf (lba + 1) := by
          simp only [sectorOf, slotOf, SECTOR_SIZE, BLOCK_SIZE, ram_disk] at hk ⊢
          omega
        unfold ld16
        rw [committedDevice_mem_below _ _ _ hb, stageWrite_mem,
          afterSetDevice_mem_below _ _ _ _ (block_below_password lba k hlba hk)]
        exact hmem rfl k hk
      · have hs : sectorOf (lba + 1) = sectorOf lba := by
          simp only [sectorOf, SECTOR_SIZE, ram_disk]
          omega
        have h1 : sectorOf lba ≤ sectorOf lba + slotOf lba + k := by omega
        have h2 : sectorOf lba + slotOf lba + k < sectorOf lba + SECTOR_SIZE := by
          simp only [slotOf, SECTOR_SIZE, BLOCK_SIZE] at hk ⊢
          omega
        rw [hs]
        unfold ld16
        rw [committedDevice_mem_in _ _ _ h1 h2]
        unfold ld16
        rw [stageWrite_sb, mergeLoop_apply]
        have h3 : ¬ (slotOf (lba + 1) ≤ sectorOf lba + slotOf lba + k - sectorOf lba ∧
            sectorOf lba + slotOf lba + k - sectorOf lba < slotOf (lba + 1) + (0 + 1) / 2) := by
          omega
        rw [if_neg h3, if_neg (by norm_num), afterSetDevice_sb]
        have e : sectorOf lba + slotOf lba + k - sectorOf lba = slotOf lba + k := by omega
        rw [e, hsb k (by simpa using hk), ld16_packWord, ld16_packWord]
    · have hoff : off < BLOCK_SIZE := by simp only [BLOCK_SIZE] at hle hend ⊢; omega
      have hsb2 : (stageWrite (afterSetDevice d buf n) buf (sectorOf lba) (slotOf lba + off / 2)
          off (count * 64)).sector_buffer (slotOf lba + k) = packWord data k := by
        rw [stageWrite_sb, mergeLoop_apply]
        simp only [BLOCK_SIZE] at hk hfull hoff
        by_cases hin : off / 2 ≤ k
        · have h1 : slotOf lba + off / 2 ≤ slotOf lba + k ∧
              slotOf lba + k < slotOf lba + off / 2 + (count * 64 + 1) / 2 := by omega
          rw [if_pos h1]
          unfold packWord
          have i1 : 2 * (slotOf lba + k - (slotOf lba + off / 2)) < count * 64 := by omega
          have i2 : 2 * (slotOf lba + k - (slotOf lba + off / 2)) + 1 < count * 64 := by omega
          rw [hbuf _ i1, hbuf _ i2]
          have j1 : off + 2 * (slotOf lba + k - (slotOf lba + off / 2)) = 2 * k := by omega
          have j2 : off + (2 * (slotOf lba + k - (slotOf lba + off / 2)) + 1) = 2 * k + 1 := by
            omega
          rw [j1, j2]
        · have h1 : ¬ (slotOf lba + off / 2 ≤ slotOf lba + k ∧
              slotOf lba + k < slotOf lba + off / 2 + (count * 64 + 1) / 2) := by omega
          have h0 : off ≠ 0 := by omega
          rw [if_neg h1, if_neg h0, afterSetDevice_sb]
          exact hsb k (by omega)
      rw [writeResult_in_block d lba buf off count n hlba hoff hle, if_pos hfull]
      have h1 : sectorOf lba ≤ sectorOf lba + slotOf lba + k := by omega
      have h2 : sectorOf lba + slotOf lba + k < sectorOf lba + SECTOR_SIZE := by
        simp only [slotOf, SECTOR_SIZE, BLOCK_SIZE] at hk ⊢
        omega
      have e : sectorOf lba + slotOf lba + k - sectorOf lba = slotOf lba + k := by omega
      unfold ld16
      rw [committedDevice_mem_in _ _ _ h1 h2]
      unfold ld16
      rw [e, hsb2, ld16_packWord, ld16_packWord]

theorem Covers_le (data : Mem) : ∀ (pieces : List (Nat × Mem)) (off : Nat),
    Covers data off pieces → off ≤ BLOCK_SIZE := by
  intro pieces
  induction pieces with
  | nil => intro off h; exact le_of_eq h
  | cons p rest ih =>
    intro off h
    obtain ⟨count, buf⟩ := p
    have := ih _ h.2
    omega

/-- A write cycle that covers the block returns and ends in the invariant at
the end of the block. -/
theorem writeCycle_inv (fuel : Nat) (env : Nat → Bool) (h : AllOk env) (lba : Nat) (data : Mem)
    (hlba : lba < 80) : ∀ (pieces : List (Nat × Mem)) (d : Device) (off : Nat),
    CycleInv lba data d off → off % 2 = 0 → Covers data off pieces →
    (∀ p, p ∈ pieces → HasTag p.2 → ∃ m, m < fuel ∧ ld16 p.2 (8 + m) = 0) →
    ∃ d1, writeCycle fuel env lba d off pieces = ok d1 ∧ CycleInv lba data d1 BLOCK_SIZE := by
  intro pieces
  induction pieces with
  | nil =>
    intro d off hinv _ hcov _
    have e : off = BLOCK_SIZE := hcov
    subst e
    exact ⟨d, rfl, hinv⟩
  | cons p rest ih =>
    intro d off hinv heven hcov hstr
    obtain ⟨count, buf⟩ := p
    obtain ⟨hbuf, hrest⟩ := hcov
    have hle := Covers_le data rest _ hrest
    have hn : ∃ n, strncmp buf (ofList TAG) 8 = 0 → strlen fuel (shift buf 8) = some n := by
      by_cases ht : strncmp buf (ofList TAG) 8 = 0
      · obtain ⟨m, hm, h0⟩ := hstr (count, buf) (List.mem_cons_self _ _) ((strncmp_tag buf).1 ht)
        obtain ⟨n, _, hs, _⟩ := strlen_terminates fuel (shift buf 8) m (by simpa using h0) hm
        exact ⟨n, fun _ => hs⟩
      · exact ⟨0, fun hh => absurd hh ht⟩
    obtain ⟨n, hn⟩ := hn
    have hw := disk_write_ok fuel env h d lba buf off count n hinv.1 hn
    have hinv2 := writeResult_inv lba data d buf off count n hlba hinv heven hle hbuf
    obtain ⟨d1, hd1, hfin⟩ := ih (writeResult d lba buf off count n) (off + count * TRANSFER_SIZE)
      hinv2 (by simp only [TRANSFER_SIZE]; omega) hrest
      (fun p hp => hstr p (List.mem_cons_of_mem _ hp))
    refine ⟨d1, ?_, hfin⟩
    unfold writeCycle
    rw [hw]
    exact hd1

/-- What `disk_read` returns from a block that holds the packed bytes `data`. -/
theorem disk_read_block (d : Device) (lba : Nat) (data : Mem) (hlba : lba < 80)
    (hu : d.usb_unlocked = true)
    (hmem : ∀ k, k < BLOCK_SIZE / 2 →
      ld16 d.mem (sectorOf lba + slotOf lba + k) = packWord data k)
    (hbytes : ∀ p, p < BLOCK_SIZE → data p < 256)
    (buf : Mem) (off count : Nat) (heven : off % 2 = 0) (hle : off + count * 64 ≤ BLOCK_SIZE) :
    (disk_read d lba buf off count).2 = count * 64 ∧
    (∀ i, i < count * 64 → (disk_read d lba buf off count).1 i = data (off + i)) ∧
    (∀ i, count * 64 ≤ i → (disk_read d lba buf off count).1 i = buf i) := by
  simp only [BLOCK_SIZE] at hle
  have e1 : (lba * BLOCK_SIZE + off) % U32 = lba * 4096 + off := by
    simp only [BLOCK_SIZE, U32]; omega
  have e2 : count * TRANSFER_SIZE % U32 = count * 64 := by
    simp only [TRANSFER_SIZE, U32]; omega
  have e3 : (lba * 4096 + off + count * 64) % U32 ≤ RAM_DISK_SIZE := by
    simp only [RAM_DISK_SIZE, U32]; omega
  have e4 : (count * 64 + 1) / 2 = count * 32 := by omega
  have e5 : count * 64 % UINT = count * 64 := by
    simp only [UINT]; omega
  have hr : disk_read d lba buf off count =
      (readLoop d.mem (lba * 4096 + off) (count * 32) buf, count * 64) := by
    unfold disk_read
    simp only [hu, Bool.not_true, Bool.false_eq_true, if_false, e1, e2, e3, if_true, e4, e5]
  rw [hr]
  refine ⟨rfl, ?_, ?_⟩
  · intro i hi
    simp only [readLoop_apply]
    rw [if_pos (by omega)]
    by_cases hpar : i % 2 = 0
    · rw [if_pos hpar]
      have ea : ram_disk + (lba * 4096 + off + i) % U32 / 2
          = sectorOf lba + slotOf lba + (off + i) / 2 := by
        simp only [sectorOf, slotOf, SECTOR_SIZE, BLOCK_SIZE, ram_disk, U32]
        omega
      rw [ea, hmem _ (by simp only [BLOCK_SIZE]; omega)]
      unfold packWord
      have eb : 2 * ((off + i) / 2) = off + i := by omega
      rw [eb]
      have := hbytes (off + i) (by simp only [BLOCK_SIZE]; omega)
      omega
    · rw [if_neg hpar]
      have ea : ram_disk + (lba * 4096 + off + (i - 1)) % U32 / 2
          = sectorOf lba + slotOf lba + (off + i) / 2 := by
        simp only [sectorOf, slotOf, SECTOR_SIZE, BLOCK_SIZE, ram_disk, U32]
        omega
      rw [ea, hmem _ (by simp only [BLOCK_SIZE]; omega)]
      unfold packWord
      have eb : 2 * ((off + i) / 2) + 1 = off + i := by omega
      rw [eb]
      have := hbytes (off + i) (by simp only [BLOCK_SIZE]; omega)
      omega
  · intro i hi
    simp only [readLoop_apply]
    rw [if_neg (by omega)]

/-- C1. Write/read round trip: for every block `lba < 80` and every unlocked
device state, when `disk_write` is called on block `lba` piece by piece, from
offset 0 on, each piece at the offset where the previous one ended and the
last one ending at `BLOCK_SIZE`, every element written being a byte and every
flash primitive succeeding, the calls all return, and afterwards
`disk_read(lba, off, count)`, for any even `off` with
`off + count * 64 <= BLOCK_SIZE`, returns `count * 64` and fills the buffer
elements `0 .. count * 64 - 1` with exactly the bytes written at the positions
`off ..`, leaving the rest of the buffer alone.  (A piece whose buffer begins
with the tag `UNL0CKK:` is also a set-password command; its string must end
within the fuel of the string scan.) -/
theorem write_read_round_trip (fuel : Nat) (env : Nat → Bool) (d : Device) (lba : Nat)
    (pieces : List (Nat × Mem)) (data : Mem)
    (henv : AllOk env) (hu : d.usb_unlocked = true) (hlba : lba < 80)
    (hcov : Covers data 0 pieces) (hbytes : ∀ p, p < BLOCK_SIZE → data p < 256)
    (hstr : ∀ p, p ∈ pieces → HasTag p.2 → ∃ m, m < fuel ∧ ld16 p.2 (8 + m) = 0) :
    ∃ d1, writeCycle fuel env lba d 0 pieces = ok d1 ∧
      ∀ (buf : Mem) (off count : Nat), off % 2 = 0 → off + count * 64 ≤ BLOCK_SIZE →
        (disk_read d1 lba buf off count).2 = count * 64 ∧
        (∀ i, i < count * 64 → (disk_read d1 lba buf off count).1 i = data (off + i)) ∧
        (∀ i, count * 64 ≤ i → (disk_read d1 lba buf off count).1 i = buf i) := by
  have hinv0 : CycleInv lba data d 0 :=
    ⟨hu, fun k hk => absurd hk (by norm_num), fun h0 => absurd h0 (by norm_num)⟩
  obtain ⟨d1, hd1, hu1, _, hmem⟩ :=
    writeCycle_inv fuel env henv lba data hlba pieces d 0 hinv0 (by norm_num) hcov hstr
  exact ⟨d1, hd1, fun buf off count heven hle =>
    disk_read_block d1 lba data hlba hu1 (hmem rfl) hbytes buf off count heven hle⟩

theorem ofList_lt (l : List Nat) (b : Nat) (hb : 0 < b) (h : ∀ x, x ∈ l → x < b) (p : Nat) :
    ofList l p < b := by
  unfold ofList
  rw [List.getD_eq_getElem?_getD]
  cases hp : l[p]? with
  | none => simpa using hb
  | some x =>
    have hx : x ∈ l := List.getElem?_mem hp
    simpa using h x hx

theorem tagA_lt (p : Nat) : tagA p < 256 := by
  apply ofList_lt _ _ (by norm_num)
  intro x hx
  simp only [List.mem_cons, List.mem_singleton, List.not_mem_nil, or_false] at hx
  omega

/-- Witness of C1: one piece of 64 transfer units that holds `UNL0CKK:A` and zeros. -/
theorem write_read_round_trip_witness :
    Covers tagA 0 [(64, tagA)] ∧ (∃ m, m < 2 ∧ ld16 tagA (8 + m) = 0) ∧
    ∃ d1, writeCycle 2 (fun _ => true) 0 blankDevice 0 [(64, tagA)] = ok d1 ∧
      ∀ (buf : Mem) (off count : Nat), off % 2 = 0 → off + count * 64 ≤ BLOCK_SIZE →
        (disk_read d1 0 buf off count).2 = count * 64 ∧
        (∀ i, i < count * 64 → (disk_read d1 0 buf off count).1 i = tagA (off + i)) ∧
        (∀ i, count * 64 ≤ i → (disk_read d1 0 buf off count).1 i = buf i) :=
  ⟨⟨fun i _ => by rw [Nat.zero_add], rfl⟩, ⟨1, by decide, by decide⟩,
    write_read_round_trip 2 (fun _ => true) blankDevice 0 [(64, tagA)] tagA
      (fun _ => rfl) rfl (by decide) ⟨fun i _ => by rw [Nat.zero_add], rfl⟩
      (fun p _ => tagA_lt p)
      (fun p hp _ => by
        have e : p = (64, tagA) := by simpa using hp
        subst e
        exact ⟨1, by decide, by decide⟩)⟩

/-! ## Sixteen sequential block writes -/

theorem packWord_AB (k : Nat) : packWord (fun _ => 0xAB) k = 0xABAB := by
  show 0xAB % 256 + 256 * (0xAB % 256) = 0xABAB
  rfl

theorem not_tagged_AB : ¬ strncmp (fun _ => 0xAB) (ofList TAG) 8 = 0 := by
  rw [strncmp_tag]
  intro h
  have := h 0 (by norm_num)
  simp [ld16] at this

/-- After `k` of the sequential writes of 0xAB the first `k` blocks of Erase
Unit 0 hold 0xABAB. -/
theorem writeBlocks_AB (fuel : Nat) (env : Nat → Bool) (h : AllOk env) (d : Device)
    (hu : d.usb_unlocked = true) : ∀ k, k ≤ 16 →
    ∃ d1, writeBlocks fuel env (fun _ => 0xAB) d k = ok d1 ∧ d1.usb_unlocked = true ∧
      ∀ a, ram_disk ≤ a → a < ram_disk + k * 0x800 → d1.mem a = 0xABAB := by
  intro k
  induction k with
  | zero =>
    intro _
    exact ⟨d, rfl, hu, fun a h1 h2 => by omega⟩
  | succ k ih =>
    intro hk
    obtain ⟨d1, hd1, hu1, hm1⟩ := ih (by omega)
    have hw := disk_write_ok fuel env h d1 k (fun _ => 0xAB) 0 64 0 hu1
      (fun ht => absurd ht not_tagged_AB)
    have hres := writeResult_in_block d1 k (fun _ => 0xAB) 0 64 0 (by omega) (by norm_num)
      (by norm_num)
    rw [if_pos (by norm_num)] at hres
    refine ⟨writeResult d1 k (fun _ => 0xAB) 0 64 0, ?_, ?_, ?_⟩
    · unfold writeBlocks
      rw [hd1]
      simp only [hw]
    · rw [writeResult_unlocked]
      exact hu1
    · intro a h1 h2
      have hs : sectorOf k = ram_disk := by
        simp only [sectorOf, SECTOR_SIZE, ram_disk]
        omega
      rw [hres, hs, committedDevice_mem_in _ _ _ h1 (by simp only [SECTOR_SIZE]; omega)]
      unfold ld16
      rw [stageWrite_sb, mergeLoop_apply, if_pos rfl]
      by_cases hin : slotOf k + 0 / 2 ≤ a - ram_disk ∧
          a - ram_disk < slotOf k + 0 / 2 + (64 * 64 + 1) / 2
      · rw [if_pos hin, ld16_packWord, packWord_AB]
      · rw [if_neg hin]
        have hlt : a - ram_disk < SECTOR_SIZE := by simp only [SECTOR_SIZE]; omega
        have hlow : a < ram_disk + k * 0x800 := by
          simp only [slotOf, BLOCK_SIZE, ram_disk] at hin h1 h2 ⊢
          omega
        simp only [hlt, if_true]
        rw [show ram_disk + (a - ram_disk) = a by omega,
          afterSetDevice_mem_below _ _ _ _ (by simp only [usb_password, ram_disk] at h2 ⊢; omega),
          hm1 a h1 hlow]

/-- C7. Scenario: on an unlocked device, whatever the storage holds at the
start, with every flash primitive succeeding, a full Transfer Unit of 0xAB
written to block 0 at offset 0 and then to the blocks 1 .. 15 (every call
returns) leaves every word of Erase Unit 0 equal to 0xABAB, and
`disk_read(block 0, offset 0, 0x1000 bytes)` then returns 0x1000 and fills the
buffer with 0x1000 elements equal to 0xAB. -/
theorem fill_erase_unit_scenario (fuel : Nat) (env : Nat → Bool) (d : Device)
    (henv : AllOk env) (hu : d.usb_unlocked = true) :
    ∃ d1, writeBlocks fuel env (fun _ => 0xAB) d 16 = ok d1 ∧
      (∀ a, ram_disk ≤ a → a < ram_disk + SECTOR_SIZE → d1.mem a = 0xABAB) ∧
      ∀ buf : Mem, (disk_read d1 0 buf 0 64).2 = 0x1000 ∧
        (∀ i, i < 0x1000 → (disk_read d1 0 buf 0 64).1 i = 0xAB) ∧
        (∀ i, 0x1000 ≤ i → (disk_read d1 0 buf 0 64).1 i = buf i) := by
  obtain ⟨d1, hd1, hu1, hm1⟩ := writeBlocks_AB fuel env henv d hu 16 (le_refl _)
  refine ⟨d1, hd1, fun a h1 h2 => hm1 a h1 (by simp only [SECTOR_SIZE] at h2; omega), ?_⟩
  intro buf
  have hmem : ∀ k, k < BLOCK_SIZE / 2 →
      ld16 d1.mem (sectorOf 0 + slotOf 0 + k) = packWord (fun _ => 0xAB) k := by
    intro k hk
    simp only [BLOCK_SIZE] at hk
    have e : sectorOf 0 + slotOf 0 + k = ram_disk + k := by
      simp [sectorOf, slotOf]
    unfold ld16
    rw [e, hm1 _ (by omega) (by omega), packWord_AB]
  have hr := disk_read_block d1 0 (fun _ => 0xAB) (by norm_num) hu1 hmem
    (fun _ _ => by norm_num) buf 0 64 (by norm_num) (by norm_num)
  simpa using hr

/-- Witness of C7: the scenario from a blank device. -/
theorem fill_erase_unit_scenario_witness :
    ∃ d1, writeBlocks 0 (fun _ => true) (fun _ => 0xAB) blankDevice 16 = ok d1 ∧
      (∀ a, ram_disk ≤ a → a < ram_disk + SECTOR_SIZE → d1.mem a = 0xABAB) ∧
      ∀ buf : Mem, (disk_read d1 0 buf 0 64).2 = 0x1000 ∧
        (∀ i, i < 0x1000 → (disk_read d1 0 buf 0 64).1 i = 0xAB) ∧
        (∀ i, 0x1000 ≤ i → (disk_read d1 0 buf 0 64).1 i = buf i) :=
  fill_erase_unit_scenario 0 (fun _ => true) blankDevice (fun _ => rfl) rfl

/-- Witness of C4: the record holds `A`, the candidate is `UNL0CKK:A`. -/
theorem tag_path_exact_witness :
    ld16 pwDevice.mem usb_password ≠ 0xFFFF ∧ ¬ HasMarker tagA ∧
    ld16 pwDevice.mem (usb_password + 1) = 0 ∧
    ∃ b, verify_password 2 pwDevice.mem tagA = some b ∧
      (b = true ↔ HasTag tagA ∧ StrEq (shift tagA 8) (shift pwDevice.mem usb_password)) ∧
      (∀ i, ld16 tagA (8 + i) ≠ ld16 pwDevice.mem (usb_password + i) →
        (∀ j, j < i → ld16 pwDevice.mem (usb_password + j) ≠ 0) → b = false) ∧
      (pwDevice.usb_unlocked = false → b = false → ∀ lba off count,
        ∃ d1 r, disk_write 2 (fun _ => true) pwDevice lba tagA off count = ok (d1, r) ∧
          d1.usb_unlocked = false) :=
  ⟨by decide, fun h => absurd (h 0 (by decide)) (by decide), by decide,
    tag_path_exact 2 (fun _ => true) pwDevice tagA 1 (by decide)
      (fun h => absurd (h 0 (by decide)) (by decide)) (by decide) (by decide)⟩

/-! ## Re-opening the device -/

/-- With a stored secret that ends within the fuel, `verify_password` returns. -/
theorem verify_password_returns (fuel : Nat) (mem cand : Mem) (n : Nat)
    (hnul : ld16 mem (usb_password + n) = 0) (hfuel : n < fuel) :
    ∃ b, verify_password fuel mem cand = some b := by
  obtain ⟨c, hc, _⟩ := strcmp_spec fuel (shift cand 8) (shift mem usb_password) n
    (by simpa using hnul) hfuel
  obtain ⟨len, _, hlen, _, _⟩ := strlen_terminates fuel (shift mem usb_password) n
    (by simpa using hnul) hfuel
  unfold verify_password
  simp only [hc, hlen, Option.map_some']
  by_cases h0 : ld16 mem usb_password = 0xFFFF
  · simp [h0]
  · by_cases ht : strncmp cand (ofList TAG) 8 = 0
    · by_cases hcz : c = 0
      · simp [h0, ht, hcz]
      · by_cases hm : ld64 cand = MAGIC
        · simp [h0, ht, hcz, hm]
        · simp [h0, ht, hcz, hm]
    · by_cases hm : ld64 cand = MAGIC
      · simp [h0, ht, hm]
      · simp [h0, ht, hm]

/-- The tag followed by exactly the stored secret is accepted. -/
theorem verify_password_accepts (fuel : Nat) (mem cand : Mem) (n : Nat) (ht : HasTag cand)
    (hfuel : n < fuel)
    (heq : ∀ i, i < n → ld16 cand (8 + i) = ld16 mem (usb_password + i) ∧ ld16 cand (8 + i) ≠ 0)
    (hc0 : ld16 cand (8 + n) = 0) (hnul : ld16 mem (usb_password + n) = 0) :
    verify_password fuel mem cand = some true := by
  obtain ⟨c, hc, hiff⟩ := strcmp_spec fuel (shift cand 8) (shift mem usb_password) n
    (by simpa using hnul) hfuel
  have hs : StrEq (shift cand 8) (shift mem usb_password) :=
    ⟨n, fun i hi => by simpa using heq i hi, by simpa using hc0, by simpa using hnul⟩
  have hcz : c = 0 := hiff.2 hs
  subst hcz
  unfold verify_password
  simp only [(strncmp_tag cand).2 ht, if_true, hc, Option.map_some']
  split
  · rfl
  · simp

/-- When the flash API calls succeed and the stored secret ends within the
fuel, disk_initialize returns and leaves the flash as it was. -/
theorem disk_initialize_ok (fuel : Nat) (env : Nat → Bool) (h : AllOk env) (d : Device)
    (n : Nat) (hnul : ld16 d.mem (usb_password + n) = 0) (hfuel : n < fuel) :
    ∃ d2, disk_initialize fuel env d = ok d2 ∧ d2.mem = d.mem := by
  obtain ⟨d0, h0⟩ := Init_Flash_Sectors_ok env d (h _) (h _)
  have hm := (Init_Flash_Sectors_mem env d d0 h0).1
  unfold disk_initialize
  rw [h0]
  simp only []
  cases memmem (shift d0.mem ram_disk) (RAM_DISK_SIZE / 2) (ofList magicWords) 4 with
  | none =>
    simp only []
    by_cases hp : ld16 d0.mem usb_password = 0xFFFF
    · rw [if_pos hp]
      exact ⟨_, rfl, hm⟩
    · rw [if_neg hp]
      exact ⟨_, rfl, hm⟩
  | some p =>
    obtain ⟨b, hb⟩ := verify_password_returns fuel d0.mem (shift d0.mem (ram_disk + p)) n
      (by rw [hm]; exact hnul) hfuel
    simp only [hb]
    exact ⟨_, rfl, hm⟩

/-- Under the same conditions `USBDMSCStorageOpen` returns and leaves the flash
as it was. -/
theorem USBDMSCStorageOpen_ok (fuel : Nat) (env : Nat → Bool) (h : AllOk env) (d : Device)
    (n : Nat) (hnul : ld16 d.mem (usb_password + n) = 0) (hfuel : n < fuel) (drive : Nat) :
    ∃ d2, USBDMSCStorageOpen fuel env d drive = ok d2 ∧ d2.mem = d.mem := by
  obtain ⟨d1, h1, hm⟩ := disk_initialize_ok fuel env h d n hnul hfuel
  unfold USBDMSCStorageOpen
  rw [h1]
  exact ⟨_, rfl, hm⟩

/-- C3. Password set, re-open, unlock: from an unlocked device, with every
flash primitive succeeding, a `disk_write` whose buffer is the tag `UNL0CKK:`
followed by a NUL-terminated secret returns; and after it, after
`USBDMSCStorageClose` and `USBDMSCStorageOpen` (which returns), a `disk_write`
with `off + count * 64 == BLOCK_SIZE` whose buffer is the tag followed by
exactly the secret now stored in the Password Record and a NUL returns and
leaves the device unlocked.  (The secrets end within the fuel of the string
scans.) -/
theorem password_set_reopen_unlock (fuel : Nat) (env : Nat → Bool) (d0 : Device)
    (lba1 : Nat) (b1 : Mem) (off1 c1 m : Nat)
    (henv : AllOk env) (hu : d0.usb_unlocked = true) (_ht1 : HasTag b1) (hm : m < fuel)
    (hnul1 : ld16 b1 (8 + m) = 0) :
    (∃ d1 r1, disk_write fuel env d0 lba1 b1 off1 c1 = ok (d1, r1)) ∧
    ∀ d1 r1, disk_write fuel env d0 lba1 b1 off1 c1 = ok (d1, r1) →
      ∀ (lba2 : Nat) (b2 : Mem) (off2 c2 n : Nat), off2 + c2 * 64 = BLOCK_SIZE →
        HasTag b2 → n < fuel →
        (∀ i, i < n → ld16 b2 (8 + i) = ld16 d1.mem (usb_password + i) ∧ ld16 b2 (8 + i) ≠ 0) →
        ld16 b2 (8 + n) = 0 → ld16 d1.mem (usb_password + n) = 0 →
        ∃ d2 d3 r3, USBDMSCStorageOpen fuel env (USBDMSCStorageClose d1) 0 = ok d2 ∧
          disk_write fuel env d2 lba2 b2 off2 c2 = ok (d3, r3) ∧ d3.usb_unlocked = true := by
  obtain ⟨n1, _, hn1, _, _⟩ := strlen_terminates fuel (shift b1 8) m (by simpa using hnul1) hm
  have hw1 := disk_write_ok fuel env henv d0 lba1 b1 off1 c1 n1 hu (fun _ => hn1)
  refine ⟨⟨_, _, hw1⟩, ?_⟩
  intro d1 r1 hd1 lba2 b2 off2 c2 n hoff ht2 hn heq hb0 hrec0
  rw [hw1] at hd1
  have e1 : d1 = writeResult d0 lba1 b1 off1 c1 n1 := by
    cases hd1
    rfl
  obtain ⟨d2, hopen, hmem2⟩ := USBDMSCStorageOpen_ok fuel env henv (USBDMSCStorageClose d1) n
    hrec0 hn 0
  have hmem2a : d2.mem = d1.mem := hmem2
  cases hlock : d2.usb_unlocked with
  | true =>
    obtain ⟨n2, _, hn2, _, _⟩ := strlen_terminates fuel (shift b2 8) n (by simpa using hb0) hn
    have hw2 := disk_write_ok fuel env henv d2 lba2 b2 off2 c2 n2 hlock (fun _ => hn2)
    exact ⟨d2, _, _, hopen, hw2, by rw [writeResult_unlocked]; exact hlock⟩
  | false =>
    have hv := verify_password_accepts fuel d2.mem b2 n ht2 hn
      (by rw [hmem2a]; exact heq) hb0 (by rw [hmem2a]; exact hrec0)
    have hc : (off2 + c2 * TRANSFER_SIZE % U32) % U32 = BLOCK_SIZE := by
      simp only [BLOCK_SIZE, TRANSFER_SIZE, U32] at hoff ⊢
      omega
    refine ⟨d2, { d2 with usb_unlocked := true }, c2 * TRANSFER_SIZE % U32 % UINT, hopen, ?_,
      rfl⟩
    unfold disk_write
    simp only [hlock, Bool.not_false, if_true, hc, hv]

/-! ## A concrete set-password write -/

theorem hasTag_tagA : HasTag tagA := by
  intro i hi
  interval_cases i <;> rfl

theorem strlen_tagA : strlen 2 (shift tagA 8) = some 1 := by
  apply strlen_spec
  · intro j hj
    interval_cases j
    decide
  · decide
  · norm_num

theorem tagA_record_0 :
    (setPasswordDevice blankDevice (shift tagA 8) 1).mem usb_password = 0x41 := by
  have h := setPasswordDevice_record blankDevice (shift tagA 8) 1 0 (by norm_num)
  rw [Nat.add_zero] at h
  rw [h]
  decide

theorem tagA_record_1 :
    (setPasswordDevice blankDevice (shift tagA 8) 1).mem (usb_password + 1) = 0 := by
  rw [setPasswordDevice_record blankDevice (shift tagA 8) 1 1 (by norm_num)]
  decide

theorem allOk_true : AllOk (fun _ => true) := fun _ => rfl

/-- Witness of C3: the password `A` is set on a blank device by a write to
block 0, the device is closed and opened, and `UNL0CKK:A` completes block 0. -/
theorem password_set_reopen_unlock_witness :
    ∃ d1 r1 d2 d3 r3, disk_write 2 (fun _ => true) blankDevice 0 tagA 0 1 = ok (d1, r1) ∧
      ld16 d1.mem usb_password = 0x41 ∧ ld16 d1.mem (usb_password + 1) = 0 ∧
      USBDMSCStorageOpen 2 (fun _ => true) (USBDMSCStorageClose d1) 0 = ok d2 ∧
      disk_write 2 (fun _ => true) d2 0 tagA 0 64 = ok (d3, r3) ∧ d3.usb_unlocked = true := by
  have hw1 := disk_write_ok 2 (fun _ => true) allOk_true blankDevice 0 tagA 0 1 1 rfl
    (fun _ => strlen_tagA)
  have hres := writeResult_in_block blankDevice 0 tagA 0 1 1 (by norm_num) (by norm_num)
    (by norm_num)
  rw [if_neg (by norm_num)] at hres
  have hmem : (writeResult blankDevice 0 tagA 0 1 1).mem
      = (setPasswordDevice blankDevice (shift tagA 8) 1).mem := by
    rw [hres, stageWrite_mem]
    unfold afterSetDevice
    rw [if_pos ((strncmp_tag tagA).2 hasTag_tagA)]
  have h0 : ld16 (writeResult blankDevice 0 tagA 0 1 1).mem usb_password = 0x41 := by
    unfold ld16
    rw [hmem, tagA_record_0]
  have h1 : ld16 (writeResult blankDevice 0 tagA 0 1 1).mem (usb_password + 1) = 0 := by
    unfold ld16
    rw [hmem, tagA_record_1]
  obtain ⟨d2, d3, r3, h2, h3, h4⟩ :=
    (password_set_reopen_unlock 2 (fun _ => true) blankDevice 0 tagA 0 1 1 allOk_true rfl
      hasTag_tagA (by norm_num) (by decide)).2 _ _ hw1 0 tagA 0 64 1 (by norm_num) hasTag_tagA
      (by norm_num)
      (fun i hi => by
        have e : i = 0 := by omega
        subst e
        exact ⟨by rw [Nat.add_zero, h0]; decide, by decide⟩)
      (by decide) h1
  exact ⟨_, _, d2, d3, r3, hw1, h0, h1, h2, h3, h4⟩

/-! ## disk_read and disk_write outside the region -/

theorem ld16_blankDevice (a : Nat) : ld16 blankDevice.mem a = 0xFFFF := by
  unfold ld16 blankDevice
  norm_num

theorem packWord_FF (k : Nat) : packWord (fun _ => 0xFF) k = 0xFFFF := by
  show 0xFF % 256 + 256 * (0xFF % 256) = 0xFFFF
  rfl

/-- C9 (evaluation at the failing input). The read `lba = 0x100000, off = 0,
count = 1` lies outside the Storage Region when its range is computed over the
integers, yet `lba * BLOCK_SIZE` wraps to 0 in `uint32_t`: the call is the read
of block 0, and on an unlocked device it writes the buffer. -/
theorem read_range_check_wraps :
    0x100000 * 0x1000 + 0 + 1 * 64 > 0x50000 ∧
    (∀ (d : Device) (buf : Mem), disk_read d 0x100000 buf 0 1 = disk_read d 0 buf 0 1) ∧
    (disk_read blankDevice 0x100000 (fun _ => 0) 0 1).1 0 = 0xFF ∧
    (disk_read blankDevice 0x100000 (fun _ => 0) 0 1).2 = 64 := by
  have e : ∀ (d : Device) (buf : Mem), disk_read d 0x100000 buf 0 1 = disk_read d 0 buf 0 1 := by
    intro d buf
    unfold disk_read
    norm_num
  refine ⟨by norm_num, e, ?_, ?_⟩
  · rw [e]
    have hr := (disk_read_block blankDevice 0 (fun _ => 0xFF) (by norm_num) rfl
      (fun k _ => by rw [ld16_blankDevice, packWord_FF]) (fun _ _ => by norm_num) (fun _ => 0)
      0 1 (by norm_num) (by norm_num)).2.1 0 (by norm_num)
    exact hr
  · rw [e]
    exact (disk_read_block blankDevice 0 (fun _ => 0xFF) (by norm_num) rfl
      (fun k _ => by rw [ld16_blankDevice, packWord_FF]) (fun _ _ => by norm_num) (fun _ => 0)
      0 1 (by norm_num) (by norm_num)).1

theorem progLog_length (base : Nat) (src : Mem) (k : Nat) :
    (progLog base src k).length = 2 * k := by
  induction k with
  | zero => rfl
  | succ k ih =>
    simp only [progLog, List.length_cons, ih]
    omega

/-- Setting the password issues flash primitives. -/
theorem setPasswordDevice_log_length (d : Device) (password : Mem) (n : Nat) :
    d.log.length < (setPasswordDevice d password n).log.length := by
  unfold setPasswordDevice
  split
  · simp only [programmedDevice_log, List.length_append, progLog_length, erasedDevice_log,
      List.length_cons]
    omega
  · simp only [programmedDevice_log, List.length_append, progLog_length]
    omega

theorem writeResult_out_of_range (d : Device) (lba : Nat) (buf : Mem) (off count n : Nat)
    (hout : RAM_DISK_SIZE < ((lba * BLOCK_SIZE + off) % U32 + count * TRANSFER_SIZE % U32) % U32) :
    writeResult d lba buf off count n = afterSetDevice d buf n := by
  unfold writeResult afterSetDevice
  simp only []
  rw [if_neg (by omega)]

/-- C10 (counterexample). An unlocked `disk_write` outside the Storage Region
(`lba = 80, off = 0, count = 1`) whose buffer begins with the tag `UNL0CKK:`
issues flash primitives and changes the Password Record. -/
theorem out_of_range_tagged_write_sets_password :
    80 * 0x1000 + 0 + 1 * 64 > 0x50000 ∧ blankDevice.usb_unlocked = true ∧
    ∃ d1, disk_write 2 (fun _ => true) blankDevice 80 tagA 0 1 = ok (d1, 64) ∧
      blankDevice.log.length < d1.log.length ∧
      d1.mem usb_password = 0x41 ∧ blankDevice.mem usb_password = 0xFFFF := by
  have hw := disk_write_ok 2 (fun _ => true) allOk_true blankDevice 80 tagA 0 1 1 rfl
    (fun _ => strlen_tagA)
  have e : 1 * TRANSFER_SIZE % U32 % UINT = 64 := by norm_num
  rw [e] at hw
  have hres : writeResult blankDevice 80 tagA 0 1 1
      = setPasswordDevice blankDevice (shift tagA 8) 1 := by
    rw [writeResult_out_of_range _ _ _ _ _ _ (by norm_num)]
    unfold afterSetDevice
    rw [if_pos ((strncmp_tag tagA).2 hasTag_tagA)]
  refine ⟨by norm_num, rfl, _, hw, ?_, ?_, rfl⟩
  · rw [hres]
    exact setPasswordDevice_log_length _ _ _
  · rw [hres]
    exact tagA_record_0

/-- An unlocked `disk_write` whose buffer does not begin with the tag and that
the range check of the code rejects returns at once, with the state as it was. -/
theorem disk_write_rejected (fuel : Nat) (env : Nat → Bool) (d : Device) (lba : Nat)
    (buf : Mem) (off count : Nat) (hu : d.usb_unlocked = true) (hnt : ¬ HasTag buf)
    (hout : RAM_DISK_SIZE < (startOf lba off + lenOf count) % U32) :
    disk_write fuel env d lba buf off count = ok (d, lenOf count % UINT) := by
  have ht : ¬ strncmp buf (ofList TAG) 8 = 0 := fun h => hnt ((strncmp_tag buf).1 h)
  unfold startOf lenOf at hout
  unfold disk_write lenOf
  simp only [hu, Bool.not_true, Bool.false_eq_true, if_false, ht]
  rw [if_neg (by omega)]

/-- C10 (amended). An unlocked `disk_write` whose buffer does not begin with
the tag `UNL0CKK:` and whose range lies outside the Storage Region
(`lba * 0x1000 + off + count * 64 > 0x50000`, the sum fitting in 32 bits)
returns with the state as it was: no flash primitive is issued (the log is
part of the state), and Storage Region, Password Record, Sector Cache,
Erase-Needed Flag and Lock State are unchanged; the result is the nominal
length `count * 64` when that fits the 16 bits of `unsigned int`. -/
theorem out_of_range_write_noop (fuel : Nat) (env : Nat → Bool) (d : Device) (lba : Nat)
    (buf : Mem) (off count : Nat) (hu : d.usb_unlocked = true) (hnt : ¬ HasTag buf)
    (hout : 0x50000 < lba * 0x1000 + off + count * 64)
    (hfit : lba * 0x1000 + off + count * 64 < U32) :
    ∃ r, disk_write fuel env d lba buf off count = ok (d, r) ∧
      (count * 64 < UINT → r = count * 64) := by
  have e2 : lenOf count = count * 64 := by
    unfold lenOf
    simp only [TRANSFER_SIZE, U32] at hfit ⊢
    omega
  have hrej : RAM_DISK_SIZE < (startOf lba off + lenOf count) % U32 := by
    rw [e2]
    unfold startOf
    simp only [BLOCK_SIZE, U32, RAM_DISK_SIZE] at hfit ⊢
    omega
  refine ⟨_, disk_write_rejected fuel env d lba buf off count hu hnt hrej, ?_⟩
  intro hsmall
  rw [e2]
  exact Nat.mod_eq_of_lt hsmall

/-- Witness of C10 (amended): a write of 0xAB bytes to block 80. -/
theorem out_of_range_write_noop_witness :
    blankDevice.usb_unlocked = true ∧ ¬ HasTag (fun _ => 0xAB) ∧
    0x50000 < 80 * 0x1000 + 0 + 1 * 64 ∧
    ∃ r, disk_write 0 (fun _ => true) blankDevice 80 (fun _ => 0xAB) 0 1 = ok (blankDevice, r) ∧
      (1 * 64 < UINT → r = 1 * 64) :=
  ⟨rfl, fun h => not_tagged_AB ((strncmp_tag _).2 h), by norm_num,
    out_of_range_write_noop 0 (fun _ => true) blankDevice 80 (fun _ => 0xAB) 0 1 rfl
      (fun h => not_tagged_AB ((strncmp_tag _).2 h)) (by norm_num) (by norm_num)⟩

/-! ## The flag `erase` is never cleared -/

theorem prescan_first (mem : Mem) (a n : Nat) (h : ld16 mem a ≠ 0xFFFF) :
    prescan mem a (n + 1) = true := by
  unfold prescan
  rw [if_pos h]

theorem prescan_blank (mem : Mem) (n : Nat) : ∀ a, (∀ j, j < n → ld16 mem (a + j) = 0xFFFF) →
    prescan mem a n = false := by
  induction n with
  | zero => intro a _; rfl
  | succ n ih =>
    intro a h
    unfold prescan
    have h0 : ld16 mem a = 0xFFFF := by simpa using h 0 (by omega)
    rw [if_neg (by rw [h0]; simp)]
    apply ih
    intro j hj
    have := h (j + 1) (by omega)
    rwa [show a + (j + 1) = a + 1 + j by omega] at this

theorem afterSetDevice_untagged (d : Device) (buf : Mem) (n : Nat)
    (h : ¬ strncmp buf (ofList TAG) 8 = 0) : afterSetDevice d buf n = d := by
  unfold afterSetDevice
  rw [if_neg h]

/-- A commit with the flag set logs an erase of its sector. -/
theorem committedDevice_log_erase (d : Device) (sb : Nat) (h : d.erase ≠ 0) :
    (committedDevice d sb).log =
      progLog sb d.sector_buffer (SECTOR_SIZE / 8) ++
        FlashOp.blankCheck sb Bzero_64KSector_u32length :: FlashOp.eraseSector sb :: d.log := by
  unfold committedDevice
  rw [if_pos h]
  rfl

/-- A commit to a sector of the region changes nothing above that sector. -/
theorem committedDevice_mem_above (d : Device) (sb a : Nat) (hsb : sb < usb_password)
    (h : sb + SECTOR_SIZE ≤ a) : (committedDevice d sb).mem a = d.mem a := by
  have h1 : ¬ (sb ≤ a ∧ a < sb + 8 * (SECTOR_SIZE / 8)) := by
    simp only [SECTOR_SIZE] at h ⊢
    omega
  have h2 : ¬ (sb ≤ a ∧ a < sb + eraseUnitWords sb) := by
    unfold eraseUnitWords
    rw [if_pos hsb]
    omega
  unfold committedDevice
  split
  · simp only [programmedDevice_mem, progMem, erasedDevice_mem, eraseMem]
    rw [if_neg h1, if_neg h2]
  · simp only [programmedDevice_mem, progMem]
    rw [if_neg h1]

theorem eraseSector_not_mem_progLog (base : Nat) (src : Mem) (k x : Nat) :
    FlashOp.eraseSector x ∉ progLog base src k := by
  induction k with
  | zero => simp [progLog]
  | succ k ih => simp [progLog, ih]

theorem sectorOf_0 : sectorOf 0 = ram_disk := by
  simp [sectorOf]

theorem sectorOf_16 : sectorOf 16 = ram_disk + SECTOR_SIZE := by
  simp [sectorOf]

theorem ld16_dirtyDevice (a : Nat) (h : a ≠ ram_disk) : ld16 dirtyDevice.mem a = 0xFFFF := by
  unfold ld16 dirtyDevice
  simp only []
  rw [if_neg h]

/-- C6 (evaluation at the failing input). From a device whose flag `erase` is
clear and whose flash is blank but for one word of block 0: the full-block
write to block 0 finds that word and erases Erase Unit 0; the flag stays set,
so the next full-block write, to block 16, erases Erase Unit 1 although that
unit is entirely blank and the pre-scan of this second cycle finds nothing. -/
theorem stale_erase_flag_erases_blank_unit :
    ∃ d1 d2, disk_write 0 (fun _ => true) dirtyDevice 0 (fun _ => 0xAB) 0 64 = ok (d1, 0x1000) ∧
      (∀ a, ram_disk + SECTOR_SIZE ≤ a → a < ram_disk + 2 * SECTOR_SIZE → ld16 d1.mem a = 0xFFFF) ∧
      prescan d1.mem (ram_disk + 16 * (BLOCK_SIZE / 2)) (BLOCK_SIZE / 2) = false ∧
      d1.erase = 1 ∧
      disk_write 0 (fun _ => true) d1 16 (fun _ => 0xAB) 0 64 = ok (d2, 0x1000) ∧
      FlashOp.eraseSector (ram_disk + SECTOR_SIZE) ∈ d2.log ∧
      FlashOp.eraseSector (ram_disk + SECTOR_SIZE) ∉ d1.log := by
  have elen : 64 * TRANSFER_SIZE % U32 = 0x1000 := by norm_num
  -- first cycle
  have hw1 := disk_write_ok 0 (fun _ => true) allOk_true dirtyDevice 0 (fun _ => 0xAB) 0 64 0 rfl
    (fun ht => absurd ht not_tagged_AB)
  rw [elen] at hw1
  have hres1 := writeResult_in_block dirtyDevice 0 (fun _ => 0xAB) 0 64 0 (by norm_num)
    (by norm_num) (by norm_num)
  rw [if_pos (by norm_num), afterSetDevice_untagged _ _ _ not_tagged_AB, sectorOf_0] at hres1
  have hscan1 : prescan dirtyDevice.mem (ram_disk + (slotOf 0 + 0 / 2)) (BLOCK_SIZE / 2) = true := by
    have e : ram_disk + (slotOf 0 + 0 / 2) = ram_disk := by simp [slotOf]
    rw [e]
    show prescan dirtyDevice.mem ram_disk (2047 + 1) = true
    apply prescan_first
    unfold ld16 dirtyDevice
    norm_num
  have herase1 : (writeResult dirtyDevice 0 (fun _ => 0xAB) 0 64 0).erase = 1 := by
    rw [hres1, committedDevice_erase, stageWrite_erase, if_pos ⟨rfl, hscan1⟩]
  have hmem1 : ∀ a, ram_disk + SECTOR_SIZE ≤ a →
      ld16 (writeResult dirtyDevice 0 (fun _ => 0xAB) 0 64 0).mem a = 0xFFFF := by
    intro a ha
    unfold ld16
    rw [hres1, committedDevice_mem_above _ _ _ (by norm_num) ha, stageWrite_mem]
    exact ld16_dirtyDevice a (by simp only [SECTOR_SIZE, ram_disk] at ha ⊢; omega)
  have hlog1 : (writeResult dirtyDevice 0 (fun _ => 0xAB) 0 64 0).log =
      progLog ram_disk
          (stageWrite dirtyDevice (fun _ => 0xAB) ram_disk (slotOf 0 + 0 / 2) 0
            (64 * 64)).sector_buffer (SECTOR_SIZE / 8) ++
        [FlashOp.blankCheck ram_disk Bzero_64KSector_u32length, FlashOp.eraseSector ram_disk] := by
    rw [hres1, committedDevice_log_erase _ _
      (by rw [stageWrite_erase, if_pos ⟨rfl, hscan1⟩]; norm_num), stageWrite_log]
    rfl
  -- second cycle
  have hu1 : (writeResult dirtyDevice 0 (fun _ => 0xAB) 0 64 0).usb_unlocked = true := by
    rw [writeResult_unlocked]
    rfl
  have hw2 := disk_write_ok 0 (fun _ => true) allOk_true
    (writeResult dirtyDevice 0 (fun _ => 0xAB) 0 64 0) 16 (fun _ => 0xAB) 0 64 0 hu1
    (fun ht => absurd ht not_tagged_AB)
  rw [elen] at hw2
  have hres2 := writeResult_in_block (writeResult dirtyDevice 0 (fun _ => 0xAB) 0 64 0) 16
    (fun _ => 0xAB) 0 64 0 (by norm_num) (by norm_num) (by norm_num)
  rw [if_pos (by norm_num), afterSetDevice_untagged _ _ _ not_tagged_AB, sectorOf_16] at hres2
  have herase2 : (stageWrite (writeResult dirtyDevice 0 (fun _ => 0xAB) 0 64 0) (fun _ => 0xAB)
      (ram_disk + SECTOR_SIZE) (slotOf 16 + 0 / 2) 0 (64 * 64)).erase ≠ 0 := by
    rw [stageWrite_erase]
    split
    · norm_num
    · rw [herase1]
      norm_num
  refine ⟨_, _, hw1, fun a ha _ => hmem1 a ha, ?_, herase1, hw2, ?_, ?_⟩
  · apply prescan_blank
    intro j _
    apply hmem1
    simp only [SECTOR_SIZE, BLOCK_SIZE]
    omega
  · rw [hres2, committedDevice_log_erase _ _ herase2]
    simp
  · rw [hlog1]
    intro hmem
    rcases List.mem_append.1 hmem with h | h
    · exact eraseSector_not_mem_progLog _ _ _ _ h
    · simp [SECTOR_SIZE] at h

/-! ## Writes on a locked device -/

/-- On a locked device `disk_write` is the unlock attempt or nothing. -/
theorem disk_write_locked (fuel : Nat) (env : Nat → Bool) (d : Device) (lba : Nat) (buf : Mem)
    (off count : Nat) (hl : d.usb_unlocked = false) :
    disk_write fuel env d lba buf off count =
      if (off + count * TRANSFER_SIZE % U32) % U32 = BLOCK_SIZE then
        match verify_password fuel d.mem buf with
        | some b => ok ({ d with usb_unlocked := b }, count * TRANSFER_SIZE % U32 % UINT)
        | none => stuck
      else ok (d, count * TRANSFER_SIZE % U32 % UINT) := by
  unfold disk_write
  simp only [hl, Bool.not_false, if_true]

/-- On a locked device, a write with `off + count * 64 = BLOCK_SIZE` sets the
Lock State to the value of `verify_password(buffer)` and returns as soon as
`verify_password` does; any other write whose sum fits in 32 bits leaves the
device locked, whatever the buffer holds.  The result is `len` reduced to the
16 bits of `unsigned int`. -/
theorem locked_write_outcome (fuel : Nat) (env : Nat → Bool) (d : Device) (lba : Nat)
    (buf : Mem) (off count : Nat) (hl : d.usb_unlocked = false) :
    (off + count * 64 = BLOCK_SIZE → ∀ b, verify_password fuel d.mem buf = some b →
      disk_write fuel env d lba buf off count
        = ok ({ d with usb_unlocked := b }, count * 64)) ∧
    (off + count * 64 = BLOCK_SIZE → ∀ n, ld16 d.mem (usb_password + n) = 0 → n < fuel →
      ∃ b, verify_password fuel d.mem buf = some b) ∧
    (off + count * 64 < U32 → off + count * 64 ≠ BLOCK_SIZE →
      disk_write fuel env d lba buf off count = ok (d, count * 64 % UINT)) := by
  have hw := disk_write_locked fuel env d lba buf off count hl
  refine ⟨?_, ?_, ?_⟩
  · intro hint b hb
    have e : count * TRANSFER_SIZE % U32 = count * 64 := by
      simp only [TRANSFER_SIZE, U32, BLOCK_SIZE] at hint ⊢
      omega
    have hc : (off + count * TRANSFER_SIZE % U32) % U32 = BLOCK_SIZE := by
      rw [e]
      simp only [U32, BLOCK_SIZE] at hint ⊢
      omega
    have e5 : count * 64 % UINT = count * 64 := by
      simp only [UINT, BLOCK_SIZE] at hint ⊢
      omega
    rw [hw, if_pos hc, hb, e, e5]
  · intro _ n hn hf
    exact verify_password_returns fuel d.mem buf n hn hf
  · intro hlt hne
    have e : count * TRANSFER_SIZE % U32 = count * 64 := by
      simp only [TRANSFER_SIZE, U32] at hlt ⊢
      omega
    have hc : ¬ (off + count * TRANSFER_SIZE % U32) % U32 = BLOCK_SIZE := by
      rw [e]
      simp only [U32, BLOCK_SIZE] at hlt hne ⊢
      omega
    rw [hw, if_neg hc, e]

/-- C11 (evaluation at the failing input). On the locked device whose record
holds `A`, the write of `count = 1024` transfer units at offset 0 with the
buffer `UNL0CKK:A` does not complete a block, so the device stays locked, and
`len = 1024 * 64 = 65536` is returned through `unsigned int`: the result is 0,
not `count * 64`. -/
theorem locked_write_result_truncated :
    pwDevice.usb_unlocked = false ∧ 1024 * 64 = 65536 ∧ 0 + 1024 * 64 ≠ BLOCK_SIZE ∧
    disk_write 2 (fun _ => true) pwDevice 0 tagA 0 1024 = ok (pwDevice, 0) := by
  refine ⟨rfl, by norm_num, by norm_num, ?_⟩
  rw [disk_write_locked 2 (fun _ => true) pwDevice 0 tagA 0 1024 rfl, if_neg (by norm_num)]
  have e : 1024 * TRANSFER_SIZE % U32 % UINT = 0 := by norm_num
  rw [e]

/-- C12. Locked write never stores data: a `disk_write` issued while the
device is locked never halts, and whenever it returns (also when the
verification succeeds and unlocks the device) the flash (Storage Region and
Password Record), the Sector Cache and the Erase-Needed Flag are as before and
the log of flash primitives has not grown; it returns unless the write
completes a block and the string scan of `verify_password` runs out of fuel,
which a stored secret that ends within the fuel excludes. -/
theorem locked_write_stores_nothing (fuel : Nat) (env : Nat → Bool) (d : Device) (lba : Nat)
    (buf : Mem) (off count : Nat) (hl : d.usb_unlocked = false) :
    (∀ r, disk_write fuel env d lba buf off count = ok r →
      r.1.mem = d.mem ∧ r.1.sector_buffer = d.sector_buffer ∧ r.1.erase = d.erase ∧
        r.1.log = d.log ∧ r.1.ulFlags = d.ulFlags) ∧
    (∀ h, disk_write fuel env d lba buf off count ≠ halt h) ∧
    (∀ n, ld16 d.mem (usb_password + n) = 0 → n < fuel →
      ∃ r, disk_write fuel env d lba buf off count = ok r) := by
  have hw := disk_write_locked fuel env d lba buf off count hl
  refine ⟨?_, ?_, ?_⟩
  · intro r hr
    rw [hw] at hr
    split at hr
    · split at hr
      · cases hr
        exact ⟨rfl, rfl, rfl, rfl, rfl⟩
      · cases hr
    · cases hr
      exact ⟨rfl, rfl, rfl, rfl, rfl⟩
  · intro h hh
    rw [hw] at hh
    split at hh
    · split at hh <;> cases hh
    · cases hh
  · intro n hn hf
    obtain ⟨b, hb⟩ := verify_password_returns fuel d.mem buf n hn hf
    rw [hw, hb]
    split
    · exact ⟨_, rfl⟩
    · exact ⟨_, rfl⟩

/-- Witness of C12: the locked device whose record holds `A` receives the
whole block `UNL0CKK:A`. -/
theorem locked_write_stores_nothing_witness :
    pwDevice.usb_unlocked = false ∧
    ∃ r, disk_write 2 (fun _ => true) pwDevice 0 tagA 0 64 = ok r ∧
      r.1.mem = pwDevice.mem ∧ r.1.sector_buffer = pwDevice.sector_buffer ∧
      r.1.erase = pwDevice.erase ∧ r.1.log = pwDevice.log := by
  have T := locked_write_stores_nothing 2 (fun _ => true) pwDevice 0 tagA 0 64 rfl
  obtain ⟨r, hr⟩ := T.2.2 1 (by decide) (by norm_num)
  obtain ⟨h1, h2, h3, h4, _⟩ := T.1 r hr
  exact ⟨rfl, r, hr, h1, h2, h3, h4⟩

/-! ## The read loop, word by word -/

/-- C13. Read decomposition: for every unlocked `disk_read` with
`start = lba * 0x1000 + off` and `start + count * 64 <= 0x50000`, for every
even `i < count * 64` the element `i` of the buffer is the low byte (`& 0xFF`)
and the element `i + 1` the high byte (`>> 8`) of the storage word
`(start + i) / 2`; every element below `count * 64` is in `0 .. 255` and the
elements from `count * 64` on are not written.  (That `start` is even is not
needed.) -/
theorem read_decomposition (d : Device) (lba : Nat) (buf : Mem) (off count : Nat)
    (hu : d.usb_unlocked = true) (hin : lba * 0x1000 + off + count * 64 ≤ 0x50000) :
    (∀ i, i < count * 64 → i % 2 = 0 →
      (disk_read d lba buf off count).1 i
        = ld16 d.mem (ram_disk + (lba * 0x1000 + off + i) / 2) &&& 0xFF ∧
      (disk_read d lba buf off count).1 (i + 1)
        = ld16 d.mem (ram_disk + (lba * 0x1000 + off + i) / 2) >>> 8) ∧
    (∀ i, i < count * 64 → (disk_read d lba buf off count).1 i < 256) ∧
    (∀ i, count * 64 ≤ i → (disk_read d lba buf off count).1 i = buf i) := by
  have e1 : (lba * BLOCK_SIZE + off) % U32 = lba * 0x1000 + off := by
    simp only [BLOCK_SIZE, U32]; omega
  have e2 : count * TRANSFER_SIZE % U32 = count * 64 := by
    simp only [TRANSFER_SIZE, U32]; omega
  have e3 : (lba * 0x1000 + off + count * 64) % U32 ≤ RAM_DISK_SIZE := by
    simp only [RAM_DISK_SIZE, U32]; omega
  have e4 : (count * 64 + 1) / 2 = count * 32 := by omega
  have hr : disk_read d lba buf off count =
      (readLoop d.mem (lba * 0x1000 + off) (count * 32) buf, count * 64 % UINT) := by
    unfold disk_read
    simp only [hu, Bool.not_true, Bool.false_eq_true, if_false, e1, e2, e3, if_true, e4]
  have hmod : ∀ i, i < count * 64 → (lba * 0x1000 + off + i) % U32 = lba * 0x1000 + off + i := by
    intro i hi
    simp only [U32]
    omega
  rw [hr]
  refine ⟨?_, ?_, ?_⟩
  · intro i hi hpar
    simp only [readLoop_apply]
    rw [if_pos (by omega), if_pos hpar, if_pos (by omega), if_neg (by omega),
      Nat.add_sub_cancel, hmod i hi, and_ff, shr_8]
    exact ⟨rfl, rfl⟩
  · intro i hi
    simp only [readLoop_apply]
    rw [if_pos (by omega)]
    split
    · exact Nat.mod_lt _ (by norm_num)
    · have := ld16_lt d.mem (ram_disk + (lba * 0x1000 + off + (i - 1)) % U32 / 2)
      omega
  · intro i hi
    simp only [readLoop_apply]
    rw [if_neg (by omega)]

/-- Witness of C13: the first transfer unit of block 0 of a blank device. -/
theorem read_decomposition_witness :
    blankDevice.usb_unlocked = true ∧ 0 * 0x1000 + 0 + 1 * 64 ≤ 0x50000 ∧
    (∀ i, i < 1 * 64 → (disk_read blankDevice 0 (fun _ => 0) 0 1).1 i < 256) ∧
    (∀ i, 1 * 64 ≤ i →
      (disk_read blankDevice 0 (fun _ => 0) 0 1).1 i = (fun _ => 0) i) :=
  ⟨rfl, by norm_num,
    (read_decomposition blankDevice 0 (fun _ => 0) 0 1 rfl (by norm_num)).2.1,
    (read_decomposition blankDevice 0 (fun _ => 0) 0 1 rfl (by norm_num)).2.2⟩

/-! ## verify_password, marker path -/

/-- The loop of the marker path succeeds exactly when each pass finds its two
characters of the stored secret in the low and the high byte of the word. -/
theorem markerScan_iff (pw cand : Mem) (n : Nat) : ∀ i,
    (markerScan pw cand n i = true ↔
      ∀ k, k < n → ld16 pw (i + 2 * k) = ld16 cand ((i + 2 * k) / 2) &&& 0xFF ∧
        ld16 pw (i + 2 * k + 1) = ld16 cand ((i + 2 * k) / 2) >>> 8) := by
  induction n with
  | zero =>
    intro i
    simp [markerScan]
  | succ n ih =>
    intro i
    unfold markerScan
    simp only []
    by_cases h : ld16 pw i ≠ ld16 cand (i / 2) &&& 0xFF ∨ ld16 pw (i + 1) ≠ ld16 cand (i / 2) >>> 8
    · rw [if_pos h]
      constructor
      · intro hf
        cases hf
      · intro hall
        have h0 := hall 0 (by omega)
        simp only [Nat.mul_zero, Nat.add_zero] at h0
        rcases h with h | h
        · exact absurd h0.1 h
        · exact absurd h0.2 h
    · rw [if_neg h, ih (i + 2)]
      have h' : ld16 pw i = ld16 cand (i / 2) &&& 0xFF ∧ ld16 pw (i + 1) = ld16 cand (i / 2) >>> 8 := by
        constructor
        · by_contra hc
          exact h (Or.inl hc)
        · by_contra hc
          exact h (Or.inr hc)
      constructor
      · intro hall k hk
        cases k with
        | zero => simpa using h'
        | succ k =>
          have := hall k (by omega)
          rwa [show i + 2 + 2 * k = i + 2 * (k + 1) by omega] at this
      · intro hall k hk
        have := hall (k + 1) (by omega)
        rwa [show i + 2 * (k + 1) = i + 2 + 2 * k by omega] at this

theorem not_HasTag_of_HasMarker (a : Mem) (h : HasMarker a) : ¬ HasTag a := by
  intro ht
  have h1 := h 0 (by norm_num)
  have h2 := ht 0 (by norm_num)
  rw [h1] at h2
  simp at h2

/-- A length that fits the 16-bit `int` is kept by the conversion. -/
theorem toInt16_small (n : Nat) (h : n < 32768) : toInt16 n = (n : Int) := by
  unfold toInt16
  have e : n % 65536 = n := Nat.mod_eq_of_lt (by omega)
  rw [e, if_pos h]

/-- With a password configured, whose length fits the 16-bit `int`, and a
candidate that begins with the marker, `verify_password` returns the outcome
of the loop of the marker path. -/
theorem verify_password_marker (fuel : Nat) (mem cand : Mem) (len : Nat)
    (hcfg : ld16 mem usb_password ≠ 0xFFFF) (hm : HasMarker cand)
    (hlen : strlen fuel (shift mem usb_password) = some len) (hfit : len < 32768) :
    verify_password fuel mem cand
      = some (markerScan (shift mem usb_password) (shift cand 4) ((len + 1) / 2) 0) := by
  have h0 : ¬ ld16 (shift mem usb_password) 0 = 0xFFFF := by simpa using hcfg
  have ht : ¬ strncmp cand (ofList TAG) 8 = 0 :=
    fun h => not_HasTag_of_HasMarker cand hm ((strncmp_tag cand).1 h)
  have hmg : ld64 cand = MAGIC := (ld64_magic cand).2 hm
  have hcnt : (((len : Int) + 1) / 2).toNat = (len + 1) / 2 := by omega
  unfold verify_password
  simp only [h0, if_false, ht, hmg, if_true, hlen, toInt16_small len hfit, hcnt]

theorem abDevice_strlen : strlen 3 (shift abDevice.mem usb_password) = some 2 := by
  apply strlen_spec
  · intro j hj
    interval_cases j <;> decide
  · decide
  · norm_num

theorem hasMarker_markerABCD : HasMarker markerABCD := by
  intro i hi
  interval_cases i <;> rfl

/-- C14 (evaluation at the failing input). The Password Record holds the
secret `AB`; the candidate is the marker followed by the words 0x4241, 0x4443,
0, which encode the longer secret `ABCD`.  `verify_password` accepts it: the
loop of the marker path runs over the length of the stored secret only. -/
theorem marker_path_accepts_longer_secret :
    ld16 abDevice.mem usb_password = 0x41 ∧ ld16 abDevice.mem (usb_password + 1) = 0x42 ∧
    ld16 abDevice.mem (usb_password + 2) = 0 ∧ HasMarker markerABCD ∧
    ld16 markerABCD 4 = 0x4241 ∧ ld16 markerABCD 5 = 0x4443 ∧ ld16 markerABCD 6 = 0 ∧
    verify_password 3 abDevice.mem markerABCD = some true := by
  refine ⟨by decide, by decide, by decide, hasMarker_markerABCD, by decide, by decide,
    by decide, ?_⟩
  have hs : markerScan (shift abDevice.mem usb_password) (shift markerABCD 4) ((2 + 1) / 2) 0
      = true := by
    rw [markerScan_iff]
    intro k hk
    have e : k = 0 := by omega
    subst e
    exact ⟨by decide, by decide⟩
  rw [verify_password_marker 3 abDevice.mem markerABCD 2 (by decide) hasMarker_markerABCD
    abDevice_strlen (by norm_num), hs]

/-! ## The flash primitives with arbitrary statuses -/

theorem programmedDevice_log_length (d : Device) (base : Nat) (src : Mem) (k : Nat) :
    (programmedDevice d base src k).log.length = d.log.length + 2 * k := by
  rw [programmedDevice_log, List.length_append, progLog_length]
  omega

/-- One more chunk programmed and verified. -/
theorem programmedDevice_succ (d : Device) (base : Nat) (src : Mem) (k : Nat) :
    (Fapi_doVerify (fun _ => true)
      (Fapi_issueProgrammingCommand (fun _ => true) (programmedDevice d base src k)
        (base + 8 * k) (chunk src (8 * k))).2 (base + 8 * k) 4 (chunk src (8 * k))).2
      = programmedDevice d base src (k + 1) := by
  have h := programLoop_ok (fun _ => true) allOk_true base src (k + 1) d
  unfold programLoop at h
  rw [programLoop_ok (fun _ => true) allOk_true base src k d] at h
  simp only [Fapi_issueProgrammingCommand, Fapi_doVerify, if_true] at h
  simp only [Fapi_issueProgrammingCommand, Fapi_doVerify]
  exact Outcome.ok.inj h

theorem Fapi_issueProgrammingCommand_status (env : Nat → Bool) (d : Device) (addr : Nat)
    (data : List Nat) : (Fapi_issueProgrammingCommand env d addr data).1 = env d.log.length := rfl

theorem Fapi_issueProgrammingCommand_log (env : Nat → Bool) (d : Device) (addr : Nat)
    (data : List Nat) :
    (Fapi_issueProgrammingCommand env d addr data).2.log = FlashOp.program addr data :: d.log :=
  rfl

theorem Fapi_issueProgrammingCommand_success (env : Nat → Bool) (d : Device) (addr : Nat)
    (data : List Nat) (h : env d.log.length = true) :
    (Fapi_issueProgrammingCommand env d addr data).2
      = (Fapi_issueProgrammingCommand (fun _ => true) d addr data).2 := by
  simp only [Fapi_issueProgrammingCommand, h]

theorem Fapi_doVerify_status (env : Nat → Bool) (d : Device) (addr len32 : Nat)
    (data : List Nat) : (Fapi_doVerify env d addr len32 data).1 = env d.log.length := rfl

theorem Fapi_doVerify_state (env : Nat → Bool) (d : Device) (addr len32 : Nat)
    (data : List Nat) :
    (Fapi_doVerify env d addr len32 data).2
      = (Fapi_doVerify (fun _ => true) d addr len32 data).2 := rfl

/-- The step of the program loop after `k` chunks went through. -/
theorem programLoop_succ (env : Nat → Bool) (base : Nat) (src : Mem) (k : Nat) (d : Device)
    (h : programLoop env base src k d = ok (programmedDevice d base src k)) :
    programLoop env base src (k + 1) d =
      if env (d.log.length + 2 * k) = true then
        if env (d.log.length + 2 * k + 1) = true then ok (programmedDevice d base src (k + 1))
        else halt (Fapi_doVerify env
          (Fapi_issueProgrammingCommand env (programmedDevice d base src k)
            (base + 8 * k) (chunk src (8 * k))).2 (base + 8 * k) 4 (chunk src (8 * k))).2
      else halt (Fapi_issueProgrammingCommand env (programmedDevice d base src k)
        (base + 8 * k) (chunk src (8 * k))).2 := by
  rw [programLoop, h]
  simp only [Example_Error, Fapi_issueProgrammingCommand_status, Fapi_doVerify_status,
    Fapi_issueProgrammingCommand_log, List.length_cons, programmedDevice_log_length]
  by_cases h1 : env (d.log.length + 2 * k) = true
  · rw [if_pos h1, if_pos h1]
    by_cases h2 : env (d.log.length + 2 * k + 1) = true
    · rw [if_pos h2, if_pos h2, Fapi_doVerify_state, Fapi_issueProgrammingCommand_success,
        programmedDevice_succ]
      rw [programmedDevice_log_length]
      exact h1
    · rw [if_neg h2, if_neg h2]
  · rw [if_neg h1, if_neg h1]

theorem programLoop_of_ok (env : Nat → Bool) (base : Nat) (src : Mem) (n : Nat) (d : Device)
    (h : ∀ j, j < 2 * n → env (d.log.length + j) = true) :
    programLoop env base src n d = ok (programmedDevice d base src n) := by
  induction n with
  | zero => exact programLoop_ok (fun _ => true) allOk_true base src 0 d ▸ rfl
  | succ k ih =>
    rw [programLoop_succ env base src k d (ih (fun j hj => h j (by omega))),
      if_pos (h _ (by omega)),
      if_pos (by rw [Nat.add_assoc]; exact h (2 * k + 1) (by omega))]

theorem programLoop_ok_inv (env : Nat → Bool) (base : Nat) (src : Mem) (n : Nat) (d d1 : Device)
    (h : programLoop env base src n d = ok d1) :
    (∀ j, j < 2 * n → env (d.log.length + j) = true) ∧ d1 = programmedDevice d base src n := by
  induction n generalizing d1 with
  | zero =>
    have := programLoop_of_ok env base src 0 d (fun j hj => absurd hj (by omega))
    rw [this] at h
    exact ⟨fun j hj => absurd hj (by omega), (Outcome.ok.inj h).symm⟩
  | succ k ih =>
    cases hk : programLoop env base src k d with
    | ok d0 =>
      obtain ⟨hall, e0⟩ := ih d0 hk
      subst e0
      rw [programLoop_succ env base src k d hk] at h
      by_cases h1 : env (d.log.length + 2 * k) = true
      · rw [if_pos h1] at h
        by_cases h2 : env (d.log.length + 2 * k + 1) = true
        · rw [if_pos h2] at h
          refine ⟨?_, (Outcome.ok.inj h).symm⟩
          intro j hj
          by_cases hj1 : j < 2 * k
          · exact hall j hj1
          · by_cases hj2 : j = 2 * k
            · subst hj2
              exact h1
            · have e : j = 2 * k + 1 := by omega
              subst e
              exact h2
        · rw [if_neg h2] at h
          cases h
      · rw [if_neg h1] at h
        cases h
    | halt x =>
      rw [programLoop, hk] at h
      cases h
    | stuck =>
      rw [programLoop, hk] at h
      cases h

theorem programLoop_ne_stuck (env : Nat → Bool) (base : Nat) (src : Mem) (n : Nat) (d : Device) :
    programLoop env base src n d ≠ stuck := by
  induction n with
  | zero => simp [programLoop]
  | succ k ih =>
    rw [programLoop]
    cases hk : programLoop env base src k d with
    | ok d0 =>
      simp only [Example_Error]
      split
      · split <;> simp
      · simp
    | halt x => simp
    | stuck => exact absurd hk ih

@[simp] theorem eraseAttempt_log (env : Nat → Bool) (d : Device) (addr len32 : Nat) :
    (eraseAttempt env d addr len32).log =
      FlashOp.blankCheck addr len32 :: FlashOp.eraseSector addr :: d.log := rfl
@[simp] theorem eraseAttempt_unlocked (env : Nat → Bool) (d : Device) (addr len32 : Nat) :
    (eraseAttempt env d addr len32).usb_unlocked = d.usb_unlocked := rfl
@[simp] theorem eraseAttempt_sb (env : Nat → Bool) (d : Device) (addr len32 : Nat) :
    (eraseAttempt env d addr len32).sector_buffer = d.sector_buffer := rfl
@[simp] theorem eraseAttempt_erase (env : Nat → Bool) (d : Device) (addr len32 : Nat) :
    (eraseAttempt env d addr len32).erase = d.erase := rfl

/-- The erase and the blank check: only the status of the blank check decides. -/
theorem eraseAndCheck_eq (env : Nat → Bool) (d : Device) (addr len32 : Nat) :
    eraseAndCheck env d addr len32 =
      if env (d.log.length + 1) = true then ok (eraseAttempt env d addr len32)
      else halt (eraseAttempt env d addr len32) := by
  unfold eraseAndCheck eraseAttempt
  simp only [Fapi_doBlankCheck, Fapi_EraseSector, List.length_cons, Example_Error]

theorem commitSector_eq (env : Nat → Bool) (d : Device) (sector_begin : Nat) :
    commitSector env d sector_begin =
      match eraseStep env d sector_begin with
      | ok d3 => programLoop env sector_begin d3.sector_buffer (SECTOR_SIZE / 8) d3
      | halt h => halt h
      | stuck => stuck := rfl

theorem eraseStep_ne_stuck (env : Nat → Bool) (d : Device) (sector_begin : Nat) :
    eraseStep env d sector_begin ≠ stuck := by
  unfold eraseStep
  split
  · rw [eraseAndCheck_eq]
    split <;> simp
  · simp

theorem commitSector_ne_stuck (env : Nat → Bool) (d : Device) (sector_begin : Nat) :
    commitSector env d sector_begin ≠ stuck := by
  rw [commitSector_eq]
  cases h : eraseStep env d sector_begin with
  | ok d3 => exact programLoop_ne_stuck _ _ _ _ _
  | halt x => simp
  | stuck => exact absurd h (eraseStep_ne_stuck _ _ _)

/-- An unlocked `disk_write`, step by step. -/
theorem disk_write_unlocked (fuel : Nat) (env : Nat → Bool) (d : Device) (lba : Nat)
    (buf : Mem) (off count : Nat) (hu : d.usb_unlocked = true) :
    disk_write fuel env d lba buf off count =
      match setPasswordStep fuel env d buf with
      | ok d1 =>
        if (startOf lba off + lenOf count) % U32 ≤ RAM_DISK_SIZE then
          match writeRegion env d1 buf (startOf lba off) off (lenOf count) with
          | ok d2 => ok (d2, lenOf count % UINT)
          | halt h => halt h
          | stuck => stuck
        else ok (d1, lenOf count % UINT)
      | halt h => halt h
      | stuck => stuck := by
  unfold disk_write setPasswordStep startOf lenOf
  simp only [hu, Bool.not_true, Bool.false_eq_true, if_false]

/-- An unlocked `disk_write` that commits, once the set-password step returned. -/
theorem disk_write_commit (fuel : Nat) (env : Nat → Bool) (d d1 : Device) (lba : Nat)
    (buf : Mem) (off count : Nat) (hu : d.usb_unlocked = true)
    (hset : setPasswordStep fuel env d buf = ok d1) (hc : Committing lba off count) :
    disk_write fuel env d lba buf off count =
      match commitSector env (stagedDevice d1 lba buf off count)
          (sectorBeginOf (startOf lba off)) with
      | ok d2 => ok (d2, lenOf count % UINT)
      | halt h => halt h
      | stuck => stuck := by
  rw [disk_write_unlocked fuel env d lba buf off count hu, hset]
  simp only []
  rw [if_pos hc.1]
  unfold writeRegion
  simp only []
  rw [if_pos hc.2]
  rfl

/-! ## The commit, status by status -/

theorem setPasswordStep_untagged (fuel : Nat) (env : Nat → Bool) (d : Device) (buf : Mem)
    (h : ¬ strncmp buf (ofList TAG) 8 = 0) : setPasswordStep fuel env d buf = ok d := by
  unfold setPasswordStep
  rw [if_neg h]

theorem stagedDevice_log (d1 : Device) (lba : Nat) (buf : Mem) (off count : Nat) :
    (stagedDevice d1 lba buf off count).log = d1.log := stageWrite_log _ _ _ _ _ _

theorem stagedDevice_unlocked (d1 : Device) (lba : Nat) (buf : Mem) (off count : Nat) :
    (stagedDevice d1 lba buf off count).usb_unlocked = d1.usb_unlocked :=
  stageWrite_unlocked _ _ _ _ _ _

theorem eraseStep_ok_inv (env : Nat → Bool) (d d3 : Device) (sector_begin : Nat)
    (h : eraseStep env d sector_begin = ok d3) :
    d3.usb_unlocked = d.usb_unlocked ∧ d3.sector_buffer = d.sector_buffer ∧
      d3.erase = d.erase ∧
      (d3 = d ∨ d3 = eraseAttempt env d sector_begin Bzero_64KSector_u32length) := by
  unfold eraseStep at h
  split at h
  · rw [eraseAndCheck_eq] at h
    split at h
    · cases h
      exact ⟨rfl, rfl, rfl, Or.inr rfl⟩
    · cases h
  · cases h
    exact ⟨rfl, rfl, rfl, Or.inl rfl⟩

/-- A commit that returns went through the erase step and through all the
program and verify calls, each with a success status. -/
theorem commitSector_ok_inv (env : Nat → Bool) (d d2 : Device) (sector_begin : Nat)
    (h : commitSector env d sector_begin = ok d2) :
    ∃ d3, eraseStep env d sector_begin = ok d3 ∧
      (∀ j, j < 2 * (SECTOR_SIZE / 8) → env (d3.log.length + j) = true) ∧
      d2 = programmedDevice d3 sector_begin d.sector_buffer (SECTOR_SIZE / 8) := by
  rw [commitSector_eq] at h
  cases he : eraseStep env d sector_begin with
  | ok d3 =>
    rw [he] at h
    simp only [] at h
    obtain ⟨hall, e⟩ := programLoop_ok_inv env _ _ _ _ _ h
    rw [(eraseStep_ok_inv env d d3 sector_begin he).2.1] at e
    exact ⟨d3, rfl, hall, e⟩
  | halt x =>
    rw [he] at h
    cases h
  | stuck =>
    rw [he] at h
    cases h

/-- C17 (amended). Blank-check failure is fatal: in a commit with the
Erase-Needed Flag set, if the blank check that follows the erase command
reports a non-success status, `disk_write` halts, and the flash primitives it
has issued for that Erase Unit are the erase and the blank check only, no
program command.  The status of the erase command itself is not examined: when
the blank check and the program and verify calls succeed, `disk_write` returns
whatever the erase command reported. -/
theorem blank_check_failure_is_fatal (fuel : Nat) (env : Nat → Bool) (d d1 : Device) (lba : Nat)
    (buf : Mem) (off count : Nat) (hu : d.usb_unlocked = true)
    (hset : setPasswordStep fuel env d buf = ok d1) (hc : Committing lba off count)
    (hflag : (stagedDevice d1 lba buf off count).erase ≠ 0) :
    (env (d1.log.length + 1) = false →
      ∃ h, disk_write fuel env d lba buf off count = halt h ∧
        h.log = FlashOp.blankCheck (sectorBeginOf (startOf lba off)) Bzero_64KSector_u32length ::
          FlashOp.eraseSector (sectorBeginOf (startOf lba off)) :: d1.log) ∧
    (env (d1.log.length + 1) = true →
      (∀ j, j < 2 * (SECTOR_SIZE / 8) → env (d1.log.length + 2 + j) = true) →
      ∃ r, disk_write fuel env d lba buf off count = ok r) := by
  have hw := disk_write_commit fuel env d d1 lba buf off count hu hset hc
  rw [commitSector_eq] at hw
  unfold eraseStep at hw
  rw [if_pos hflag, eraseAndCheck_eq, stagedDevice_log] at hw
  constructor
  · intro hfail
    rw [if_neg (by rw [hfail]; simp)] at hw
    refine ⟨_, hw, ?_⟩
    rw [eraseAttempt_log, stagedDevice_log]
  · intro hok hall
    rw [if_pos hok] at hw
    simp only [] at hw
    have hp := programLoop_of_ok env (sectorBeginOf (startOf lba off))
      (eraseAttempt env (stagedDevice d1 lba buf off count) (sectorBeginOf (startOf lba off))
        Bzero_64KSector_u32length).sector_buffer (SECTOR_SIZE / 8)
      (eraseAttempt env (stagedDevice d1 lba buf off count) (sectorBeginOf (startOf lba off))
        Bzero_64KSector_u32length)
      (fun j hj => by
        have e : (eraseAttempt env (stagedDevice d1 lba buf off count)
            (sectorBeginOf (startOf lba off)) Bzero_64KSector_u32length).log.length + j
            = d1.log.length + 2 + j := by
          rw [eraseAttempt_log, List.length_cons, List.length_cons, stagedDevice_log]
        rw [e]
        exact hall j hj)
    exact ⟨_, hw.trans (by rw [hp])⟩

theorem program_mem_progLog (base : Nat) (src : Mem) (n k : Nat) (hk : k < n) :
    FlashOp.program (base + 8 * k) (chunk src (8 * k)) ∈ progLog base src n := by
  induction n with
  | zero => omega
  | succ n ih =>
    rw [progLog]
    by_cases h : k = n
    · subst h
      simp
    · have := ih (by omega)
      simp [this]

theorem committing_full_block_0 : Committing 0 0 64 := by
  unfold Committing startOf lenOf
  norm_num

theorem sectorBeginOf_block_0 : sectorBeginOf (startOf 0 0) = ram_disk := by
  unfold sectorBeginOf startOf
  norm_num

theorem lenOf_64 : lenOf 64 = 0x1000 := by
  unfold lenOf
  norm_num

theorem flaggedDevice_staged_erase :
    (stagedDevice flaggedDevice 0 (fun _ => 0xAB) 0 64).erase ≠ 0 := by
  unfold stagedDevice
  rw [stageWrite_erase]
  split
  · norm_num
  · show (1 : Nat) ≠ 0
    norm_num

/-- C17 (counterexample). The flag `erase` is set and the erase command, the
first flash primitive of the commit, reports a failure; the blank check and all
later primitives succeed.  `disk_write` returns normally, with every chunk of
the Erase Unit programmed. -/
theorem erase_status_is_ignored :
    flaggedDevice.usb_unlocked = true ∧ flaggedDevice.erase ≠ 0 ∧ flaggedDevice.log = [] ∧
    firstFails 0 = false ∧
    ∃ d1, disk_write 0 firstFails flaggedDevice 0 (fun _ => 0xAB) 0 64 = ok (d1, 0x1000) ∧
      d1.log = progLog ram_disk d1.sector_buffer (SECTOR_SIZE / 8) ++
        [FlashOp.blankCheck ram_disk Bzero_64KSector_u32length, FlashOp.eraseSector ram_disk] ∧
      FlashOp.program (ram_disk + 8 * 0) (chunk d1.sector_buffer (8 * 0)) ∈ d1.log := by
  have hset := setPasswordStep_untagged 0 firstFails flaggedDevice (fun _ => 0xAB) not_tagged_AB
  have hw := disk_write_commit 0 firstFails flaggedDevice flaggedDevice 0 (fun _ => 0xAB) 0 64
    rfl hset committing_full_block_0
  have e16 : 4096 % UINT = 4096 := by norm_num
  rw [commitSector_eq, sectorBeginOf_block_0, lenOf_64, e16] at hw
  unfold eraseStep at hw
  rw [if_pos flaggedDevice_staged_erase, eraseAndCheck_eq, stagedDevice_log,
    if_pos (by decide)] at hw
  have hp := programLoop_of_ok firstFails ram_disk
    (eraseAttempt firstFails (stagedDevice flaggedDevice 0 (fun _ => 0xAB) 0 64) ram_disk
      Bzero_64KSector_u32length).sector_buffer (SECTOR_SIZE / 8)
    (eraseAttempt firstFails (stagedDevice flaggedDevice 0 (fun _ => 0xAB) 0 64) ram_disk
      Bzero_64KSector_u32length)
    (fun j _ => by
      rw [eraseAttempt_log, List.length_cons]
      simp [firstFails])
  refine ⟨rfl, by decide, rfl, by decide, _, hw.trans (by simp only []; rw [hp]), ?_, ?_⟩
  · rw [programmedDevice_log, programmedDevice_sb, eraseAttempt_log, stagedDevice_log]
    rfl
  · rw [programmedDevice_log, programmedDevice_sb]
    exact List.mem_append_left _ (program_mem_progLog _ _ _ 0 (by norm_num))

/-- Witness of C17 (amended): the flag is set and the blank check, the second
flash primitive, reports a failure. -/
theorem blank_check_failure_is_fatal_witness :
    flaggedDevice.usb_unlocked = true ∧ Committing 0 0 64 ∧
    (stagedDevice flaggedDevice 0 (fun _ => 0xAB) 0 64).erase ≠ 0 ∧
    secondFails (flaggedDevice.log.length + 1) = false ∧
    ∃ h, disk_write 0 secondFails flaggedDevice 0 (fun _ => 0xAB) 0 64 = halt h ∧
      h.log = FlashOp.blankCheck (sectorBeginOf (startOf 0 0)) Bzero_64KSector_u32length ::
        FlashOp.eraseSector (sectorBeginOf (startOf 0 0)) :: flaggedDevice.log :=
  ⟨rfl, committing_full_block_0, flaggedDevice_staged_erase, by decide,
    (blank_check_failure_is_fatal 0 secondFails flaggedDevice flaggedDevice 0 (fun _ => 0xAB) 0 64
      rfl (setPasswordStep_untagged 0 secondFails flaggedDevice (fun _ => 0xAB) not_tagged_AB)
      committing_full_block_0 flaggedDevice_staged_erase).1 (by decide)⟩

/-- C18. No unverified program is accepted: whenever `disk_write` returns
normally from a commit, the commit has gone through its program loop from the
state `d3` reached after the erase step, and each of the `2 * 0x1000` flash
primitives of that loop, for each of the 0x1000 eight-word chunks of the Erase
Unit the program command and then the verify of the same chunk of the Sector
Cache, reported success; and if any of them reports a non-success status,
`disk_write` halts instead of returning. -/
theorem no_unverified_program (fuel : Nat) (env : Nat → Bool) (d : Device) (lba : Nat)
    (buf : Mem) (off count : Nat) (hu : d.usb_unlocked = true) (hc : Committing lba off count) :
    (∀ r, disk_write fuel env d lba buf off count = ok r →
      ∃ d1 d3, setPasswordStep fuel env d buf = ok d1 ∧
        eraseStep env (stagedDevice d1 lba buf off count) (sectorBeginOf (startOf lba off))
          = ok d3 ∧
        (∀ j, j < 2 * (SECTOR_SIZE / 8) → env (d3.log.length + j) = true) ∧
        r.1.sector_buffer = (stagedDevice d1 lba buf off count).sector_buffer ∧
        r.1.log = progLog (sectorBeginOf (startOf lba off)) r.1.sector_buffer (SECTOR_SIZE / 8)
          ++ d3.log) ∧
    (∀ d1 d3, setPasswordStep fuel env d buf = ok d1 →
      eraseStep env (stagedDevice d1 lba buf off count) (sectorBeginOf (startOf lba off))
        = ok d3 →
      (∃ j, j < 2 * (SECTOR_SIZE / 8) ∧ env (d3.log.length + j) = false) →
      ∃ h, disk_write fuel env d lba buf off count = halt h) ∧
    SECTOR_SIZE / 8 = 0x1000 := by
  refine ⟨?_, ?_, by norm_num⟩
  · intro r hr
    cases hs : setPasswordStep fuel env d buf with
    | ok d1 =>
      have hw := disk_write_commit fuel env d d1 lba buf off count hu hs hc
      rw [hr] at hw
      cases hcs : commitSector env (stagedDevice d1 lba buf off count)
          (sectorBeginOf (startOf lba off)) with
      | ok d2 =>
        rw [hcs] at hw
        obtain ⟨d3, he, hall, e2⟩ := commitSector_ok_inv env _ d2 _ hcs
        have er : r.1 = d2 := by
          have := Outcome.ok.inj hw
          rw [this]
        refine ⟨d1, d3, rfl, he, hall, ?_, ?_⟩
        · rw [er, e2, programmedDevice_sb, (eraseStep_ok_inv env _ d3 _ he).2.1]
        · rw [er, e2, programmedDevice_log, programmedDevice_sb,
            (eraseStep_ok_inv env _ d3 _ he).2.1]
      | halt x =>
        rw [hcs] at hw
        cases hw
      | stuck =>
        rw [hcs] at hw
        cases hw
    | halt x =>
      rw [disk_write_unlocked fuel env d lba buf off count hu, hs] at hr
      cases hr
    | stuck =>
      rw [disk_write_unlocked fuel env d lba buf off count hu, hs] at hr
      cases hr
  · intro d1 d3 hs he hbad
    have hw := disk_write_commit fuel env d d1 lba buf off count hu hs hc
    rw [commitSector_eq, he] at hw
    cases hp : programLoop env (sectorBeginOf (startOf lba off)) d3.sector_buffer
        (SECTOR_SIZE / 8) d3 with
    | ok d2 =>
      obtain ⟨j, hj, hf⟩ := hbad
      have := (programLoop_ok_inv env _ _ _ _ _ hp).1 j hj
      rw [hf] at this
      cases this
    | halt x => exact ⟨x, hw.trans (by simp only []; rw [hp])⟩
    | stuck => exact absurd hp (programLoop_ne_stuck _ _ _ _ _)

/-- Witness of C18: a full-block write to block 0 of a blank device, every
flash primitive succeeding. -/
theorem no_unverified_program_witness :
    blankDevice.usb_unlocked = true ∧ Committing 0 0 64 ∧
    ∃ (r : Device × Nat) (d1 d3 : Device),
      disk_write 0 (fun _ => true) blankDevice 0 (fun _ => 0xAB) 0 64 = ok r ∧
      setPasswordStep 0 (fun _ => true) blankDevice (fun _ => 0xAB) = ok d1 ∧
      (∀ j, j < 2 * (SECTOR_SIZE / 8) → (fun _ => true) (d3.log.length + j) = true) ∧
      r.1.log = progLog (sectorBeginOf (startOf 0 0)) r.1.sector_buffer (SECTOR_SIZE / 8)
        ++ d3.log := by
  have hw := disk_write_ok 0 (fun _ => true) allOk_true blankDevice 0 (fun _ => 0xAB) 0 64 0 rfl
    (fun ht => absurd ht not_tagged_AB)
  obtain ⟨d1, d3, h1, _, h3, _, h5⟩ :=
    (no_unverified_program 0 (fun _ => true) blankDevice 0 (fun _ => 0xAB) 0 64 rfl
      committing_full_block_0).1
      (writeResult blankDevice 0 (fun _ => 0xAB) 0 64 0, 64 * TRANSFER_SIZE % U32) hw
  exact ⟨rfl, committing_full_block_0, _, d1, d3, hw, h1, h3, h5⟩

theorem eraseAndCheck_ok_inv (env : Nat → Bool) (d d1 : Device) (addr len32 : Nat)
    (h : eraseAndCheck env d addr len32 = ok d1) : d1 = eraseAttempt env d addr len32 := by
  rw [eraseAndCheck_eq] at h
  split at h
  · exact (Outcome.ok.inj h).symm
  · cases h

/-- A call of `set_usb_password` that returns leaves the Lock State, the Sector
Cache and the flag `erase` as they were. -/
theorem set_usb_password_ok_inv (fuel : Nat) (env : Nat → Bool) (d d1 : Device) (password : Mem)
    (h : set_usb_password fuel env d password = ok d1) :
    d1.usb_unlocked = d.usb_unlocked ∧ d1.sector_buffer = d.sector_buffer ∧
      d1.erase = d.erase := by
  unfold set_usb_password at h
  simp only [] at h
  split at h
  · rename_i d0 he
    split at h
    · rename_i n hn
      have e := (programLoop_ok_inv env _ _ _ _ _ h).2
      have e0 : d0.usb_unlocked = d.usb_unlocked ∧ d0.sector_buffer = d.sector_buffer ∧
          d0.erase = d.erase := by
        split at he
        · rw [eraseAndCheck_ok_inv env d d0 _ _ he]
          exact ⟨rfl, rfl, rfl⟩
        · cases he
          exact ⟨rfl, rfl, rfl⟩
      rw [e]
      exact e0
    · cases h
  · cases h
  · cases h

theorem setPasswordStep_ok_inv (fuel : Nat) (env : Nat → Bool) (d d1 : Device) (buf : Mem)
    (h : setPasswordStep fuel env d buf = ok d1) :
    d1.usb_unlocked = d.usb_unlocked ∧ d1.sector_buffer = d.sector_buffer ∧
      d1.erase = d.erase := by
  unfold setPasswordStep at h
  split at h
  · exact set_usb_password_ok_inv fuel env d d1 _ h
  · cases h
    exact ⟨rfl, rfl, rfl⟩

theorem writeRegion_ok_inv (env : Nat → Bool) (d d2 : Device) (buf : Mem) (start off len : Nat)
    (h : writeRegion env d buf start off len = ok d2) : d2.usb_unlocked = d.usb_unlocked := by
  unfold writeRegion at h
  simp only [] at h
  split at h
  · obtain ⟨d3, he, _, e2⟩ := commitSector_ok_inv env _ d2 _ h
    rw [e2, programmedDevice_unlocked, (eraseStep_ok_inv env _ d3 _ he).1, stageWrite_unlocked]
  · cases h
    exact stageWrite_unlocked _ _ _ _ _ _

/-- An unlocked `disk_write` that returns leaves the device unlocked. -/
theorem disk_write_keeps_unlocked (fuel : Nat) (env : Nat → Bool) (d : Device) (lba : Nat)
    (buf : Mem) (off count : Nat) (hu : d.usb_unlocked = true) (r : Device × Nat)
    (h : disk_write fuel env d lba buf off count = ok r) : r.1.usb_unlocked = true := by
  rw [disk_write_unlocked fuel env d lba buf off count hu] at h
  cases hs : setPasswordStep fuel env d buf with
  | ok d1 =>
    have hu1 : d1.usb_unlocked = true := by
      rw [(setPasswordStep_ok_inv fuel env d d1 buf hs).1]
      exact hu
    rw [hs] at h
    simp only [] at h
    split at h
    · cases hw : writeRegion env d1 buf (startOf lba off) off (lenOf count) with
      | ok d2 =>
        rw [hw] at h
        cases h
        show d2.usb_unlocked = true
        rw [writeRegion_ok_inv env d1 d2 buf _ _ _ hw]
        exact hu1
      | halt x =>
        rw [hw] at h
        cases h
      | stuck =>
        rw [hw] at h
        cases h
    · cases h
      exact hu1
  | halt x =>
    rw [hs] at h
    cases h
  | stuck =>
    rw [hs] at h
    cases h

/-- C19. Lock State is monotone within a session: an operation among
`disk_read`, `disk_write`, `disk_ioctl` and `USBDMSCStorageClose` that returns
from an unlocked state leaves the device unlocked, with any statuses of the
flash primitives; and when one returns unlocked from a locked state, it is a
`disk_write` with `off + count * 64 == BLOCK_SIZE` (as the code evaluates it,
in `uint32_t`; over the integers when the sum fits in 32 bits) whose buffer
passes `verify_password`. -/
theorem lock_state_monotone (fuel : Nat) (env : Nat → Bool) (d d1 : Device) (op : SessionOp)
    (h : sessionStep fuel env d op = ok d1) :
    (d.usb_unlocked = true → d1.usb_unlocked = true) ∧
    (d.usb_unlocked = false → d1.usb_unlocked = true →
      ∃ lba buf off count, op = SessionOp.write lba buf off count ∧
        (off + lenOf count) % U32 = BLOCK_SIZE ∧
        (off + count * 64 < U32 → off + count * 64 = BLOCK_SIZE) ∧
        verify_password fuel d.mem buf = some true) := by
  cases op with
  | read lba buf off count =>
    cases h
    exact ⟨fun hu => hu, fun hl hu => by rw [hl] at hu; cases hu⟩
  | ioctl drive command out =>
    cases h
    exact ⟨fun hu => hu, fun hl hu => by rw [hl] at hu; cases hu⟩
  | close =>
    cases h
    exact ⟨fun hu => hu, fun hl hu => by
      have : d.usb_unlocked = true := hu
      rw [hl] at this
      cases this⟩
  | write lba buf off count =>
    have h2 : (match disk_write fuel env d lba buf off count with
        | ok r => ok r.1
        | halt x => halt x
        | stuck => stuck) = ok d1 := h
    clear h
    cases hw : disk_write fuel env d lba buf off count with
    | ok r =>
      rw [hw] at h2
      cases h2
      refine ⟨fun hu => disk_write_keeps_unlocked fuel env d lba buf off count hu r hw, ?_⟩
      intro hl hu1
      rw [disk_write_locked fuel env d lba buf off count hl] at hw
      by_cases hc : (off + count * TRANSFER_SIZE % U32) % U32 = BLOCK_SIZE
      · rw [if_pos hc] at hw
        cases hv : verify_password fuel d.mem buf with
        | some b =>
          rw [hv] at hw
          cases hw
          have hb : b = true := hu1
          subst hb
          refine ⟨lba, buf, off, count, rfl, hc, ?_, hv⟩
          intro hlt
          simp only [TRANSFER_SIZE, U32, BLOCK_SIZE] at hc hlt ⊢
          omega
        | none =>
          rw [hv] at hw
          cases hw
      · rw [if_neg hc] at hw
        cases hw
        rw [hl] at hu1
        cases hu1
    | halt x =>
      rw [hw] at h2
      cases h2
    | stuck =>
      rw [hw] at h2
      cases h2

/-- Witness of C19: the locked device whose record holds `A` is unlocked by the
whole block `UNL0CKK:A`. -/
theorem lock_state_monotone_witness :
    sessionStep 2 (fun _ => true) pwDevice (SessionOp.write 0 tagA 0 64)
      = ok { pwDevice with usb_unlocked := true } ∧
    ∃ lba buf off count, SessionOp.write 0 tagA 0 64 = SessionOp.write lba buf off count ∧
      (off + lenOf count) % U32 = BLOCK_SIZE ∧
      (off + count * 64 < U32 → off + count * 64 = BLOCK_SIZE) ∧
      verify_password 2 pwDevice.mem buf = some true := by
  have hv : verify_password 2 pwDevice.mem tagA = some true :=
    verify_password_accepts 2 pwDevice.mem tagA 1 hasTag_tagA (by norm_num)
      (fun i hi => by
        have e : i = 0 := by omega
        subst e
        exact ⟨by decide, by decide⟩)
      (by decide) (by decide)
  have hs : sessionStep 2 (fun _ => true) pwDevice (SessionOp.write 0 tagA 0 64)
      = ok { pwDevice with usb_unlocked := true } := by
    show (match disk_write 2 (fun _ => true) pwDevice 0 tagA 0 64 with
        | ok r => ok r.1
        | halt x => halt x
        | stuck => stuck) = ok { pwDevice with usb_unlocked := true }
    rw [disk_write_locked 2 (fun _ => true) pwDevice 0 tagA 0 64 rfl, if_pos (by norm_num), hv]
  exact ⟨hs, (lock_state_monotone 2 (fun _ => true) pwDevice _ _ hs).2 rfl rfl⟩

/-! ## The record after a tagged write -/

theorem sectorOf_80 : sectorOf 80 = usb_password := by
  unfold sectorOf
  norm_num [ram_disk, SECTOR_SIZE, usb_password]

theorem slotOf_80 : slotOf 80 = 0 := by
  simp [slotOf]

theorem tagged_tagA : strncmp tagA (ofList TAG) 8 = 0 := by
  rw [strncmp_tag]
  exact hasTag_tagA

/-- C15 (evaluation at the failing input). On the blank unlocked device, with
every status a success, the write of zero transfer units at `off = BLOCK_SIZE`
of the last block (79), its buffer being `UNL0CKK:A`: the set-password step
stores `A` in the Password Record, the range check passes
(`start + len = RAM_DISK_SIZE`), and the commit that follows programs the
Sector Cache over the unit that begins at `usb_password`; the call returns, and
word 0 of the record holds 0, not `A`. -/
theorem tagged_write_at_region_end_overwrites_record :
    HasTag tagA ∧ ld16 tagA 8 = 0x41 ∧ strlen 2 (shift tagA 8) = some 1 ∧
    blankDevice.usb_unlocked = true ∧
    79 * BLOCK_SIZE + BLOCK_SIZE + 0 * 64 ≤ RAM_DISK_SIZE ∧
    (∃ d0, setPasswordStep 2 (fun _ => true) blankDevice tagA = ok d0 ∧
      ld16 d0.mem usb_password = 0x41) ∧
    ∃ d1, disk_write 2 (fun _ => true) blankDevice 79 tagA BLOCK_SIZE 0 = ok (d1, 0) ∧
      ld16 d1.mem usb_password = 0 := by
  refine ⟨hasTag_tagA, by decide, strlen_tagA, rfl, by norm_num, ?_, ?_⟩
  · refine ⟨setPasswordDevice blankDevice (shift tagA 8) 1, ?_, ?_⟩
    · unfold setPasswordStep
      rw [if_pos tagged_tagA]
      exact set_usb_password_ok 2 (fun _ => true) allOk_true blankDevice _ 1 strlen_tagA
    · unfold ld16
      rw [tagA_record_0]
  · have hw := disk_write_ok 2 (fun _ => true) allOk_true blankDevice 79 tagA BLOCK_SIZE 0 1 rfl
      (fun _ => strlen_tagA)
    have e0 : 0 * TRANSFER_SIZE % U32 = 0 := by norm_num
    rw [e0] at hw
    refine ⟨_, hw, ?_⟩
    have hres := writeResult_at_end blankDevice 79 tagA 1 (by norm_num)
    rw [sectorOf_80, slotOf_80] at hres
    unfold ld16
    rw [hres, committedDevice_mem_in _ _ _ (Nat.le_refl _) (by norm_num), stageWrite_sb,
      if_neg (by norm_num), Nat.sub_self]
    unfold ld16
    rw [mergeLoop_apply, if_neg (by omega), afterSetDevice_sb]
    rfl

/-! ## The flag after a commit -/

/-- C20 (evaluation at the failing input). From a device whose flag `erase` is
clear and whose flash holds one programmed word in block 0, the unlocked
full-block write to block 0 (in range, `off + count * 64 = BLOCK_SIZE`, every
status a success) performs a commit with its erase, and returns with the flag
`erase` set to 1: nothing clears it. -/
theorem commit_leaves_flag_set :
    dirtyDevice.usb_unlocked = true ∧ dirtyDevice.erase = 0 ∧ Committing 0 0 64 ∧
    ∃ d1, disk_write 0 (fun _ => true) dirtyDevice 0 (fun _ => 0xAB) 0 64 = ok (d1, 0x1000) ∧
      FlashOp.eraseSector ram_disk ∈ d1.log ∧ d1.erase = 1 := by
  have elen : 64 * TRANSFER_SIZE % U32 = 0x1000 := by norm_num
  have hw := disk_write_ok 0 (fun _ => true) allOk_true dirtyDevice 0 (fun _ => 0xAB) 0 64 0 rfl
    (fun ht => absurd ht not_tagged_AB)
  rw [elen] at hw
  have hres := writeResult_in_block dirtyDevice 0 (fun _ => 0xAB) 0 64 0 (by norm_num)
    (by norm_num) (by norm_num)
  rw [if_pos (by norm_num), afterSetDevice_untagged _ _ _ not_tagged_AB, sectorOf_0] at hres
  have hscan : prescan dirtyDevice.mem (ram_disk + (slotOf 0 + 0 / 2)) (BLOCK_SIZE / 2) = true := by
    have e : ram_disk + (slotOf 0 + 0 / 2) = ram_disk := by simp [slotOf]
    rw [e]
    show prescan dirtyDevice.mem ram_disk (2047 + 1) = true
    apply prescan_first
    unfold ld16 dirtyDevice
    norm_num
  have hflag : (stageWrite dirtyDevice (fun _ => 0xAB) ram_disk (slotOf 0 + 0 / 2) 0
      (64 * 64)).erase = 1 := by
    rw [stageWrite_erase, if_pos ⟨rfl, hscan⟩]
  refine ⟨rfl, rfl, committing_full_block_0, _, hw, ?_, ?_⟩
  · rw [hres, committedDevice_log_erase _ _ (by rw [hflag]; norm_num)]
    simp
  · rw [hres, committedDevice_erase, hflag]

/-! ## The scan of disk_initialize -/

theorem matchAt_iff (haystack needle : Mem) (cur : Nat) : ∀ n,
    (matchAt haystack needle cur n = true ↔
      ∀ i, i < n → ld16 haystack (cur + i) = ld16 needle i) := by
  intro n
  induction n with
  | zero => simp [matchAt]
  | succ n ih =>
    unfold matchAt
    rw [Bool.and_eq_true, ih, beq_iff_eq]
    constructor
    · rintro ⟨h1, h2⟩ i hi
      by_cases e : i = n
      · subst e
        exact h2
      · exact h1 i (by omega)
    · intro h
      exact ⟨fun i hi => h i (by omega), h n (by omega)⟩

/-- The inner loop of `memmem` on the Storage Region, at offset `p`, succeeds
exactly when the marker stands at word `p` of the region. -/
theorem matchAt_marker (mem : Mem) (p : Nat) :
    matchAt (shift mem ram_disk) (ofList magicWords) p 4 = true ↔
      HasMarker (shift mem (ram_disk + p)) := by
  rw [matchAt_iff]
  unfold HasMarker
  have e : ∀ i, ld16 (shift mem ram_disk) (p + i) = ld16 (shift mem (ram_disk + p)) i := by
    intro i
    unfold ld16 shift
    rw [Nat.add_assoc]
  have e2 : ∀ i, i < 4 → ld16 (ofList magicWords) i = magicWords.getD i 0 := by
    intro i hi
    interval_cases i <;> rfl
  constructor
  · intro h i hi
    rw [← e, h i hi, e2 i hi]
  · intro h i hi
    rw [e, h i hi, e2 i hi]

/-- The outer loop of `memmem` returns the first position that matches. -/
theorem memmemFrom_first (haystack needle : Mem) (nlen p : Nat)
    (hp : matchAt haystack needle p nlen = true) : ∀ k cur, cur ≤ p → p < cur + k →
    (∀ q, cur ≤ q → q < p → matchAt haystack needle q nlen = false) →
    memmemFrom haystack needle nlen k cur = some p := by
  intro k
  induction k with
  | zero =>
    intro cur h1 h2
    omega
  | succ k ih =>
    intro cur h1 h2 hfirst
    unfold memmemFrom
    by_cases e : cur = p
    · subst e
      rw [if_pos hp]
    · have hlt : cur < p := by omega
      rw [if_neg (by rw [hfirst cur (Nat.le_refl _) hlt]; exact Bool.false_ne_true)]
      exact ih (cur + 1) (by omega) (by omega) (fun q hq1 hq2 => hfirst q (by omega) hq2)

/-- C16. Open-time scan: `memmem` tries every position of the 0x28000 words of
the Storage Region at which four words fit; when the marker occurs in the
region, at `p` for the first time, `memmem` returns `p`, and disk_initialize can
only return with the Lock State equal to the result of `verify_password` on the
candidate at `p`, whatever the Lock State was; it does return when the two
set-up calls succeed and the stored secret ends within the fuel. -/
theorem open_time_scan (fuel : Nat) (env : Nat → Bool) (d : Device) (p : Nat)
    (hp : p + 4 ≤ 0x28000) (hm : HasMarker (shift d.mem (ram_disk + p)))
    (hfirst : ∀ q, q < p → ¬ HasMarker (shift d.mem (ram_disk + q))) :
    RAM_DISK_SIZE / 2 = 0x28000 ∧
    memmem (shift d.mem ram_disk) (RAM_DISK_SIZE / 2) (ofList magicWords) 4 = some p ∧
    (∀ d1, disk_initialize fuel env d = ok d1 →
      verify_password fuel d.mem (shift d.mem (ram_disk + p)) = some d1.usb_unlocked) ∧
    (∀ n, env d.log.length = true → env (d.log.length + 1) = true →
      ld16 d.mem (usb_password + n) = 0 → n < fuel →
      ∃ d1 b, disk_initialize fuel env d = ok d1 ∧ d1.usb_unlocked = b ∧ d1.mem = d.mem ∧
        verify_password fuel d.mem (shift d.mem (ram_disk + p)) = some b) := by
  have hsize : RAM_DISK_SIZE / 2 = 0x28000 := by norm_num [RAM_DISK_SIZE]
  have hmem : ∀ m : Mem, m = d.mem →
      memmem (shift m ram_disk) (RAM_DISK_SIZE / 2) (ofList magicWords) 4 = some p := by
    intro m e
    subst e
    unfold memmem
    rw [hsize, if_pos (by norm_num)]
    apply memmemFrom_first _ _ _ _ ((matchAt_marker d.mem p).2 hm)
    · exact Nat.zero_le _
    · omega
    · intro q _ hq
      cases hq4 : matchAt (shift d.mem ram_disk) (ofList magicWords) q 4 with
      | false => rfl
      | true => exact absurd ((matchAt_marker d.mem q).1 hq4) (hfirst q hq)
  have hinit : ∀ d0, Init_Flash_Sectors env d = ok d0 →
      disk_initialize fuel env d =
        match verify_password fuel d.mem (shift d.mem (ram_disk + p)) with
        | some b => ok { d0 with usb_unlocked := b }
        | none => stuck := by
    intro d0 h0
    have e := (Init_Flash_Sectors_mem env d d0 h0).1
    unfold disk_initialize
    rw [h0]
    simp only []
    rw [hmem d0.mem e]
    simp only []
    rw [e]
  refine ⟨hsize, hmem _ rfl, ?_, ?_⟩
  · intro d1 h1
    cases h0 : Init_Flash_Sectors env d with
    | ok d0 =>
      rw [hinit d0 h0] at h1
      cases hv : verify_password fuel d.mem (shift d.mem (ram_disk + p)) with
      | some b =>
        rw [hv] at h1
        cases h1
        rfl
      | none =>
        rw [hv] at h1
        cases h1
    | halt x =>
      unfold disk_initialize at h1
      rw [h0] at h1
      cases h1
    | stuck =>
      unfold disk_initialize at h1
      rw [h0] at h1
      cases h1
  · intro n e1 e2 hnul hfuel
    obtain ⟨d0, h0⟩ := Init_Flash_Sectors_ok env d e1 e2
    obtain ⟨b, hv⟩ := verify_password_returns fuel d.mem (shift d.mem (ram_disk + p)) n hnul hfuel
    refine ⟨{ d0 with usb_unlocked := b }, b, ?_, rfl, (Init_Flash_Sectors_mem env d d0 h0).1, hv⟩
    rw [hinit d0 h0, hv]

theorem hasMarker_markedDevice : HasMarker (shift markedDevice.mem (ram_disk + 2)) := by
  intro i hi
  interval_cases i <;> decide

theorem markedDevice_strlen : strlen 2 (shift markedDevice.mem usb_password) = some 1 := by
  apply strlen_spec
  · intro j hj
    interval_cases j
    decide
  · decide
  · norm_num

theorem markedDevice_accepted :
    verify_password 2 markedDevice.mem (shift markedDevice.mem (ram_disk + 2)) = some true := by
  have hs : markerScan (shift markedDevice.mem usb_password)
      (shift (shift markedDevice.mem (ram_disk + 2)) 4) ((1 + 1) / 2) 0 = true := by
    rw [markerScan_iff]
    intro k hk
    have e : k = 0 := by omega
    subst e
    exact ⟨by decide, by decide⟩
  rw [verify_password_marker 2 markedDevice.mem _ 1 (by decide) hasMarker_markedDevice
    markedDevice_strlen (by norm_num), hs]

/-- Witness of C16: the marker stands at word 2 of the region, followed by the
encoding of `A`, the record holds `A`; disk_initialize finds it and unlocks the
device, which was locked. -/
theorem open_time_scan_witness :
    markedDevice.usb_unlocked = false ∧
    memmem (shift markedDevice.mem ram_disk) (RAM_DISK_SIZE / 2) (ofList magicWords) 4 = some 2 ∧
    ∃ d1, disk_initialize 2 (fun _ => true) markedDevice = ok d1 ∧ d1.usb_unlocked = true ∧
      d1.mem = markedDevice.mem := by
  have h := open_time_scan 2 (fun _ => true) markedDevice 2 (by norm_num) hasMarker_markedDevice
    (fun q hq hmk => by
      have h0 := hmk 0 (by norm_num)
      interval_cases q
      · exact absurd h0 (by decide)
      · exact absurd h0 (by decide))
  obtain ⟨d1, b, h1, h2, h3, h4⟩ := h.2.2.2 1 rfl rfl (by decide) (by norm_num)
  have hb : b = true := Option.some.inj (h4.symm.trans markedDevice_accepted)
  exact ⟨rfl, h.2.1, d1, h1, h2.trans hb, h3⟩

/-! ## What a returning write leaves behind -/

theorem eraseAttempt_mem (env : Nat → Bool) (d : Device) (addr len32 a : Nat) :
    (eraseAttempt env d addr len32).mem a =
      if env d.log.length = true ∧ addr ≤ a ∧ a < addr + eraseUnitWords addr then 0xFFFF
      else d.mem a := rfl

theorem eraseAttempt_ulFlags (env : Nat → Bool) (d : Device) (addr len32 : Nat) :
    (eraseAttempt env d addr len32).ulFlags = d.ulFlags := rfl

/-- A call of `set_usb_password` that returns leaves the flash below the
Password Record as it was. -/
theorem set_usb_password_mem_below (fuel : Nat) (env : Nat → Bool) (d d1 : Device)
    (password : Mem) (h : set_usb_password fuel env d password = ok d1) (a : Nat)
    (ha : a < usb_password) : d1.mem a = d.mem a := by
  unfold set_usb_password at h
  simp only [] at h
  split at h
  · rename_i d0 he
    split at h
    · rename_i n hn
      have e := (programLoop_ok_inv env _ _ _ _ _ h).2
      have e0 : d0.mem a = d.mem a := by
        split at he
        · rw [eraseAndCheck_ok_inv env d d0 _ _ he, eraseAttempt_mem, if_neg (by omega)]
        · cases he
          rfl
      rw [e, programmedDevice_mem]
      unfold progMem
      rw [if_neg (by omega)]
      exact e0
    · cases h
  · cases h
  · cases h

theorem setPasswordStep_mem_below (fuel : Nat) (env : Nat → Bool) (d d1 : Device) (buf : Mem)
    (h : setPasswordStep fuel env d buf = ok d1) (a : Nat) (ha : a < usb_password) :
    d1.mem a = d.mem a := by
  unfold setPasswordStep at h
  split at h
  · exact set_usb_password_mem_below fuel env d d1 _ h a ha
  · cases h
    rfl

/-- The shape of the state in which an unlocked `disk_write` returns. -/
theorem disk_write_ok_inv (fuel : Nat) (env : Nat → Bool) (d : Device) (lba : Nat) (buf : Mem)
    (off count : Nat) (hu : d.usb_unlocked = true) (r : Device × Nat)
    (h : disk_write fuel env d lba buf off count = ok r) :
    ∃ d1, setPasswordStep fuel env d buf = ok d1 ∧ r.2 = lenOf count % UINT ∧
      ((startOf lba off + lenOf count) % U32 ≤ RAM_DISK_SIZE →
        ((off + lenOf count) % U32 = BLOCK_SIZE →
          ∃ d3, eraseStep env (stagedDevice d1 lba buf off count)
              (sectorBeginOf (startOf lba off)) = ok d3 ∧
            r.1 = programmedDevice d3 (sectorBeginOf (startOf lba off))
              (stagedDevice d1 lba buf off count).sector_buffer (SECTOR_SIZE / 8)) ∧
        (¬ (off + lenOf count) % U32 = BLOCK_SIZE → r.1 = stagedDevice d1 lba buf off count)) ∧
      (¬ (startOf lba off + lenOf count) % U32 ≤ RAM_DISK_SIZE → r.1 = d1) := by
  rw [disk_write_unlocked fuel env d lba buf off count hu] at h
  cases hs : setPasswordStep fuel env d buf with
  | ok d1 =>
    rw [hs] at h
    simp only [] at h
    refine ⟨d1, rfl, ?_⟩
    by_cases hr : (startOf lba off + lenOf count) % U32 ≤ RAM_DISK_SIZE
    · rw [if_pos hr] at h
      cases hw : writeRegion env d1 buf (startOf lba off) off (lenOf count) with
      | ok d2 =>
        rw [hw] at h
        cases h
        refine ⟨rfl, fun _ => ⟨?_, ?_⟩, fun hn => absurd hr hn⟩
        · intro hc
          unfold writeRegion at hw
          simp only [] at hw
          rw [if_pos hc] at hw
          obtain ⟨d3, he, _, e2⟩ := commitSector_ok_inv env _ d2 _ hw
          exact ⟨d3, he, e2⟩
        · intro hc
          unfold writeRegion at hw
          simp only [] at hw
          rw [if_neg hc] at hw
          exact (Outcome.ok.inj hw).symm
      | halt x =>
        rw [hw] at h
        cases h
      | stuck =>
        rw [hw] at h
        cases h
    · rw [if_neg hr] at h
      cases h
      exact ⟨rfl, fun hp => absurd hp hr, fun _ => rfl⟩
  | halt x =>
    rw [hs] at h
    cases h
  | stuck =>
    rw [hs] at h
    cases h

/-- The pre-scan finds a word exactly when one of the `n` words differs from 0xFFFF. -/
theorem prescan_iff (mem : Mem) (n : Nat) : ∀ a,
    (prescan mem a n = true ↔ ∃ j, j < n ∧ ld16 mem (a + j) ≠ 0xFFFF) := by
  induction n with
  | zero =>
    intro a
    simp [prescan]
  | succ n ih =>
    intro a
    unfold prescan
    by_cases h : ld16 mem a ≠ 0xFFFF
    · rw [if_pos h]
      exact ⟨fun _ => ⟨0, by omega, h⟩, fun _ => rfl⟩
    · rw [if_neg h, ih]
      constructor
      · rintro ⟨j, hj, hne⟩
        exact ⟨j + 1, by omega, by rwa [show a + (j + 1) = a + 1 + j by omega]⟩
      · rintro ⟨j, hj, hne⟩
        cases j with
        | zero => exact absurd hne h
        | succ j => exact ⟨j, by omega, by rwa [show a + 1 + j = a + (j + 1) by omega]⟩

/-- The sector and the index in it that `disk_write` derives for a write inside
block `lba`. -/
theorem sector_of_block (lba off : Nat) (hlba : lba < 80) (hoff : off < BLOCK_SIZE) :
    sectorBeginOf (startOf lba off) = sectorOf lba ∧
      startOf lba off / 2 % SECTOR_SIZE = slotOf lba + off / 2 := by
  unfold sectorBeginOf startOf sectorOf slotOf
  simp only [BLOCK_SIZE, SECTOR_SIZE, U32, ram_disk] at hoff ⊢
  omega

theorem sectorOf_below (lba i : Nat) (hlba : lba < 80) (hi : i < SECTOR_SIZE) :
    sectorOf lba + i < usb_password := by
  unfold sectorOf
  simp only [SECTOR_SIZE, ram_disk, usb_password] at hi ⊢
  omega

/-! ## The first write of a cycle -/

theorem lenOf_half (count : Nat) : (lenOf count + 1) / 2 = lenOf count / 2 := by
  unfold lenOf
  simp only [TRANSFER_SIZE, U32]
  omega

theorem lenOf_small (count : Nat) (h : count * 64 < U32) : lenOf count = count * 64 := by
  unfold lenOf
  simp only [TRANSFER_SIZE, U32] at h ⊢
  omega

theorem stagedDevice_at_zero (d1 : Device) (lba : Nat) (buf : Mem) (count : Nat)
    (hlba : lba < 80) :
    stagedDevice d1 lba buf 0 count =
      stageWrite d1 buf (sectorOf lba) (slotOf lba) 0 (lenOf count) := by
  have h2 : startOf lba 0 / 2 % SECTOR_SIZE = slotOf lba := by
    rw [(sector_of_block lba 0 hlba (by norm_num)).2, Nat.zero_div, Nat.add_zero]
  unfold stagedDevice
  rw [(sector_of_block lba 0 hlba (by norm_num)).1, h2]

/-- A write that returns exists as soon as the primitives succeed and the
string after the tag, when the buffer has the tag, ends within the fuel. -/
theorem disk_write_returns (fuel : Nat) (env : Nat → Bool) (henv : AllOk env) (d : Device)
    (lba : Nat) (buf : Mem) (off count : Nat) (hu : d.usb_unlocked = true)
    (hstr : HasTag buf → ∃ m, m < fuel ∧ ld16 buf (8 + m) = 0) :
    ∃ r, disk_write fuel env d lba buf off count = ok r := by
  by_cases ht : strncmp buf (ofList TAG) 8 = 0
  · obtain ⟨m, hm, h0⟩ := hstr ((strncmp_tag buf).1 ht)
    obtain ⟨n, _, hn, _, _⟩ := strlen_terminates fuel (shift buf 8) m (by simpa using h0) hm
    exact ⟨_, disk_write_ok fuel env henv d lba buf off count n hu (fun _ => hn)⟩
  · exact ⟨_, disk_write_ok fuel env henv d lba buf off count 0 hu (fun h => absurd h ht)⟩

/-- C21. Idle to Accumulating: for every unlocked `disk_write` with `off == 0`
on block `lba < 80` that passes the range check, whenever the call returns,
every Sector Cache word of index below 0x8000 outside the range being written
(the `len / 2` words from the slot of the block on) equals the corresponding
word of the containing Erase Unit, as it was before the call and as it is after
it; the flag `erase` is 1 if one of the 0x800 words of the target block
differed from 0xFFFF before the write, and is as it was otherwise.  The call
returns when the primitives succeed. -/
theorem idle_to_accumulating (fuel : Nat) (env : Nat → Bool) (d : Device) (lba : Nat)
    (buf : Mem) (count : Nat) (hu : d.usb_unlocked = true) (hlba : lba < 80)
    (hin : (startOf lba 0 + lenOf count) % U32 ≤ RAM_DISK_SIZE) :
    (∀ r, disk_write fuel env d lba buf 0 count = ok r →
      (∀ i, i < SECTOR_SIZE → ¬ (slotOf lba ≤ i ∧ i < slotOf lba + lenOf count / 2) →
        ld16 r.1.sector_buffer i = ld16 d.mem (sectorOf lba + i) ∧
        ld16 r.1.mem (sectorOf lba + i) = ld16 d.mem (sectorOf lba + i)) ∧
      ((∃ j, j < 0x800 ∧ ld16 d.mem (sectorOf lba + slotOf lba + j) ≠ 0xFFFF) →
        r.1.erase = 1) ∧
      ((∀ j, j < 0x800 → ld16 d.mem (sectorOf lba + slotOf lba + j) = 0xFFFF) →
        r.1.erase = d.erase)) ∧
    (count * 64 < U32 → lenOf count / 2 = count * 32) ∧
    (AllOk env → (HasTag buf → ∃ m, m < fuel ∧ ld16 buf (8 + m) = 0) →
      ∃ r, disk_write fuel env d lba buf 0 count = ok r) := by
  refine ⟨?_, ?_, fun henv hstr => disk_write_returns fuel env henv d lba buf 0 count hu hstr⟩
  · intro r hr
    obtain ⟨d1, hs, _, hrange, _⟩ := disk_write_ok_inv fuel env d lba buf 0 count hu r hr
    obtain ⟨hcommit, hstage⟩ := hrange hin
    have hmem1 : ∀ a, a < usb_password → d1.mem a = d.mem a :=
      fun a ha => setPasswordStep_mem_below fuel env d d1 buf hs a ha
    have herase1 : d1.erase = d.erase := (setPasswordStep_ok_inv fuel env d d1 buf hs).2.2
    have hst := stagedDevice_at_zero d1 lba buf count hlba
    -- the staged state
    have hsb : ∀ i, i < SECTOR_SIZE → ¬ (slotOf lba ≤ i ∧ i < slotOf lba + lenOf count / 2) →
        (stagedDevice d1 lba buf 0 count).sector_buffer i = d.mem (sectorOf lba + i) := by
      intro i hi hout
      rw [hst, stageWrite_sb, if_pos rfl, mergeLoop_apply, lenOf_half, if_neg hout, if_pos hi]
      exact hmem1 _ (sectorOf_below lba i hlba hi)
    have hscan : prescan d1.mem (sectorOf lba + slotOf lba) (BLOCK_SIZE / 2) = true ↔
        ∃ j, j < 0x800 ∧ ld16 d.mem (sectorOf lba + slotOf lba + j) ≠ 0xFFFF := by
      rw [prescan_iff]
      constructor
      · rintro ⟨j, hj, hne⟩
        refine ⟨j, hj, ?_⟩
        unfold ld16 at hne ⊢
        rwa [hmem1 _ (block_below_password lba j hlba hj)] at hne
      · rintro ⟨j, hj, hne⟩
        refine ⟨j, hj, ?_⟩
        unfold ld16 at hne ⊢
        rwa [hmem1 _ (block_below_password lba j hlba hj)]
    have hflag : (stagedDevice d1 lba buf 0 count).erase =
        if prescan d1.mem (sectorOf lba + slotOf lba) (BLOCK_SIZE / 2) = true then 1
        else d.erase := by
      rw [hst, stageWrite_erase, herase1]
      by_cases hp : prescan d1.mem (sectorOf lba + slotOf lba) (BLOCK_SIZE / 2) = true
      · rw [if_pos ⟨rfl, hp⟩, if_pos hp]
      · rw [if_neg (fun h => hp h.2), if_neg hp]
    -- the returned state
    have hfin : r.1.sector_buffer = (stagedDevice d1 lba buf 0 count).sector_buffer ∧
        r.1.erase = (stagedDevice d1 lba buf 0 count).erase ∧
        ∀ i, i < SECTOR_SIZE → ¬ (slotOf lba ≤ i ∧ i < slotOf lba + lenOf count / 2) →
          ld16 r.1.mem (sectorOf lba + i) = ld16 d.mem (sectorOf lba + i) := by
      by_cases hc : (0 + lenOf count) % U32 = BLOCK_SIZE
      · obtain ⟨d3, he, e⟩ := hcommit hc
        obtain ⟨_, h2, h3, _⟩ := eraseStep_ok_inv env _ d3 _ he
        rw [(sector_of_block lba 0 hlba (by norm_num)).1] at e
        refine ⟨by rw [e, programmedDevice_sb, h2], by rw [e, programmedDevice_erase, h3], ?_⟩
        intro i hi hout
        have hin2 : sectorOf lba ≤ sectorOf lba + i ∧
            sectorOf lba + i < sectorOf lba + 8 * (SECTOR_SIZE / 8) := by
          simp only [SECTOR_SIZE] at hi ⊢
          omega
        unfold ld16
        rw [e, programmedDevice_mem]
        unfold progMem
        rw [if_pos hin2, Nat.add_sub_cancel_left]
        unfold ld16
        rw [Nat.mod_mod, hsb i hi hout]
      · have e := hstage hc
        refine ⟨by rw [e], by rw [e], ?_⟩
        intro i hi _
        unfold ld16
        rw [e, hst, stageWrite_mem, hmem1 _ (sectorOf_below lba i hlba hi)]
    refine ⟨?_, ?_, ?_⟩
    · intro i hi hout
      refine ⟨?_, hfin.2.2 i hi hout⟩
      unfold ld16
      rw [hfin.1, hsb i hi hout]
    · intro hex
      rw [hfin.2.1, hflag, if_pos (hscan.2 hex)]
    · intro hall
      rw [hfin.2.1, hflag, if_neg]
      intro hp
      obtain ⟨j, hj, hne⟩ := hscan.1 hp
      exact hne (hall j hj)
  · intro hlt
    rw [lenOf_small count hlt]
    omega

/-- Witness of C21: on the device whose flash holds one programmed word, at the
start of block 0, the first 64-byte piece of a write to block 0 returns with
the flag `erase` set and with the Sector Cache, past the 32 words written,
equal to Erase Unit 0. -/
theorem idle_to_accumulating_witness :
    ∃ r, disk_write 0 (fun _ => true) dirtyDevice 0 (fun _ => 0xAB) 0 1 = ok r ∧
      r.1.erase = 1 ∧
      ∀ i, i < SECTOR_SIZE → ¬ (slotOf 0 ≤ i ∧ i < slotOf 0 + lenOf 1 / 2) →
        ld16 r.1.sector_buffer i = ld16 dirtyDevice.mem (sectorOf 0 + i) ∧
        ld16 r.1.mem (sectorOf 0 + i) = ld16 dirtyDevice.mem (sectorOf 0 + i) := by
  have T := idle_to_accumulating 0 (fun _ => true) dirtyDevice 0 (fun _ => 0xAB) 1 rfl
    (by norm_num) (by decide)
  obtain ⟨r, hr⟩ := T.2.2 allOk_true (fun ht => absurd ((strncmp_tag _).2 ht) not_tagged_AB)
  refine ⟨r, hr, (T.1 r hr).2.1 ⟨0, by norm_num, ?_⟩, (T.1 r hr).1⟩
  decide

/-! ## When the flash primitives are issued -/

/-- A program loop that halts has issued at least one flash primitive. -/
theorem programLoop_halt_log (env : Nat → Bool) (base : Nat) (src : Mem) (n : Nat)
    (d h : Device) (hh : programLoop env base src n d = halt h) :
    ∃ ops, ops ≠ [] ∧ h.log = ops ++ d.log := by
  induction n with
  | zero =>
    rw [programLoop] at hh
    cases hh
  | succ k ih =>
    cases hk : programLoop env base src k d with
    | ok d0 =>
      have e0 := (programLoop_ok_inv env base src k d d0 hk).2
      subst e0
      rw [programLoop_succ env base src k d hk] at hh
      by_cases h1 : env (d.log.length + 2 * k) = true
      · rw [if_pos h1] at hh
        by_cases h2 : env (d.log.length + 2 * k + 1) = true
        · rw [if_pos h2] at hh
          cases hh
        · rw [if_neg h2] at hh
          cases hh
          exact ⟨FlashOp.verify (base + 8 * k) 4 (chunk src (8 * k)) ::
            FlashOp.program (base + 8 * k) (chunk src (8 * k)) :: progLog base src k,
            by simp, rfl⟩
      · rw [if_neg h1] at hh
        cases hh
        exact ⟨FlashOp.program (base + 8 * k) (chunk src (8 * k)) :: progLog base src k,
          by simp, rfl⟩
    | halt x =>
      rw [programLoop, hk] at hh
      cases hh
      exact ih hk
    | stuck =>
      rw [programLoop, hk] at hh
      cases hh

theorem progLog_ne_nil (base : Nat) (src : Mem) (k : Nat) (hk : 0 < k) :
    progLog base src k ≠ [] := by
  intro h
  have := progLog_length base src k
  rw [h] at this
  simp at this
  omega

/-- A commit issues flash primitives, whether it returns or halts. -/
theorem commitSector_log (env : Nat → Bool) (d : Device) (sector_begin : Nat) :
    (∀ d2, commitSector env d sector_begin = ok d2 → ∃ ops, ops ≠ [] ∧ d2.log = ops ++ d.log) ∧
    (∀ h, commitSector env d sector_begin = halt h → ∃ ops, ops ≠ [] ∧ h.log = ops ++ d.log) := by
  constructor
  · intro d2 h2
    obtain ⟨d3, he, _, e⟩ := commitSector_ok_inv env d d2 sector_begin h2
    rcases (eraseStep_ok_inv env d d3 sector_begin he).2.2.2 with e3 | e3
    · refine ⟨progLog sector_begin d.sector_buffer (SECTOR_SIZE / 8),
        progLog_ne_nil _ _ _ (by norm_num), ?_⟩
      rw [e, programmedDevice_log, e3]
    · refine ⟨progLog sector_begin d.sector_buffer (SECTOR_SIZE / 8) ++
        [FlashOp.blankCheck sector_begin Bzero_64KSector_u32length,
          FlashOp.eraseSector sector_begin], by simp, ?_⟩
      rw [e, programmedDevice_log, e3, eraseAttempt_log]
      simp
  · intro h hh
    rw [commitSector_eq] at hh
    cases he : eraseStep env d sector_begin with
    | ok d3 =>
      rw [he] at hh
      simp only [] at hh
      obtain ⟨ops, hne, hl⟩ := programLoop_halt_log env _ _ _ d3 h hh
      rcases (eraseStep_ok_inv env d d3 sector_begin he).2.2.2 with e3 | e3
      · exact ⟨ops, hne, by rw [hl, e3]⟩
      · refine ⟨ops ++ [FlashOp.blankCheck sector_begin Bzero_64KSector_u32length,
          FlashOp.eraseSector sector_begin], by simp, ?_⟩
        rw [hl, e3, eraseAttempt_log]
        simp
    | halt x =>
      rw [he] at hh
      cases hh
      unfold eraseStep at he
      split at he
      · rw [eraseAndCheck_eq] at he
        split at he
        · cases he
        · cases he
          exact ⟨[FlashOp.blankCheck sector_begin Bzero_64KSector_u32length,
            FlashOp.eraseSector sector_begin], by simp, by rw [eraseAttempt_log]; rfl⟩
      · cases he
    | stuck =>
      rw [he] at hh
      cases hh

/-- C22. Commit trigger: for every unlocked `disk_write` that passes the range
check and whose buffer does not begin with the tag, flash primitives are issued
if and only if `off + count * 64 == BLOCK_SIZE` (as the code evaluates it, in
`uint32_t`; the equation over the integers when the sum fits in 32 bits).  If
it holds, the call returns or halts with a log that has grown; if not, the call
returns with the log, the flash, the Lock State and the drive flags as they
were: only the Sector Cache and the flag `erase` can differ. -/
theorem commit_trigger (fuel : Nat) (env : Nat → Bool) (d : Device) (lba : Nat) (buf : Mem)
    (off count : Nat) (hu : d.usb_unlocked = true) (hnt : ¬ HasTag buf)
    (hin : (startOf lba off + lenOf count) % U32 ≤ RAM_DISK_SIZE) :
    ((off + lenOf count) % U32 = BLOCK_SIZE →
      disk_write fuel env d lba buf off count ≠ stuck ∧
      (∀ r, disk_write fuel env d lba buf off count = ok r →
        ∃ ops, ops ≠ [] ∧ r.1.log = ops ++ d.log) ∧
      (∀ h, disk_write fuel env d lba buf off count = halt h →
        ∃ ops, ops ≠ [] ∧ h.log = ops ++ d.log)) ∧
    (¬ (off + lenOf count) % U32 = BLOCK_SIZE →
      ∃ r, disk_write fuel env d lba buf off count = ok r ∧ r.1.log = d.log ∧
        r.1.mem = d.mem ∧ r.1.usb_unlocked = d.usb_unlocked ∧ r.1.ulFlags = d.ulFlags) ∧
    (off + count * 64 < U32 →
      ((off + lenOf count) % U32 = BLOCK_SIZE ↔ off + count * 64 = BLOCK_SIZE)) := by
  have hset : setPasswordStep fuel env d buf = ok d :=
    setPasswordStep_untagged fuel env d buf (fun h => hnt ((strncmp_tag buf).1 h))
  refine ⟨?_, ?_, ?_⟩
  · intro hc
    have hw := disk_write_commit fuel env d d lba buf off count hu hset ⟨hin, hc⟩
    have hlog := commitSector_log env (stagedDevice d lba buf off count)
      (sectorBeginOf (startOf lba off))
    rw [stagedDevice_log] at hlog
    cases hcs : commitSector env (stagedDevice d lba buf off count)
        (sectorBeginOf (startOf lba off)) with
    | ok d2 =>
      have hw2 : disk_write fuel env d lba buf off count = ok (d2, lenOf count % UINT) :=
        hw.trans (by rw [hcs])
      refine ⟨(by rw [hw2]; exact fun h => (by cases h)), ?_, ?_⟩
      · intro r hr
        rw [hw2] at hr
        cases hr
        exact hlog.1 d2 hcs
      · intro h hh
        rw [hw2] at hh
        cases hh
    | halt x =>
      have hw2 : disk_write fuel env d lba buf off count = halt x :=
        hw.trans (by rw [hcs])
      refine ⟨(by rw [hw2]; exact fun h => (by cases h)), ?_, ?_⟩
      · intro r hr
        rw [hw2] at hr
        cases hr
      · intro h hh
        rw [hw2] at hh
        cases hh
        exact hlog.2 x hcs
    | stuck => exact absurd hcs (commitSector_ne_stuck env _ _)
  · intro hc
    have hw := disk_write_unlocked fuel env d lba buf off count hu
    rw [hset] at hw
    simp only [] at hw
    rw [if_pos hin] at hw
    unfold writeRegion at hw
    simp only [] at hw
    rw [if_neg hc] at hw
    refine ⟨_, hw, stageWrite_log _ _ _ _ _ _, stageWrite_mem _ _ _ _ _ _,
      stageWrite_unlocked _ _ _ _ _ _, ?_⟩
    unfold stageWrite
    split <;> rfl
  · intro hlt
    have e : lenOf count = count * 64 := lenOf_small count (by omega)
    rw [e, Nat.mod_eq_of_lt hlt]

/-- Witness of C22: on the blank device a 64-byte piece at offset 0 issues
nothing, and the full block is committed. -/
theorem commit_trigger_witness :
    (∃ r, disk_write 0 (fun _ => true) blankDevice 0 (fun _ => 0xAB) 0 1 = ok r ∧
      r.1.log = blankDevice.log ∧ r.1.mem = blankDevice.mem) ∧
    (∀ r, disk_write 0 (fun _ => true) blankDevice 0 (fun _ => 0xAB) 0 64 = ok r →
      ∃ ops, ops ≠ [] ∧ r.1.log = ops ++ blankDevice.log) := by
  have hnt : ¬ HasTag (fun _ => 0xAB) := fun h => not_tagged_AB ((strncmp_tag _).2 h)
  have T1 := commit_trigger 0 (fun _ => true) blankDevice 0 (fun _ => 0xAB) 0 1 rfl hnt
    (by decide)
  have T2 := commit_trigger 0 (fun _ => true) blankDevice 0 (fun _ => 0xAB) 0 64 rfl hnt
    (by decide)
  obtain ⟨r, hr, h1, h2, _⟩ := T1.2.1 (by decide)
  exact ⟨⟨r, hr, h1, h2⟩, (T2.1 (by decide)).2.1⟩

/-! ## Reads that pass the range check -/

theorem ld16_openPwDevice_record : ld16 openPwDevice.mem usb_password = 0x41 := by
  decide

/-- C23 (evaluation at the failing input). On an unlocked device whose Password
Record holds `A`, the read `lba = 80, off = 0, count = 0x3FFEC00` passes the
range check, because `start + len = 0x50000 + 0xFFFB0000` wraps to 0 in
`uint32_t`; its first pass reads the storage word of index 0x28000, which is
word 0 of the Password Record, and the buffer returns its low byte in element
0.  The short read `lba = 0xFFFFF, off = 0xFC0, count = 2` passes the check in
the same way and begins at the word of index 0x7FFFFFE0. -/
theorem read_passes_check_outside_region :
    openPwDevice.usb_unlocked = true ∧
    (startOf 80 0 + lenOf 0x3FFEC00) % U32 ≤ RAM_DISK_SIZE ∧
    (startOf 80 0 + 0) % U32 / 2 = 0x28000 ∧
    ram_disk + 0x28000 = usb_password ∧
    ld16 openPwDevice.mem usb_password = 0x41 ∧
    (disk_read openPwDevice 80 (fun _ => 0) 0 0x3FFEC00).1 0 = 0x41 ∧
    (startOf 0xFFFFF 0xFC0 + lenOf 2) % U32 ≤ RAM_DISK_SIZE ∧
    (startOf 0xFFFFF 0xFC0 + 0) % U32 / 2 = 0x7FFFFFE0 ∧
    (disk_read openPwDevice 0xFFFFF (fun _ => 0) 0xFC0 2).1 0
      = ld16 openPwDevice.mem (ram_disk + 0x7FFFFFE0) % 256 := by
  have hu : openPwDevice.usb_unlocked = true := rfl
  have a1 : (80 * BLOCK_SIZE + 0) % U32 = 0x50000 := by norm_num
  have a2 : 0x3FFEC00 * TRANSFER_SIZE % U32 = 0xFFFB0000 := by norm_num
  have a3 : (0x50000 + 0xFFFB0000) % U32 ≤ RAM_DISK_SIZE := by norm_num
  have a4 : (0xFFFB0000 + 1) / 2 = 0x7FFD8000 := by norm_num
  have b1 : (0xFFFFF * BLOCK_SIZE + 0xFC0) % U32 = 0xFFFFFFC0 := by norm_num
  have b2 : 2 * TRANSFER_SIZE % U32 = 128 := by norm_num
  have b3 : (0xFFFFFFC0 + 128) % U32 ≤ RAM_DISK_SIZE := by norm_num
  have b4 : (128 + 1) / 2 = 64 := by norm_num
  have hA : disk_read openPwDevice 80 (fun _ => 0) 0 0x3FFEC00 =
      (readLoop openPwDevice.mem 0x50000 0x7FFD8000 (fun _ => 0), 0xFFFB0000 % UINT) := by
    unfold disk_read
    simp only [hu, Bool.not_true, Bool.false_eq_true, if_false, a1, a2, a3, if_true, a4]
  have hB : disk_read openPwDevice 0xFFFFF (fun _ => 0) 0xFC0 2 =
      (readLoop openPwDevice.mem 0xFFFFFFC0 64 (fun _ => 0), 128 % UINT) := by
    unfold disk_read
    simp only [hu, Bool.not_true, Bool.false_eq_true, if_false, b1, b2, b3, if_true, b4]
  have r0 : ∀ (mem : Mem) (s k : Nat) (buf : Mem), 0 < 2 * k →
      readLoop mem s k buf 0 = ld16 mem (ram_disk + (s + 0) % U32 / 2) % 256 := by
    intro mem s k buf hk
    rw [readLoop_apply, if_pos hk, if_pos (Nat.zero_mod 2)]
  refine ⟨rfl, ?_, ?_, by norm_num, ld16_openPwDevice_record, ?_, ?_, ?_, ?_⟩
  · unfold startOf lenOf
    rw [a1, a2]
    exact a3
  · unfold startOf
    rw [a1]
    norm_num
  · have h1 : (disk_read openPwDevice 80 (fun _ => 0) 0 0x3FFEC00).1 0 =
        readLoop openPwDevice.mem 0x50000 0x7FFD8000 (fun _ => 0) 0 := by rw [hA]
    have e : ram_disk + (0x50000 + 0) % U32 / 2 = usb_password := by norm_num
    rw [h1, r0 _ _ _ _ (by norm_num), e, ld16_openPwDevice_record]
  · unfold startOf lenOf
    rw [b1, b2]
    exact b3
  · unfold startOf
    rw [b1]
    norm_num
  · have h1 : (disk_read openPwDevice 0xFFFFF (fun _ => 0) 0xFC0 2).1 0 =
        readLoop openPwDevice.mem 0xFFFFFFC0 64 (fun _ => 0) 0 := by rw [hB]
    have e : ram_disk + (0xFFFFFFC0 + 0) % U32 / 2 = ram_disk + 0x7FFFFFE0 := by norm_num
    rw [h1, r0 _ _ _ _ (by norm_num), e]

/-! ## Re-opening without a marker -/

theorem memmemFrom_none (haystack needle : Mem) (nlen : Nat) : ∀ k cur,
    (∀ q, cur ≤ q → q < cur + k → matchAt haystack needle q nlen = false) →
    memmemFrom haystack needle nlen k cur = none := by
  intro k
  induction k with
  | zero =>
    intro cur _
    rfl
  | succ k ih =>
    intro cur h
    unfold memmemFrom
    rw [if_neg (by rw [h cur (Nat.le_refl _) (by omega)]; exact Bool.false_ne_true)]
    exact ih (cur + 1) (fun q h1 h2 => h q (by omega) (by omega))

/-- Without the marker in the Storage Region, the scan of disk_initialize finds
nothing. -/
theorem memmem_no_marker (mem : Mem)
    (hno : ∀ p, p + 4 ≤ 0x28000 → ¬ HasMarker (shift mem (ram_disk + p))) :
    memmem (shift mem ram_disk) (RAM_DISK_SIZE / 2) (ofList magicWords) 4 = none := by
  have hsize : RAM_DISK_SIZE / 2 = 0x28000 := by norm_num [RAM_DISK_SIZE]
  unfold memmem
  rw [hsize, if_pos (by norm_num)]
  apply memmemFrom_none
  intro q _ hq
  cases hq4 : matchAt (shift mem ram_disk) (ofList magicWords) q 4 with
  | false => rfl
  | true => exact absurd ((matchAt_marker mem q).1 hq4) (hno q (by omega))

/-- C26. Re-open does not re-lock: if the magic marker does not occur in the
Storage Region and a password is configured (the first word of the Password
Record is not 0xFFFF), disk_initialize finds no marker, never gets stuck, and
whenever it returns the Lock State is as it was; it returns when the two set-up
calls succeed.  In particular `USBDMSCStorageOpen` after `USBDMSCStorageClose`
returns with the Lock State that the device had before the close. -/
theorem reopen_does_not_relock (fuel : Nat) (env : Nat → Bool) (d : Device)
    (hno : ∀ p, p + 4 ≤ 0x28000 → ¬ HasMarker (shift d.mem (ram_disk + p)))
    (hcfg : ld16 d.mem usb_password ≠ 0xFFFF) :
    memmem (shift d.mem ram_disk) (RAM_DISK_SIZE / 2) (ofList magicWords) 4 = none ∧
    (∀ d1, disk_initialize fuel env d = ok d1 → d1.usb_unlocked = d.usb_unlocked) ∧
    disk_initialize fuel env d ≠ stuck ∧
    (env d.log.length = true → env (d.log.length + 1) = true →
      ∃ d1, disk_initialize fuel env d = ok d1 ∧ d1.usb_unlocked = d.usb_unlocked) ∧
    (∀ d2, USBDMSCStorageOpen fuel env (USBDMSCStorageClose d) 0 = ok d2 →
      d2.usb_unlocked = d.usb_unlocked) ∧
    (env d.log.length = true → env (d.log.length + 1) = true →
      ∃ d2, USBDMSCStorageOpen fuel env (USBDMSCStorageClose d) 0 = ok d2 ∧
        d2.usb_unlocked = d.usb_unlocked) := by
  have hinit : ∀ (d0 : Device), d0.mem = d.mem →
      disk_initialize fuel env d0 =
        match Init_Flash_Sectors env d0 with
        | ok d1 => ok d1
        | halt h => halt h
        | stuck => stuck := by
    intro d0 e0
    unfold disk_initialize
    cases h0 : Init_Flash_Sectors env d0 with
    | ok d1 =>
      have e := (Init_Flash_Sectors_mem env d0 d1 h0).1
      simp only []
      rw [e, e0, memmem_no_marker d.mem hno]
      simp only []
      rw [if_neg hcfg]
    | halt x => rfl
    | stuck => rfl
  have hkeep : ∀ (d0 : Device), d0.mem = d.mem → ∀ d1, disk_initialize fuel env d0 = ok d1 →
      d1.usb_unlocked = d0.usb_unlocked := by
    intro d0 e0 d1 h1
    rw [hinit d0 e0] at h1
    cases h0 : Init_Flash_Sectors env d0 with
    | ok d3 =>
      rw [h0] at h1
      cases h1
      exact (Init_Flash_Sectors_mem env d0 d1 h0).2.1
    | halt x =>
      rw [h0] at h1
      cases h1
    | stuck =>
      rw [h0] at h1
      cases h1
  have hret : ∀ (d0 : Device), d0.mem = d.mem → env d0.log.length = true →
      env (d0.log.length + 1) = true → ∃ d1, disk_initialize fuel env d0 = ok d1 := by
    intro d0 e0 h1 h2
    obtain ⟨d1, h0⟩ := Init_Flash_Sectors_ok env d0 h1 h2
    exact ⟨d1, by rw [hinit d0 e0, h0]⟩
  refine ⟨memmem_no_marker d.mem hno, hkeep d rfl, ?_, ?_, ?_, ?_⟩
  · rw [hinit d rfl]
    cases h0 : Init_Flash_Sectors env d with
    | ok d1 => exact fun h => by cases h
    | halt x => exact fun h => by cases h
    | stuck =>
      unfold Init_Flash_Sectors at h0
      simp only [Example_Error] at h0
      split at h0
      · split at h0 <;> cases h0
      · cases h0
  · intro h1 h2
    obtain ⟨d1, hd⟩ := hret d rfl h1 h2
    exact ⟨d1, hd, hkeep d rfl d1 hd⟩
  · intro d2 h2
    unfold USBDMSCStorageOpen at h2
    cases hd : disk_initialize fuel env (USBDMSCStorageClose d) with
    | ok d1 =>
      rw [hd] at h2
      cases h2
      exact hkeep (USBDMSCStorageClose d) rfl d1 hd
    | halt x =>
      rw [hd] at h2
      cases h2
    | stuck =>
      rw [hd] at h2
      cases h2
  · intro h1 h2
    obtain ⟨d1, hd⟩ := hret (USBDMSCStorageClose d) rfl h1 h2
    refine ⟨{ d1 with ulFlags := SDCARD_PRESENT ||| SDCARD_IN_USE }, ?_, ?_⟩
    · unfold USBDMSCStorageOpen
      rw [hd]
    · exact hkeep (USBDMSCStorageClose d) rfl d1 hd

theorem openPwDevice_no_marker (p : Nat) (hp : p + 4 ≤ 0x28000) :
    ¬ HasMarker (shift openPwDevice.mem (ram_disk + p)) := by
  intro h
  have h0 := h 0 (by norm_num)
  have e : ld16 (shift openPwDevice.mem (ram_disk + p)) 0 = 0xFFFF := by
    show (if ram_disk + p + 0 = usb_password then 0x41
      else if ram_disk + p + 0 = usb_password + 1 then 0 else 0xFFFF) % 65536 = 0xFFFF
    rw [if_neg (by simp only [ram_disk, usb_password]; omega),
      if_neg (by simp only [ram_disk, usb_password]; omega)]
  rw [e] at h0
  exact absurd h0 (by decide)

/-- Witness of C26: the unlocked device whose record holds `A` and whose
Storage Region is blank is still unlocked after close and open. -/
theorem reopen_does_not_relock_witness :
    openPwDevice.usb_unlocked = true ∧
    ∃ d2, USBDMSCStorageOpen 0 (fun _ => true) (USBDMSCStorageClose openPwDevice) 0 = ok d2 ∧
      d2.usb_unlocked = openPwDevice.usb_unlocked :=
  ⟨rfl, (reopen_does_not_relock 0 (fun _ => true) openPwDevice openPwDevice_no_marker
    (by decide)).2.2.2.2.2 rfl rfl⟩

/-! ## The assignments of the merge loop -/

/-- The merge loop is the sequence of its assignments. -/
theorem mergeLoop_stores (buf : Mem) (start : Nat) (sb : Mem) : ∀ k,
    mergeLoop buf start k sb =
      (mergeStores buf start k).foldr (fun p m => store m p.1 p.2) sb := by
  intro k
  induction k with
  | zero => rfl
  | succ k ih =>
    unfold mergeLoop mergeStores
    rw [List.foldr_cons, ih]

theorem mem_mergeStores (buf : Mem) (start : Nat) (p : Nat × Nat) : ∀ k,
    (p ∈ mergeStores buf start k ↔
      ∃ j, j < k ∧ p = (start + j, (buf (2 * j) &&& 0xFF) ||| ((buf (2 * j + 1) &&& 0xFF) <<< 8))) := by
  intro k
  induction k with
  | zero => simp [mergeStores]
  | succ k ih =>
    unfold mergeStores
    rw [List.mem_cons, ih, Nat.mul_div_cancel_left k (by norm_num : 0 < 2)]
    constructor
    · rintro (h | ⟨j, hj, h⟩)
      · exact ⟨k, by omega, h⟩
      · exact ⟨j, by omega, h⟩
    · rintro ⟨j, hj, h⟩
      by_cases e : j = k
      · subst e
        exact Or.inl h
      · exact Or.inr ⟨j, by omega, h⟩

/-- C24. Merge stays inside the cache and the target block: for every unlocked
`disk_write` with `lba < 80`, even `off` and `off + count * 64 <= BLOCK_SIZE`,
every assignment of the merge loop has its Sector Cache index in
`[(lba mod 16) * 0x800 + off / 2, (lba mod 16) * 0x800 + (off + count * 64) / 2)`,
hence below `SECTOR_SIZE` and inside the 0x800-word slot of block `lba`, and
stores at position `k` of that range the word
`buffer[2k] & 0xFF | (buffer[2k+1] & 0xFF) << 8`; every position of the range
is assigned; and when the call returns, the Sector Cache is the result of these
assignments on the cache as it was (at `off == 0`: on the copy of the Erase
Unit). -/
theorem merge_stays_in_block (fuel : Nat) (env : Nat → Bool) (d : Device) (lba : Nat)
    (buf : Mem) (off count : Nat) (hu : d.usb_unlocked = true) (hlba : lba < 80)
    (heven : off % 2 = 0) (hle : off + count * 64 ≤ BLOCK_SIZE) :
    (∀ p, p ∈ mergeStores buf (startOf lba off / 2 % SECTOR_SIZE) ((lenOf count + 1) / 2) →
      lba % 16 * 0x800 + off / 2 ≤ p.1 ∧
      p.1 < lba % 16 * 0x800 + (off + count * 64) / 2 ∧
      p.1 < SECTOR_SIZE ∧
      lba % 16 * 0x800 ≤ p.1 ∧ p.1 < lba % 16 * 0x800 + 0x800 ∧
      p.2 = (buf (2 * (p.1 - (lba % 16 * 0x800 + off / 2))) &&& 0xFF) |||
        ((buf (2 * (p.1 - (lba % 16 * 0x800 + off / 2)) + 1) &&& 0xFF) <<< 8)) ∧
    (∀ k, k < count * 32 →
      (lba % 16 * 0x800 + off / 2 + k,
        (buf (2 * k) &&& 0xFF) ||| ((buf (2 * k + 1) &&& 0xFF) <<< 8))
        ∈ mergeStores buf (startOf lba off / 2 % SECTOR_SIZE) ((lenOf count + 1) / 2)) ∧
    (∀ r, disk_write fuel env d lba buf off count = ok r →
      r.1.sector_buffer =
        (mergeStores buf (startOf lba off / 2 % SECTOR_SIZE) ((lenOf count + 1) / 2)).foldr
          (fun p m => store m p.1 p.2)
          (if off = 0 then fun i => if i < SECTOR_SIZE then d.mem (sectorOf lba + i)
                                    else d.sector_buffer i
           else d.sector_buffer)) := by
  have hlen : (lenOf count + 1) / 2 = count * 32 := by
    rw [lenOf_half, lenOf_small count (by simp only [BLOCK_SIZE, U32] at hle ⊢; omega)]
    omega
  have hs3 : 0 < count → startOf lba off / 2 % SECTOR_SIZE = lba % 16 * 0x800 + off / 2 := by
    intro hc
    have e := (sector_of_block lba off hlba (by simp only [BLOCK_SIZE] at hle ⊢; omega)).2
    rw [e]
    rfl
  refine ⟨?_, ?_, ?_⟩
  · intro p hp
    rw [hlen, mem_mergeStores] at hp
    obtain ⟨j, hj, e⟩ := hp
    rw [hs3 (by omega)] at e
    subst e
    simp only [BLOCK_SIZE, SECTOR_SIZE] at hle ⊢
    refine ⟨by omega, by omega, by omega, by omega, by omega, ?_⟩
    rw [Nat.add_sub_cancel_left]
  · intro k hk
    rw [hlen, mem_mergeStores, hs3 (by omega)]
    exact ⟨k, hk, rfl⟩
  · intro r hr
    obtain ⟨d1, hs, _, hrange, _⟩ := disk_write_ok_inv fuel env d lba buf off count hu r hr
    have hin : (startOf lba off + lenOf count) % U32 ≤ RAM_DISK_SIZE := by
      rw [lenOf_small count (by simp only [BLOCK_SIZE, U32] at hle ⊢; omega)]
      unfold startOf
      simp only [BLOCK_SIZE, U32, RAM_DISK_SIZE] at hle ⊢
      omega
    obtain ⟨hcommit, hstage⟩ := hrange hin
    have hsb1 : d1.sector_buffer = d.sector_buffer :=
      (setPasswordStep_ok_inv fuel env d d1 buf hs).2.1
    have hfin : r.1.sector_buffer = (stagedDevice d1 lba buf off count).sector_buffer := by
      by_cases hc : (off + lenOf count) % U32 = BLOCK_SIZE
      · obtain ⟨d3, he, e⟩ := hcommit hc
        rw [e, programmedDevice_sb, (eraseStep_ok_inv env _ d3 _ he).2.1]
      · rw [hstage hc]
    rw [hfin]
    unfold stagedDevice
    rw [stageWrite_sb, mergeLoop_stores, hsb1]
    by_cases h0 : off = 0
    · subst h0
      rw [if_pos rfl, if_pos rfl, (sector_of_block lba 0 hlba (by norm_num)).1]
      have ecopy : (fun i => if i < SECTOR_SIZE then d1.mem (sectorOf lba + i)
            else d.sector_buffer i) =
          (fun i => if i < SECTOR_SIZE then d.mem (sectorOf lba + i)
            else d.sector_buffer i) := by
        funext i
        by_cases hi : i < SECTOR_SIZE
        · rw [if_pos hi, if_pos hi,
            setPasswordStep_mem_below fuel env d d1 buf hs _ (sectorOf_below lba i hlba hi)]
        · rw [if_neg hi, if_neg hi]
      rw [ecopy]
    · rw [if_neg h0, if_neg h0]

/-- Witness of C24: the first 64-byte piece of a write to block 17 on the blank
device. -/
theorem merge_stays_in_block_witness :
    (17 % 16 * 0x800 + 0 / 2 + 0,
      ((fun _ => 0xAB) (2 * 0) &&& 0xFF) ||| (((fun _ => 0xAB) (2 * 0 + 1) &&& 0xFF) <<< 8))
      ∈ mergeStores (fun _ => 0xAB) (startOf 17 0 / 2 % SECTOR_SIZE) ((lenOf 1 + 1) / 2) ∧
    ∀ p, p ∈ mergeStores (fun _ => 0xAB) (startOf 17 0 / 2 % SECTOR_SIZE) ((lenOf 1 + 1) / 2) →
      17 % 16 * 0x800 + 0 / 2 ≤ p.1 ∧
      p.1 < 17 % 16 * 0x800 + (0 + 1 * 64) / 2 ∧
      p.1 < SECTOR_SIZE ∧
      17 % 16 * 0x800 ≤ p.1 ∧ p.1 < 17 % 16 * 0x800 + 0x800 ∧
      p.2 = ((fun _ => 0xAB) (2 * (p.1 - (17 % 16 * 0x800 + 0 / 2))) &&& 0xFF) |||
        (((fun _ => 0xAB) (2 * (p.1 - (17 % 16 * 0x800 + 0 / 2)) + 1) &&& 0xFF) <<< 8) :=
  ⟨(merge_stays_in_block 0 (fun _ => true) blankDevice 17 (fun _ => 0xAB) 0 1 rfl (by norm_num)
    (by norm_num) (by norm_num)).2.1 0 (by norm_num),
   (merge_stays_in_block 0 (fun _ => true) blankDevice 17 (fun _ => 0xAB) 0 1 rfl (by norm_num)
    (by norm_num) (by norm_num)).1⟩

/-! ## The neighbours of a block -/

theorem UntaggedCycle_le : ∀ (pieces : List (Nat × Mem)) (off : Nat),
    UntaggedCycle off pieces → off ≤ BLOCK_SIZE := by
  intro pieces
  induction pieces with
  | nil => intro off h; exact le_of_eq h
  | cons p rest ih =>
    intro off h
    exact le_of_lt h.1

theorem UntaggedCycle_end : ∀ (rest : List (Nat × Mem)),
    UntaggedCycle BLOCK_SIZE rest → rest = [] := by
  intro rest h
  cases rest with
  | nil => rfl
  | cons p rest => exact absurd h.1 (lt_irrefl _)

/-- One untagged piece that does not complete the block keeps the invariant. -/
theorem frameInv_stage (lba : Nat) (d0 d : Device) (buf : Mem) (off count : Nat)
    (hinv : FrameInv lba d0 d off) (hlt : off + count * 64 < BLOCK_SIZE) :
    FrameInv lba d0
      (stageWrite d buf (sectorOf lba) (slotOf lba + off / 2) off (count * 64))
      (off + count * 64) := by
  obtain ⟨hu, hmem, hsb⟩ := hinv
  refine ⟨by rw [stageWrite_unlocked]; exact hu, by rw [stageWrite_mem]; exact hmem, ?_⟩
  intro _ i hi hout
  have hout2 : ¬ (slotOf lba + off / 2 ≤ i ∧ i < slotOf lba + off / 2 + (count * 64 + 1) / 2) := by
    simp only [BLOCK_SIZE] at hlt hout ⊢
    omega
  unfold ld16
  rw [stageWrite_sb, mergeLoop_apply, if_neg hout2]
  by_cases h0 : off = 0
  · rw [if_pos h0, if_pos hi]
    exact hmem _
  · rw [if_neg h0]
    exact hsb h0 i hi hout

/-- The untagged piece that completes the block leaves the flash outside the
block as it was when the cycle began. -/
theorem frameInv_commit (lba : Nat) (d0 d : Device) (buf : Mem) (off count : Nat)
    (hlba : lba < 80) (hinv : FrameInv lba d0 d off) (hfull : off + count * 64 = BLOCK_SIZE)
    (a : Nat) (ha : ¬ InBlock lba a) :
    ld16 (committedDevice
      (stageWrite d buf (sectorOf lba) (slotOf lba + off / 2) off (count * 64))
      (sectorOf lba)).mem a = ld16 d0.mem a := by
  obtain ⟨hu, hmem, hsb⟩ := hinv
  have hsbp : sectorOf lba < usb_password := by
    have := sectorOf_below lba 0 hlba (by norm_num)
    omega
  by_cases h1 : a < sectorOf lba
  · unfold ld16
    rw [committedDevice_mem_below _ _ _ h1, stageWrite_mem]
    exact hmem a
  · by_cases h2 : sectorOf lba + SECTOR_SIZE ≤ a
    · unfold ld16
      rw [committedDevice_mem_above _ _ _ hsbp h2, stageWrite_mem]
      exact hmem a
    · have hi : a - sectorOf lba < SECTOR_SIZE := by omega
      have hout : ¬ (slotOf lba ≤ a - sectorOf lba ∧
          a - sectorOf lba < slotOf lba + BLOCK_SIZE / 2) := by
        unfold InBlock at ha
        omega
      have hout2 : ¬ (slotOf lba + off / 2 ≤ a - sectorOf lba ∧
          a - sectorOf lba < slotOf lba + off / 2 + (count * 64 + 1) / 2) := by
        simp only [BLOCK_SIZE] at hfull hout ⊢
        omega
      have eadd : sectorOf lba + (a - sectorOf lba) = a := by omega
      unfold ld16
      rw [committedDevice_mem_in _ _ _ (by omega) (by omega)]
      unfold ld16
      rw [Nat.mod_mod, stageWrite_sb, mergeLoop_apply, if_neg hout2]
      by_cases h0 : off = 0
      · rw [if_pos h0, if_pos hi, eadd]
        exact hmem a
      · rw [if_neg h0]
        have := hsb h0 _ hi hout
        unfold ld16 at this
        rw [this, eadd]

theorem cycle_frame (fuel : Nat) (env : Nat → Bool) (h : AllOk env) (lba : Nat) (d0 : Device)
    (hlba : lba < 80) : ∀ (pieces : List (Nat × Mem)) (d : Device) (off : Nat),
    FrameInv lba d0 d off → UntaggedCycle off pieces →
    ∃ d1, writeCycle fuel env lba d off pieces = ok d1 ∧
      ∀ a, ¬ InBlock lba a → ld16 d1.mem a = ld16 d0.mem a := by
  intro pieces
  induction pieces with
  | nil =>
    intro d off hinv _
    exact ⟨d, rfl, fun a _ => hinv.2.1 a⟩
  | cons p rest ih =>
    intro d off hinv hcyc
    obtain ⟨count, buf⟩ := p
    obtain ⟨hoff, hnt, hrest⟩ := hcyc
    have hle : off + count * 64 ≤ BLOCK_SIZE := UntaggedCycle_le rest _ hrest
    have hntag : ¬ strncmp buf (ofList TAG) 8 = 0 := fun ht => hnt ((strncmp_tag buf).1 ht)
    have hw := disk_write_ok fuel env h d lba buf off count 0 hinv.1 (fun ht => absurd ht hntag)
    have hres := writeResult_in_block d lba buf off count 0 hlba hoff hle
    rw [afterSetDevice_untagged _ _ _ hntag] at hres
    have hstep : writeCycle fuel env lba d off ((count, buf) :: rest) =
        writeCycle fuel env lba (writeResult d lba buf off count 0)
          (off + count * TRANSFER_SIZE) rest := by
      rw [writeCycle, hw]
    rw [hstep]
    by_cases hfull : off + count * 64 = BLOCK_SIZE
    · rw [if_pos hfull] at hres
      have hnil : rest = [] := UntaggedCycle_end rest (by
        have e : off + count * TRANSFER_SIZE = BLOCK_SIZE := hfull
        rw [e] at hrest
        exact hrest)
      subst hnil
      refine ⟨_, rfl, ?_⟩
      intro a ha
      rw [hres]
      exact frameInv_commit lba d0 d buf off count hlba hinv hfull a ha
    · rw [if_neg hfull] at hres
      have hlt : off + count * 64 < BLOCK_SIZE := lt_of_le_of_ne hle hfull
      have hinv2 := frameInv_stage lba d0 d buf off count hinv hlt
      rw [← hres] at hinv2
      exact ih _ _ hinv2 hrest

/-- C25. A block write preserves its neighbours: for every complete write cycle
to block `lba < 80` on an unlocked device (first call at offset 0, each call
where the previous one ended, only the last call completing the block, buffers
without the set-password tag, primitives succeeding), with any value of the
flag `erase` and any contents of the flash, so whether or not the commit
erases the Erase Unit, the cycle returns, and every word of the flash outside
the 0x800 words of block `lba` has the same value after the cycle as before
it: the rest of the same Erase Unit, the other Erase Units and the Password
Record. -/
theorem block_write_preserves_neighbours (fuel : Nat) (env : Nat → Bool) (d : Device)
    (lba : Nat) (pieces : List (Nat × Mem)) (henv : AllOk env) (hu : d.usb_unlocked = true)
    (hlba : lba < 80) (hcyc : UntaggedCycle 0 pieces) :
    ∃ d1, writeCycle fuel env lba d 0 pieces = ok d1 ∧
      (∀ a, ¬ (sectorOf lba + slotOf lba ≤ a ∧ a < sectorOf lba + slotOf lba + 0x800) →
        ld16 d1.mem a = ld16 d.mem a) ∧
      (∀ i, i < 0x20 → ld16 d1.mem (usb_password + i) = ld16 d.mem (usb_password + i)) := by
  obtain ⟨d1, hd, hframe⟩ := cycle_frame fuel env henv lba d hlba pieces d 0
    ⟨hu, fun _ => rfl, fun h => absurd rfl h⟩ hcyc
  refine ⟨d1, hd, fun a ha => hframe a ha, ?_⟩
  intro i _
  apply hframe
  intro hin
  have := block_below_password lba 0x7FF hlba (by norm_num)
  unfold InBlock at hin
  simp only [BLOCK_SIZE, usb_password] at hin this
  omega

/-- Witness of C25: the full-block write to block 0 of the device whose flash
holds one programmed word in that block; the commit erases Erase Unit 0. -/
theorem block_write_preserves_neighbours_witness :
    ∃ d1, writeCycle 0 (fun _ => true) 0 dirtyDevice 0 [(64, fun _ => 0xAB)] = ok d1 ∧
      (∀ a, ¬ (sectorOf 0 + slotOf 0 ≤ a ∧ a < sectorOf 0 + slotOf 0 + 0x800) →
        ld16 d1.mem a = ld16 dirtyDevice.mem a) ∧
      (∀ i, i < 0x20 →
        ld16 d1.mem (usb_password + i) = ld16 dirtyDevice.mem (usb_password + i)) :=
  block_write_preserves_neighbours 0 (fun _ => true) dirtyDevice 0 [(64, fun _ => 0xAB)]
    allOk_true rfl (by norm_num)
    ⟨by norm_num, fun h => not_tagged_AB ((strncmp_tag _).2 h), by
      show 0 + 64 * TRANSFER_SIZE = BLOCK_SIZE
      norm_num⟩

/-! ## Secrets longer than the record -/

theorem hasTag_tagged (s : Mem) : HasTag (tagged s) := by
  intro i hi
  unfold ld16 tagged
  rw [if_pos hi]
  interval_cases i <;> rfl

theorem ld16_tagged (s : Mem) (i : Nat) : ld16 (tagged s) (8 + i) = ld16 s i := by
  unfold ld16 tagged
  rw [if_neg (by omega), Nat.add_sub_cancel_left]

/-- The local buffer of `set_usb_password` for a string whose length plus one
fits the 16-bit `int`: the first `min (n + 1) 0x20 - 1` characters, then zeros. -/
theorem passwordSlot_small (password : Mem) (n i : Nat) (h : n + 1 < 32768) :
    passwordSlot password n i =
      if i < (if n + 1 > 0x20 then 0x20 else n + 1) - 1 then ld16 password i else 0 := by
  have hcnt : ((((if ((n + 1 : Nat) : Int) > 0x20 then (0x20 : Int) else ((n + 1 : Nat) : Int))
      - 1) % 4294967296).toNat) = (if n + 1 > 0x20 then 0x20 else n + 1) - 1 := by
    by_cases hc : n + 1 > 0x20
    · have hc2 : ((n + 1 : Nat) : Int) > 0x20 := by omega
      rw [if_pos hc, if_pos hc2]
      omega
    · have hc2 : ¬ ((n + 1 : Nat) : Int) > 0x20 := by omega
      rw [if_neg hc, if_neg hc2]
      omega
  unfold passwordSlot
  simp only [toInt16_small (n + 1) h]
  rw [hcnt]

theorem toInt16_65542 : toInt16 (65541 + 1) = 6 := by
  unfold toInt16
  norm_num

/-- The 16-bit `int` wraps: for a string of 65541 characters `len` is 6 and the
`memcpy` takes five characters. -/
theorem passwordSlot_wraps (password : Mem) (i : Nat) :
    passwordSlot password 65541 i = if i < 5 then ld16 password i else 0 := by
  unfold passwordSlot
  simp only [toInt16_65542]
  norm_num

/-- The record after `set_usb_password` has stored a secret of more than 31
characters, whose length plus one fits the 16-bit `int`: its first 31
characters, then 0. -/
theorem setPasswordDevice_truncated (d : Device) (s : Mem) (n : Nat) (hlen : 31 < n)
    (hfit : n + 1 < 32768) :
    (∀ i, i < 31 → ld16 (setPasswordDevice d s n).mem (usb_password + i) = ld16 s i) ∧
    ld16 (setPasswordDevice d s n).mem (usb_password + 31) = 0 := by
  have hslot : ∀ i, passwordSlot s n i = if i < 31 then ld16 s i else 0 := by
    intro i
    rw [passwordSlot_small s n i hfit, if_pos (show n + 1 > 0x20 by omega)]
  constructor
  · intro i hi
    unfold ld16
    rw [setPasswordDevice_record d s n i (by omega)]
    unfold ld16
    rw [hslot, if_pos hi]
    unfold ld16
    rw [Nat.mod_mod, Nat.mod_mod]
  · unfold ld16
    rw [setPasswordDevice_record d s n 31 (by omega)]
    unfold ld16
    rw [hslot, if_neg (by omega)]

/-- C27 (amended). Oversized secrets lock out their own password: for every
secret `s` of more than 31 and fewer than 32767 non-NUL characters (so that
`strlen + 1` fits the 16-bit `int`) whose first character is not 0xFFFF,
`set_usb_password` (primitives succeeding) stores the first 31
characters of `s` followed by 0; afterwards `verify_password` rejects every
candidate that holds `UNL0CKK:` followed by `s`, and accepts every candidate
that holds `UNL0CKK:` followed by the first 31 characters of `s`. -/
theorem oversized_secret_locked_out (fuel : Nat) (env : Nat → Bool) (d : Device) (s : Mem)
    (n : Nat) (henv : AllOk env) (hlen : 31 < n) (hint : n < 0x7FFF)
    (hne : ∀ i, i < n → ld16 s i ≠ 0)
    (hnul : ld16 s n = 0) (hfuel : n < fuel) (hfirst : ld16 s 0 ≠ 0xFFFF) :
    ∃ d1, set_usb_password fuel env d s = ok d1 ∧
      (∀ i, i < 31 → ld16 d1.mem (usb_password + i) = ld16 s i) ∧
      ld16 d1.mem (usb_password + 31) = 0 ∧
      (∀ cand, HasTag cand → (∀ i, i ≤ n → ld16 cand (8 + i) = ld16 s i) →
        verify_password fuel d1.mem cand = some false) ∧
      (∀ cand, HasTag cand → (∀ i, i < 31 → ld16 cand (8 + i) = ld16 s i) →
        ld16 cand (8 + 31) = 0 → verify_password fuel d1.mem cand = some true) := by
  have hstr : strlen fuel s = some n := strlen_spec fuel s n hne hnul hfuel
  obtain ⟨hrec, hrec31⟩ := setPasswordDevice_truncated d s n hlen (by omega)
  refine ⟨setPasswordDevice d s n, set_usb_password_ok fuel env henv d s n hstr, hrec, hrec31,
    ?_, ?_⟩
  · intro cand ht hc
    have hcfg : ld16 (setPasswordDevice d s n).mem usb_password ≠ 0xFFFF := by
      have := hrec 0 (by norm_num)
      rw [Nat.add_zero] at this
      rw [this]
      exact hfirst
    have hnm : ¬ HasMarker cand := fun hm => not_HasTag_of_HasMarker cand hm ht
    obtain ⟨b, hb, hiff⟩ := verify_password_no_marker fuel (setPasswordDevice d s n).mem cand 31
      hcfg hnm hrec31 (by omega)
    have hneq : ¬ StrEq (shift cand 8) (shift (setPasswordDevice d s n).mem usb_password) := by
      apply not_StrEq_of_diff _ _ 31
      · rw [ld16_shift, ld16_shift, hc 31 (by omega), hrec31]
        exact hne 31 hlen
      · intro j hj
        rw [ld16_shift, hrec j hj]
        exact hne j (by omega)
    cases b with
    | false => exact hb
    | true => exact absurd (hiff.1 rfl).2 hneq
  · intro cand ht hc hc0
    exact verify_password_accepts fuel (setPasswordDevice d s n).mem cand 31 ht (by omega)
      (fun i hi => ⟨by rw [hc i hi, hrec i hi], by rw [hc i hi]; exact hne i (by omega)⟩)
      hc0 hrec31

theorem longSecret_ne (i : Nat) (hi : i < 32) : ld16 longSecret i ≠ 0 := by
  unfold ld16 longSecret
  rw [if_pos hi]
  decide

theorem ffSecret_ne (i : Nat) (hi : i < 32) : ld16 ffSecret i ≠ 0 := by
  unfold ld16 ffSecret
  by_cases h0 : i = 0
  · rw [if_pos h0]
    decide
  · rw [if_neg h0, if_pos hi]
    decide

/-- Witness of C27: the secret of 32 characters `A`, set on the blank device. -/
theorem oversized_secret_locked_out_witness :
    ∃ d1, set_usb_password 33 (fun _ => true) blankDevice longSecret = ok d1 ∧
      ld16 d1.mem (usb_password + 31) = 0 ∧
      verify_password 33 d1.mem (tagged longSecret) = some false := by
  obtain ⟨d1, h1, _, h3, h4, _⟩ := oversized_secret_locked_out 33 (fun _ => true) blankDevice
    longSecret 32 allOk_true (by norm_num) (by norm_num) longSecret_ne (by decide) (by norm_num)
    (by decide)
  exact ⟨d1, h1, h3, h4 (tagged longSecret) (hasTag_tagged _) (fun i _ => ld16_tagged _ i)⟩

/-- C27 (counterexample). The secret has 32 non-NUL characters and its first
character is 0xFFFF.  `set_usb_password` stores its first 31 characters, so
word 0 of the Password Record is 0xFFFF, the value that stands for "no
password": `verify_password` accepts the candidate `UNL0CKK:` followed by the
whole secret. -/
theorem secret_starting_ffff_is_no_password :
    (∀ i, i < 32 → ld16 ffSecret i ≠ 0) ∧ ld16 ffSecret 32 = 0 ∧ ld16 ffSecret 0 = 0xFFFF ∧
    HasTag (tagged ffSecret) ∧ (∀ i, ld16 (tagged ffSecret) (8 + i) = ld16 ffSecret i) ∧
    ∃ d1, set_usb_password 33 (fun _ => true) blankDevice ffSecret = ok d1 ∧
      ld16 d1.mem usb_password = 0xFFFF ∧
      verify_password 33 d1.mem (tagged ffSecret) = some true := by
  have hstr : strlen 33 ffSecret = some 32 :=
    strlen_spec 33 ffSecret 32 ffSecret_ne (by decide) (by norm_num)
  have hrec := (setPasswordDevice_truncated blankDevice ffSecret 32 (by norm_num)
    (by norm_num)).1 0 (by norm_num)
  rw [Nat.add_zero] at hrec
  have h0 : ld16 ffSecret 0 = 0xFFFF := by decide
  refine ⟨ffSecret_ne, by decide, h0, hasTag_tagged _, fun i => ld16_tagged _ i,
    setPasswordDevice blankDevice ffSecret 32,
    set_usb_password_ok 33 (fun _ => true) allOk_true blankDevice ffSecret 32 hstr,
    hrec.trans h0, ?_⟩
  exact verify_password_empty 33 _ _ (hrec.trans h0)

/-! ## The marker that a set-password write leaves on the disk -/

/-- With the first marker of the Storage Region at word `p`, disk_initialize
sets the Lock State to the result of `verify_password` on the candidate there. -/
theorem disk_initialize_first_marker (fuel : Nat) (env : Nat → Bool) (d : Device) (p : Nat)
    (hp : p + 4 ≤ 0x28000) (hm : HasMarker (shift d.mem (ram_disk + p)))
    (hfirst : ∀ q, q < p → ¬ HasMarker (shift d.mem (ram_disk + q))) (b : Bool)
    (hv : verify_password fuel d.mem (shift d.mem (ram_disk + p)) = some b) :
    (∀ d1, disk_initialize fuel env d = ok d1 → d1.usb_unlocked = b) ∧
    (env d.log.length = true → env (d.log.length + 1) = true →
      ∃ d1, disk_initialize fuel env d = ok d1 ∧ d1.usb_unlocked = b) := by
  have hsize : RAM_DISK_SIZE / 2 = 0x28000 := by norm_num [RAM_DISK_SIZE]
  have hmem : memmem (shift d.mem ram_disk) (RAM_DISK_SIZE / 2) (ofList magicWords) 4
      = some p := by
    unfold memmem
    rw [hsize, if_pos (by norm_num)]
    apply memmemFrom_first _ _ _ _ ((matchAt_marker d.mem p).2 hm)
    · exact Nat.zero_le _
    · omega
    · intro q _ hq
      cases hq4 : matchAt (shift d.mem ram_disk) (ofList magicWords) q 4 with
      | false => rfl
      | true => exact absurd ((matchAt_marker d.mem q).1 hq4) (hfirst q hq)
  have hinit : ∀ d0, Init_Flash_Sectors env d = ok d0 →
      disk_initialize fuel env d = ok { d0 with usb_unlocked := b } := by
    intro d0 h0
    have e := (Init_Flash_Sectors_mem env d d0 h0).1
    unfold disk_initialize
    rw [h0]
    simp only []
    rw [e, hmem]
    simp only []
    rw [hv]
  constructor
  · intro d1 h1
    cases h0 : Init_Flash_Sectors env d with
    | ok d0 =>
      rw [hinit d0 h0] at h1
      cases h1
      rfl
    | halt x =>
      unfold disk_initialize at h1
      rw [h0] at h1
      cases h1
    | stuck =>
      unfold disk_initialize at h1
      rw [h0] at h1
      cases h1
  · intro e1 e2
    obtain ⟨d0, h0⟩ := Init_Flash_Sectors_ok env d e1 e2
    exact ⟨_, hinit d0 h0, rfl⟩

theorem block_addr (lba : Nat) : sectorOf lba + slotOf lba = ram_disk + lba * 0x800 := by
  unfold sectorOf slotOf
  simp only [SECTOR_SIZE, BLOCK_SIZE]
  omega

theorem tagged_lo (s : Mem) (i : Nat) (hi : i < 8) : tagged s i = TAG.getD i 0 := by
  unfold tagged
  rw [if_pos hi]

theorem tagged_hi (s : Mem) (i : Nat) : tagged s (8 + i) = s i := by
  unfold tagged
  rw [if_neg (by omega), Nat.add_sub_cancel_left]

/-- The first four words packed from a tagged buffer are the magic marker. -/
theorem packWord_tagged_marker (s : Mem) (k : Nat) (hk : k < 4) :
    packWord (tagged s) k = magicWords.getD k 0 := by
  unfold packWord
  rw [tagged_lo s (2 * k) (by omega), tagged_lo s (2 * k + 1) (by omega)]
  interval_cases k <;> rfl

/-- The words packed after them hold the bytes of `s`, two per word. -/
theorem packWord_tagged_secret (s : Mem) (hb : ∀ i, s i < 256) (k : Nat) :
    packWord (tagged s) (4 + k) = s (2 * k) + 256 * s (2 * k + 1) := by
  unfold packWord
  rw [show 2 * (4 + k) = 8 + 2 * k by omega, show 8 + 2 * k + 1 = 8 + (2 * k + 1) by omega,
    tagged_hi, tagged_hi, Nat.mod_eq_of_lt (hb _), Nat.mod_eq_of_lt (hb _)]

/-- The flash after the full-block write of `UNL0CKK:` followed by the bytes of
`s`: the block holds the packed buffer, the record holds `s`, and the flash
below the block is as it was. -/
theorem tagged_block_write (d : Device) (lba : Nat) (s : Mem) (n : Nat)
    (hu : d.usb_unlocked = true) (hlba : lba < 80) (hn : n ≤ 31)
    (hb : ∀ i, s i < 256) (hz : ∀ i, n ≤ i → s i = 0) :
    (∀ k, k < 0x800 →
      ld16 (writeResult d lba (tagged s) 0 64 n).mem (ram_disk + lba * 0x800 + k)
        = packWord (tagged s) k) ∧
    (∀ a, a < ram_disk + lba * 0x800 →
      ld16 (writeResult d lba (tagged s) 0 64 n).mem a = ld16 d.mem a) ∧
    (∀ i, i < 32 → ld16 (writeResult d lba (tagged s) 0 64 n).mem (usb_password + i) = s i) := by
  have htag : strncmp (tagged s) (ofList TAG) 8 = 0 := (strncmp_tag _).2 (hasTag_tagged s)
  have hinv : CycleInv lba (tagged s) (writeResult d lba (tagged s) 0 64 n) (0 + 64 * 64) :=
    writeResult_inv lba (tagged s) d (tagged s) 0 64 n hlba
      ⟨hu, fun k hk => absurd hk (by omega), fun h => absurd h (by norm_num)⟩ rfl (by norm_num)
      (fun i _ => by rw [Nat.zero_add])
  have hres := writeResult_in_block d lba (tagged s) 0 64 n hlba (by norm_num) (by norm_num)
  rw [if_pos (by norm_num)] at hres
  have hframe : ∀ a, ¬ InBlock lba a →
      ld16 (writeResult d lba (tagged s) 0 64 n).mem a
        = ld16 (afterSetDevice d (tagged s) n).mem a := by
    intro a ha
    rw [hres]
    exact frameInv_commit lba (afterSetDevice d (tagged s) n) (afterSetDevice d (tagged s) n)
      (tagged s) 0 64 hlba
      ⟨by rw [afterSetDevice_unlocked]; exact hu, fun _ => rfl, fun h => absurd rfl h⟩
      (by norm_num) a ha
  refine ⟨?_, ?_, ?_⟩
  · intro k hk
    rw [← block_addr]
    exact hinv.2.2 (by norm_num) k hk
  · intro a ha
    have hpw : a < usb_password := by
      have := block_below_password lba 0 hlba (by norm_num)
      rw [block_addr] at this
      omega
    rw [hframe a (by unfold InBlock; rw [block_addr]; omega)]
    unfold ld16
    rw [afterSetDevice_mem_below _ _ _ _ hpw]
  · intro i hi
    have hout : ¬ InBlock lba (usb_password + i) := by
      have := block_below_password lba 0x7FF hlba (by norm_num)
      unfold InBlock
      simp only [BLOCK_SIZE, usb_password] at this ⊢
      omega
    rw [hframe _ hout]
    unfold afterSetDevice
    rw [if_pos htag]
    unfold ld16
    rw [setPasswordDevice_record _ _ _ i (by omega)]
    unfold ld16
    have hslot : passwordSlot (shift (tagged s) 8) n i = s i := by
      rw [passwordSlot_small _ n i (by omega), if_neg (show ¬ n + 1 > 0x20 by omega)]
      by_cases hin : i < n
      · rw [if_pos (by omega), ld16_shift, ld16_tagged]
        unfold ld16
        exact Nat.mod_eq_of_lt (lt_trans (hb i) (by norm_num))
      · rw [if_neg (by omega), hz i (by omega)]
    rw [hslot, Nat.mod_mod]
    exact Nat.mod_eq_of_lt (lt_trans (hb i) (by norm_num))

/-- C28. A set-password write leaves an auto-unlocking record on the disk: for
every secret `s` of `n <= 31` non-NUL bytes, followed by zero bytes, if an
unlocked device receives `disk_write(lba < 80, off = 0, len = BLOCK_SIZE)` with
the buffer `UNL0CKK:` followed by `s`, the primitives succeed and the magic
marker occurs nowhere in the Storage Region below block `lba`, then the write
returns, the committed block begins with the four words of the magic marker,
followed by `s` packed two bytes per word, the Password Record holds `s`, and
disk_initialize, run on any state with this flash, can only return with the
device unlocked; it returns when its two set-up calls succeed. -/
theorem set_password_write_auto_unlocks (fuel : Nat) (env : Nat → Bool) (d : Device)
    (lba : Nat) (s : Mem) (n : Nat) (henv : AllOk env) (hu : d.usb_unlocked = true)
    (hlba : lba < 80) (hn : n ≤ 31) (hfuel : n < fuel)
    (hs : ∀ i, i < n → s i ≠ 0 ∧ s i < 256) (hz : ∀ i, n ≤ i → s i = 0)
    (hno : ∀ p, p + 4 ≤ lba * 0x800 → ¬ HasMarker (shift d.mem (ram_disk + p))) :
    ∃ r, disk_write fuel env d lba (tagged s) 0 64 = ok r ∧
      HasMarker (shift r.1.mem (ram_disk + lba * 0x800)) ∧
      (∀ k, 4 + k < 0x800 →
        ld16 r.1.mem (ram_disk + lba * 0x800 + 4 + k) = s (2 * k) + 256 * s (2 * k + 1)) ∧
      (∀ i, i < 32 → ld16 r.1.mem (usb_password + i) = s i) ∧
      ∀ (fuel1 : Nat) (env1 : Nat → Bool) (d1 : Device), d1.mem = r.1.mem → n < fuel1 →
        (∀ d2, disk_initialize fuel1 env1 d1 = ok d2 → d2.usb_unlocked = true) ∧
        (env1 d1.log.length = true → env1 (d1.log.length + 1) = true →
          ∃ d2, disk_initialize fuel1 env1 d1 = ok d2 ∧ d2.usb_unlocked = true) := by
  have hb : ∀ i, s i < 256 := by
    intro i
    by_cases hi : i < n
    · exact (hs i hi).2
    · rw [hz i (by omega)]
      norm_num
  have hstr : strlen fuel (shift (tagged s) 8) = some n := by
    apply strlen_spec _ _ _ _ _ hfuel
    · intro j hj
      rw [ld16_shift, ld16_tagged]
      unfold ld16
      rw [Nat.mod_eq_of_lt (lt_trans (hb j) (by norm_num))]
      exact (hs j hj).1
    · rw [ld16_shift, ld16_tagged]
      unfold ld16
      rw [hz n (Nat.le_refl _)]
  have hw := disk_write_ok fuel env henv d lba (tagged s) 0 64 n hu (fun _ => hstr)
  obtain ⟨hblock, hbelow, hrec⟩ := tagged_block_write d lba s n hu hlba hn hb hz
  refine ⟨_, hw, ?_, ?_, hrec, ?_⟩
  · intro i hi
    rw [ld16_shift, hblock i (by omega)]
    exact packWord_tagged_marker s i hi
  · intro k hk
    rw [Nat.add_assoc, hblock (4 + k) hk]
    exact packWord_tagged_secret s hb k
  · intro fuel1 env1 d1 hd1 hfuel1
    have hd1' : d1.mem = (writeResult d lba (tagged s) 0 64 n).mem := hd1
    have hm : HasMarker (shift d1.mem (ram_disk + lba * 0x800)) := by
      intro i hi
      rw [hd1', ld16_shift, hblock i (by omega)]
      exact packWord_tagged_marker s i hi
    have hfirst : ∀ q, q < lba * 0x800 → ¬ HasMarker (shift d1.mem (ram_disk + q)) := by
      intro q hq hmq
      by_cases hfit : q + 4 ≤ lba * 0x800
      · apply hno q hfit
        intro i hi
        have := hmq i hi
        rwa [hd1', ld16_shift, hbelow _ (by omega), ← ld16_shift] at this
      · have hi : lba * 0x800 - q < 4 := by omega
        have := hmq (lba * 0x800 - q) hi
        rw [hd1', ld16_shift, show ram_disk + q + (lba * 0x800 - q) = ram_disk + lba * 0x800 + 0
          by omega, hblock 0 (by norm_num), packWord_tagged_marker s 0 (by norm_num)] at this
        have h1 : 0 < lba * 0x800 - q := by omega
        generalize lba * 0x800 - q = j at hi h1 this
        interval_cases j <;> simp at this
    have hcfg : ld16 d1.mem usb_password ≠ 0xFFFF := by
      have := hrec 0 (by norm_num)
      rw [Nat.add_zero] at this
      rw [hd1', this]
      exact ne_of_lt (lt_trans (hb 0) (by norm_num))
    have hlen : strlen fuel1 (shift d1.mem usb_password) = some n := by
      apply strlen_spec _ _ _ _ _ hfuel1
      · intro j hj
        rw [ld16_shift, hd1', hrec j (by omega)]
        exact (hs j hj).1
      · rw [ld16_shift, hd1', hrec n (by omega)]
        exact hz n (Nat.le_refl _)
    have hscan : markerScan (shift d1.mem usb_password)
        (shift (shift d1.mem (ram_disk + lba * 0x800)) 4) ((n + 1) / 2) 0 = true := by
      rw [markerScan_iff]
      intro k hk
      have hcand : ld16 (shift (shift d1.mem (ram_disk + lba * 0x800)) 4) ((0 + 2 * k) / 2)
          = s (2 * k) + 256 * s (2 * k + 1) := by
        rw [show (0 + 2 * k) / 2 = k by omega, ld16_shift, ld16_shift, hd1',
          hblock (4 + k) (by omega)]
        exact packWord_tagged_secret s hb k
      have h1 := hb (2 * k)
      have h2 := hb (2 * k + 1)
      rw [hcand, and_ff, shr_8, ld16_shift, ld16_shift, hd1', hrec (0 + 2 * k) (by omega),
        hrec (0 + 2 * k + 1) (by omega), Nat.zero_add]
      constructor <;> omega
    have hv : verify_password fuel1 d1.mem (shift d1.mem (ram_disk + lba * 0x800)) = some true := by
      rw [verify_password_marker fuel1 d1.mem _ n hcfg hm hlen (by omega), hscan]
    exact disk_initialize_first_marker fuel1 env1 d1 (lba * 0x800) (by omega) hm hfirst true hv

theorem secretA_bytes (i : Nat) (hi : i < 1) : secretA i ≠ 0 ∧ secretA i < 256 := by
  have e : i = 0 := by omega
  subst e
  exact ⟨by decide, by decide⟩

/-- Witness of C28: the secret `A` set by a write to block 0 of the blank
device; the device, locked afterwards, is unlocked by disk_initialize. -/
theorem set_password_write_auto_unlocks_witness :
    ∃ r, disk_write 2 (fun _ => true) blankDevice 0 (tagged secretA) 0 64 = ok r ∧
      HasMarker (shift r.1.mem (ram_disk + 0 * 0x800)) ∧
      ld16 r.1.mem (usb_password + 0) = secretA 0 ∧
      ∃ d2, disk_initialize 2 (fun _ => true) { r.1 with usb_unlocked := false } = ok d2 ∧
        d2.usb_unlocked = true := by
  obtain ⟨r, h1, h2, _, h4, h5⟩ := set_password_write_auto_unlocks 2 (fun _ => true) blankDevice
    0 secretA 1 allOk_true rfl (by norm_num) (by norm_num) (by norm_num) secretA_bytes
    (fun i hi => by
      unfold secretA
      rw [if_neg (by omega)])
    (fun p hp => absurd hp (by omega))
  exact ⟨r, h1, h2, h4 0 (by norm_num),
    (h5 2 (fun _ => true) { r.1 with usb_unlocked := false } rfl (by norm_num)).2 rfl rfl⟩

end FlashDisk
